import Mathlib

/-!
# DJI 1 PM close prediction engine: verification development

Shallow embedding of `src/dji_1pm_close/dji_1pm_prediction.c` (and of the C++
variant `dji_1pm_prediction.cpp` where the two differ), and of the functions
`compress_price`, `decompress_price` and `detect_patterns` of
`src/gas_yfinance_predictor/ticker_analyzer.c`.

Modelling conventions.

* A C `double` is modelled by an element of a linearly ordered field `α`
  (exact arithmetic); theorems instantiate `α := ℝ`.  The three libm functions
  the code calls (`exp`, `log`, `sqrt`) are passed as arguments, so every
  definition is computable and can be run over `ℚ`; theorems pass
  `Real.exp`, `Real.log`, `Real.sqrt`.  The rounding of an operation to `double` is
  modelled where the result of the code depends on it through a conversion to an integer:
  in `compress_price` and `decompress_price` (`round_double`).
* `unsigned long` is 64 bits wide (LP64); `unsigned int` is 32 bits wide.
  `uniform_random` only looks at the low 31 bits of the state, which do not
  depend on the width (see `uniform_random_low_bits`).
* The file-scope `lcg_state` and the function-local statics `has_spare`,
  `spare` of `normal_random` form the explicit state `RngState`.
* The `do ... while` rejection loop of `normal_random` takes a fuel argument
  (number of iterations allowed) and returns `none` when it is exhausted.
* A `double*` buffer or a `std::vector<double>` is a `List`; a store `a[i] = v` is
  `List.set`, and the content of a C buffer on entry is an argument of the function.
  Entries are plain numbers where the code only stores finite values, and `Dbl` values in
  the stratified sampler, whose quantile can be infinite.  Allocation is assumed to succeed.
* The C++ generator (`std::mt19937_64` with the standard distributions) is not modelled:
  the C++ functions take the calls `normal()` and `uniform()` as functions on an abstract
  generator state.
* `run_simulation` is modelled by the slices the statements are about: the two Monte Carlo
  calls that precede `variance_reduction` (`run_simulation_mc`, `variance_reduction`) and the
  confidence interval (`confidence_interval`); `run_simulation_finish` is the part after the
  Monte Carlo statistics (steps 4 to 8), as a function of the record those statistics fill.
* Division by zero and the domain errors of `log` and `sqrt` are not modelled: the
  statements carry the hypotheses that keep the code away from them.  A NaN is modelled
  where the code returns one (`factorial`) and where the parser can return one (the
  configuration loaders).
* `pow(x, n)` with an `int` exponent `n ≥ 0` is `x ^ n`.
* `uint32_t` and `uint64_t` values are natural numbers; `uint32_t` arithmetic is reduced
  modulo `2^32`, and the bit operations of `detect_patterns` stay far below `2^64`.
* The configuration loaders take the values parsed from the environment (the results of
  `atof`, `atoi`, `std::stod`, `std::stoi`).  A parsed `double` is a `Dbl` (a finite number,
  an infinity or a NaN); the range tests use the IEEE comparisons `Dbl.lt`, `Dbl.le`,
  `Dbl.gt`, `Dbl.ge`, which are false on a NaN.
-/

namespace Dji

/-! ## Data model -/

/-- Value of a C `double` as far as the model distinguishes it: a finite number,
one of the two infinities, or a NaN. -/
inductive Dbl (α : Type) where
  | negInf : Dbl α
  | fin : α → Dbl α
  | posInf : Dbl α
  | nan : Dbl α
deriving DecidableEq

/-- Unary minus on `Dbl`. -/
def Dbl.neg {α : Type} [Neg α] : Dbl α → Dbl α
  | Dbl.negInf => Dbl.posInf
  | Dbl.fin x => Dbl.fin (-x)
  | Dbl.posInf => Dbl.negInf
  | Dbl.nan => Dbl.nan

/-- The product `c * z` of a finite `c` and a `Dbl` in IEEE arithmetic. -/
def Dbl.scale {α : Type} [LinearOrderedField α] (c : α) : Dbl α → Dbl α
  | Dbl.negInf => if 0 < c then Dbl.negInf else if c < 0 then Dbl.posInf else Dbl.nan
  | Dbl.fin x => Dbl.fin (c * x)
  | Dbl.posInf => if 0 < c then Dbl.posInf else if c < 0 then Dbl.negInf else Dbl.nan
  | Dbl.nan => Dbl.nan

/-- The sum `a + z` of a finite `a` and a `Dbl` in IEEE arithmetic. -/
def Dbl.shift {α : Type} [LinearOrderedField α] (a : α) : Dbl α → Dbl α
  | Dbl.fin x => Dbl.fin (a + x)
  | z => z

/-- The exponential of a `Dbl`: `exp(-inf) = 0`, `exp(+inf) = +inf`. -/
def Dbl.exp {α : Type} [LinearOrderedField α] (exp : α → α) : Dbl α → Dbl α
  | Dbl.negInf => Dbl.fin 0
  | Dbl.fin x => Dbl.fin (exp x)
  | Dbl.posInf => Dbl.posInf
  | Dbl.nan => Dbl.nan

/-- The comparison `x <= y` of two doubles in IEEE arithmetic: false as soon as one of them
is a NaN. -/
def Dbl.le {α : Type} [LinearOrderedField α] : Dbl α → Dbl α → Bool
  | Dbl.nan, _ => false
  | _, Dbl.nan => false
  | Dbl.negInf, _ => true
  | Dbl.fin _, Dbl.negInf => false
  | Dbl.fin x, Dbl.fin y => decide (x ≤ y)
  | Dbl.fin _, Dbl.posInf => true
  | Dbl.posInf, Dbl.posInf => true
  | Dbl.posInf, _ => false

/-- Generator state: the global `lcg_state` together with the statics
`has_spare` and `spare` of `normal_random`. -/
structure RngState (α : Type) where
  lcg_state : Nat
  has_spare : Bool
  spare : α

/-- State of a freshly loaded program: `lcg_state = 1`, `has_spare = 0`, and
the zero-initialised static `spare`. -/
def RngState.initial {α : Type} [Zero α] : RngState α :=
  { lcg_state := 1, has_spare := false, spare := 0 }

/-! ## Random number generation -/

/-- Number of values of an `unsigned long`. -/
def ULONG_RANGE : Nat := 2 ^ 64

/-- Number of values of an `unsigned int`. -/
def UINT_RANGE : Nat := 2 ^ 32

/-- `seed_random(seed)`: `lcg_state = seed;` (the argument is an `unsigned int`). -/
def seed_random {α : Type} (seed : Nat) (g : RngState α) : RngState α :=
  { g with lcg_state := seed % UINT_RANGE }

/-- The state update `lcg_state * 1103515245UL + 12345UL` in `unsigned long`. -/
def lcg_step (s : Nat) : Nat :=
  (s * 1103515245 + 12345) % ULONG_RANGE

/-- `uniform_random()`: advance the state and return
`(double)(lcg_state & 0x7FFFFFFF) / (double)0x7FFFFFFF`. -/
def uniform_random {α : Type} [LinearOrderedField α] (g : RngState α) : α × RngState α :=
  let s := lcg_step g.lcg_state
  (((s &&& 0x7FFFFFFF : Nat) : α) / ((0x7FFFFFFF : Nat) : α), { g with lcg_state := s })

/-- The rejection loop of `normal_random`, run for at most `fuel` iterations. -/
def polar_loop {α : Type} [LinearOrderedField α] (log sqrt : α → α) :
    Nat → RngState α → Option (α × RngState α)
  | 0, _ => none
  | fuel + 1, g =>
    let r1 := uniform_random g
    let u := 2 * r1.1 - 1
    let r2 := uniform_random r1.2
    let v := 2 * r2.1 - 1
    let s := u * u + v * v
    if s ≥ 1 ∨ s = 0 then polar_loop log sqrt fuel r2.2
    else
      let m := sqrt (-2 * log s / s)
      some (u * m, { lcg_state := r2.2.lcg_state, has_spare := true, spare := v * m })

/-- `normal_random()`: return the cached spare if there is one, otherwise run the
polar Box-Muller rejection loop, cache the second variate and return the first. -/
def normal_random {α : Type} [LinearOrderedField α] (log sqrt : α → α) (fuel : Nat)
    (g : RngState α) : Option (α × RngState α) :=
  if g.has_spare then some (g.spare, { g with has_spare := false })
  else polar_loop log sqrt fuel g

/-- The outputs of `n` successive calls of `uniform_random`. -/
def uniform_draws {α : Type} [LinearOrderedField α] : Nat → RngState α → List α × RngState α
  | 0, g => ([], g)
  | n + 1, g =>
    let r := uniform_random g
    let rest := uniform_draws n r.2
    (r.1 :: rest.1, rest.2)

/-- The outputs of `n` successive calls of `normal_random`, each call being allowed
`fuel` iterations of its rejection loop. -/
def normal_draws {α : Type} [LinearOrderedField α] (log sqrt : α → α) (fuel : Nat) :
    Nat → RngState α → Option (List α × RngState α)
  | 0, g => some ([], g)
  | n + 1, g =>
    match normal_random log sqrt fuel g with
    | none => none
    | some r =>
      match normal_draws log sqrt fuel n r.2 with
      | none => none
      | some rest => some (r.1 :: rest.1, rest.2)

/-! ## Normal distribution utilities -/

/-- The polynomial `((((a5 t + a4) t + a3) t + a2) t + a1) t` of `normal_cdf`. -/
def cdf_poly {α : Type} [LinearOrderedField α] (t : α) : α :=
  (((((1.061405429 * t + (-1.453152027)) * t) + 1.421413741) * t + (-0.284496736)) * t
    + 0.254829592) * t

/-- C `normal_cdf(x)`. -/
def normal_cdf {α : Type} [LinearOrderedField α] (exp : α → α) (x : α) : α :=
  let p : α := 0.3275911
  let sign : α := if x < 0 then -1 else 1
  let x := if x < 0 then -x else x
  let t := 1 / (1 + p * x)
  let y := 1 - cdf_poly t * exp (-x * x / 2)
  0.5 * (1 + sign * y)

/-- C++ `NormalDistribution::cdf(x)`, with `std::erf` and `std::sqrt` as arguments. -/
def NormalDistribution.cdf {α : Type} [LinearOrderedField α] (sqrt erf : α → α) (x : α) : α :=
  0.5 * (1 + erf (x / sqrt 2))

/-- The rational approximation `t - (c0 + c1 t + c2 t^2) / (1 + d1 t + d2 t^2 + d3 t^3)`
shared by both quantile functions. -/
def quantile_rational {α : Type} [LinearOrderedField α] (t : α) : α :=
  t - (2.515517 + 0.802853 * t + 0.010328 * t * t) /
      (1 + 1.432788 * t + 0.189269 * t * t + 0.001308 * t * t * t)

/-- C `normal_quantile(p)`. -/
def normal_quantile {α : Type} [LinearOrderedField α] (log sqrt : α → α) (p : α) : Dbl α :=
  if p ≤ 0 then Dbl.negInf
  else if p ≥ 1 then Dbl.posInf
  else if p = 0.5 then Dbl.fin 0
  else
    let t := if p < 0.5 then sqrt (-2 * log p) else sqrt (-2 * log (1 - p))
    let result := quantile_rational t
    Dbl.fin (if p < 0.5 then -result else result)

/-- C++ `NormalDistribution::quantile(p)`. -/
def NormalDistribution.quantile {α : Type} [LinearOrderedField α] (log sqrt : α → α) (p : α) :
    Dbl α :=
  if p ≤ 0 then Dbl.negInf
  else if p ≥ 1 then Dbl.posInf
  else if p = 0.5 then Dbl.fin 0
  else
    let t := if p < 0.5 then sqrt (-2 * log p) else sqrt (-2 * log (1 - p))
    let result := t - (2.515517 + 0.802853 * t + 0.010328 * t * t) /
      (1 + 1.432788 * t + 0.189269 * t * t + 0.001308 * t * t * t)
    Dbl.fin (if p < 0.5 then -result else result)

/-! ## Auxiliary definitions used in the statements and proofs -/

/-- The product `poly(t) * exp(-x^2/2)` computed by `normal_cdf` for a non-negative
argument `x` (after the sign flip), with `t = 1/(1 + p x)`. -/
def cdf_tail {α : Type} [LinearOrderedField α] (exp : α → α) (x : α) : α :=
  cdf_poly (1 / (1 + 0.3275911 * x)) * exp (-x * x / 2)

/-- Two generator states agree on everything `normal_random` can observe: the LCG state,
the `has_spare` flag and, when the flag is set, the cached `spare`. -/
def RngState.agree {α : Type} (g1 g2 : RngState α) : Prop :=
  g1.lcg_state = g2.lcg_state ∧ g1.has_spare = g2.has_spare ∧
    (g1.has_spare = true → g1.spare = g2.spare)

/-! ## Statistics -/

/-- C `compute_mean(arr, n)`: the loop `sum += arr[i]` over the first `n` entries, then
`sum / n`. -/
def compute_mean {α : Type} [LinearOrderedField α] (arr : List α) (n : Nat) : α :=
  (arr.take n).foldl (fun sum x => sum + x) 0 / (n : α)

/-- The loop `sum_sq += diff * diff` with `diff = arr[i] - mean`, shared by `compute_std`
and `compute_variance`. -/
def sum_sq_loop {α : Type} [LinearOrderedField α] (arr : List α) (n : Nat) (mean : α) : α :=
  (arr.take n).foldl (fun sum_sq x => sum_sq + (x - mean) * (x - mean)) 0

/-- C `compute_std(arr, n, mean)`: `sqrt(sum_sq / (n - 1))`. -/
def compute_std {α : Type} [LinearOrderedField α] (sqrt : α → α) (arr : List α) (n : Nat)
    (mean : α) : α :=
  sqrt (sum_sq_loop arr n mean / (((n : Int) - 1 : Int) : α))

/-- C `compute_variance(arr, n, mean)`: `sum_sq / (n - 1)`. -/
def compute_variance {α : Type} [LinearOrderedField α] (arr : List α) (n : Nat) (mean : α) : α :=
  sum_sq_loop arr n mean / (((n : Int) - 1 : Int) : α)

/-- C++ `Statistics::mean(data)`. -/
def Statistics.mean {α : Type} [LinearOrderedField α] (data : List α) : α :=
  if data = [] then 0 else data.foldl (fun acc x => acc + x) 0 / (data.length : α)

/-- C++ `Statistics::variance(data, mean_val)`. -/
def Statistics.variance {α : Type} [LinearOrderedField α] (data : List α) (mean_val : α) : α :=
  if data.length < 2 then 0
  else data.foldl (fun acc x => acc + (x - mean_val) * (x - mean_val)) 0 /
    ((data.length - 1 : Nat) : α)

/-- C++ `Statistics::std_dev(data, mean_val)`. -/
def Statistics.std_dev {α : Type} [LinearOrderedField α] (sqrt : α → α) (data : List α)
    (mean_val : α) : α :=
  sqrt (Statistics.variance data mean_val)

/-- C `compute_percentile(arr, n, p)` (the allocation of the sorted copy is assumed to
succeed; `qsort` with `compare_doubles` is the ascending sort). -/
def compute_percentile {α : Type} [LinearOrderedField α] [FloorRing α] (arr : List α) (n : Nat)
    (p : α) : α :=
  if n = 0 then 0
  else
    let sorted := (arr.take n).insertionSort (fun a b => a ≤ b)
    let rank := p * (((n : Int) - 1 : Int) : α)
    let lower : Int := Int.floor rank
    let upper : Int := Int.ceil rank
    let frac := rank - (lower : α)
    if lower = upper then sorted.getD lower.toNat 0
    else sorted.getD lower.toNat 0 * (1 - frac) + sorted.getD upper.toNat 0 * frac

/-- C++ `Statistics::percentile(data, p)`. -/
def Statistics.percentile {α : Type} [LinearOrderedField α] [FloorRing α] (data : List α)
    (p : α) : α :=
  if data = [] then 0
  else
    let sorted := data.insertionSort (fun a b => a ≤ b)
    let rank := p * ((sorted.length - 1 : Nat) : α)
    let lower : Nat := (Int.floor rank).toNat
    let upper : Nat := (Int.ceil rank).toNat
    let frac := rank - (lower : α)
    if lower = upper then sorted.getD lower 0
    else sorted.getD lower 0 * (1 - frac) + sorted.getD upper 0 * frac

/-- Lines 555-559 of `run_simulation` (and 628-632 of `DJI1PMPredictor::run`): the pair
`(ci_lower, ci_upper)` as a function of `antithetic_mean`, `antithetic_std` and `n_sims`. -/
def confidence_interval {α : Type} [LinearOrderedField α] (sqrt : α → α)
    (antithetic_mean antithetic_std : α) (n_sims : Nat) : α × α :=
  let z_95 : α := 1.96
  let ci_std := antithetic_std / sqrt (n_sims : α)
  (antithetic_mean - z_95 * ci_std, antithetic_mean + z_95 * ci_std)

/-- The value stored in `results.variance_reduction` by `run_simulation`. -/
def variance_reduction {α : Type} [LinearOrderedField α] (gbm_prices av_prices : List α)
    (n_sims : Nat) : α :=
  compute_variance gbm_prices n_sims (compute_mean gbm_prices n_sims) /
    compute_variance av_prices n_sims (compute_mean av_prices n_sims)

/-! ## Black-Scholes Greeks -/

/-- The constant `SQRT_2PI`. -/
def SQRT_2PI {α : Type} [LinearOrderedField α] : α := 2.50662827463100050242

/-- C `normal_pdf(x)`: `exp(-0.5 * x * x) / SQRT_2PI`. -/
def normal_pdf {α : Type} [LinearOrderedField α] (exp : α → α) (x : α) : α :=
  exp (-0.5 * x * x) / SQRT_2PI

/-- C++ `NormalDistribution::pdf(x)`. -/
def NormalDistribution.pdf {α : Type} [LinearOrderedField α] (exp : α → α) (x : α) : α :=
  exp (-0.5 * x * x) / SQRT_2PI

/-- The four output parameters of the C `black_scholes_greeks`. -/
structure GreeksOut (α : Type) where
  delta : α
  gamma : α
  theta : α
  vega : α

/-- C `black_scholes_greeks(S0, K, T, r, sigma, &delta, &gamma, &theta, &vega)`; the four
values written through the pointers are returned as a record. -/
def black_scholes_greeks {α : Type} [LinearOrderedField α] (exp log sqrt : α → α)
    (S0 K T r sigma : α) : GreeksOut α :=
  if T ≤ 0 then { delta := 0, gamma := 0, theta := 0, vega := 0 }
  else
    let sqrt_T := sqrt T
    let d1 := (log (S0 / K) + (r + 0.5 * sigma * sigma) * T) / (sigma * sqrt_T)
    let d2 := d1 - sigma * sqrt_T
    { delta := normal_cdf exp d1
      gamma := normal_pdf exp d1 / (S0 * sigma * sqrt_T)
      theta := -(S0 * normal_pdf exp d1 * sigma / (2 * sqrt_T))
        - r * K * exp (-r * T) * normal_cdf exp d2
      vega := S0 * sqrt_T * normal_pdf exp d1 }

/-- C++ `BlackScholesGreeks::Greeks`. -/
structure BlackScholesGreeks.Greeks (α : Type) where
  d1 : α
  d2 : α
  call_price : α
  put_price : α
  delta : α
  gamma : α
  theta : α
  vega : α
  rho : α

/-- C++ `BlackScholesGreeks::calculate(S, K, T, r, sigma)`; `Greeks g{}` is the all-zero
record. -/
def BlackScholesGreeks.calculate {α : Type} [LinearOrderedField α] (exp log sqrt erf : α → α)
    (S K T r sigma : α) : BlackScholesGreeks.Greeks α :=
  if T ≤ 0 then
    { d1 := 0, d2 := 0, call_price := 0, put_price := 0, delta := 0, gamma := 0, theta := 0,
      vega := 0, rho := 0 }
  else
    let sqrt_T := sqrt T
    let d1 := (log (S / K) + (r + 0.5 * sigma * sigma) * T) / (sigma * sqrt_T)
    let d2 := d1 - sigma * sqrt_T
    let Nd1 := NormalDistribution.cdf sqrt erf d1
    let Nd2 := NormalDistribution.cdf sqrt erf d2
    let nd1 := NormalDistribution.pdf exp d1
    { d1 := d1
      d2 := d2
      call_price := S * Nd1 - K * exp (-r * T) * Nd2
      put_price := K * exp (-r * T) * (1 - Nd2) - S * (1 - Nd1)
      delta := Nd1
      gamma := nd1 / (S * sigma * sqrt_T)
      theta := -(S * nd1 * sigma / (2 * sqrt_T)) - r * K * exp (-r * T) * Nd2
      vega := S * sqrt_T * nd1
      rho := K * T * exp (-r * T) * Nd2 }

/-- The quantity `d1 = (ln(S0/K) + (r + sigma^2/2) T) / (sigma sqrt(T))` of the closed
forms, written as in the specification. -/
def spec_d1 {α : Type} [LinearOrderedField α] (log sqrt : α → α) (S0 K T r sigma : α) : α :=
  (log (S0 / K) + (r + sigma ^ 2 / 2) * T) / (sigma * sqrt T)

/-- The quantity `d2 = d1 - sigma sqrt(T)` of the closed forms. -/
def spec_d2 {α : Type} [LinearOrderedField α] (log sqrt : α → α) (S0 K T r sigma : α) : α :=
  spec_d1 log sqrt S0 K T r sigma - sigma * sqrt T

/-! ## Stochastic processes and Monte Carlo methods -/

/-- The Box-Muller factor `sqrt(-2.0 * log(s) / s)` of `normal_random`. -/
def polar_factor {α : Type} [LinearOrderedField α] (log sqrt : α → α) (s : α) : α :=
  sqrt (-2 * log s / s)

/-- The closed-form terminal price `S0 * exp((mu - 0.5 sigma^2) T + sigma sqrt(T) Z)` for a
finite normal draw `Z`. -/
def gbm_terminal_price {α : Type} [LinearOrderedField α] (exp sqrt : α → α)
    (S0 T mu sigma Z : α) : α :=
  S0 * exp ((mu - 0.5 * sigma * sigma) * T + sigma * sqrt T * Z)

/-- C `simulate_gbm_terminal(S0, T, mu, sigma)`. -/
def simulate_gbm_terminal {α : Type} [LinearOrderedField α] (exp log sqrt : α → α) (fuel : Nat)
    (S0 T mu sigma : α) (g : RngState α) : Option (α × RngState α) :=
  match normal_random log sqrt fuel g with
  | none => none
  | some r => some (gbm_terminal_price exp sqrt S0 T mu sigma r.1, r.2)

/-- The loop of `monte_carlo_standard` with `k` iterations left at index `i`. -/
def standard_loop {α : Type} [LinearOrderedField α] (exp log sqrt : α → α) (fuel : Nat)
    (S0 T mu sigma : α) : Nat → Nat → List α → RngState α → Option (List α × RngState α)
  | 0, _, prices, g => some (prices, g)
  | k + 1, i, prices, g =>
    match simulate_gbm_terminal exp log sqrt fuel S0 T mu sigma g with
    | none => none
    | some r => standard_loop exp log sqrt fuel S0 T mu sigma k (i + 1) (prices.set i r.1) r.2

/-- C `monte_carlo_standard(S0, T, mu, sigma, n_sims, prices)`; `prices` is the content of
the buffer on entry. -/
def monte_carlo_standard {α : Type} [LinearOrderedField α] (exp log sqrt : α → α) (fuel : Nat)
    (S0 T mu sigma : α) (n_sims : Nat) (prices : List α) (g : RngState α) :
    Option (List α × RngState α) :=
  standard_loop exp log sqrt fuel S0 T mu sigma n_sims 0 prices g

/-- The loop shared by `monte_carlo_antithetic` and `MonteCarloEngine::simulate_antithetic`,
with `k` iterations left at index `i`; `normal` is the normal generator of the variant. -/
def antithetic_loop {α σ : Type} [LinearOrderedField α] (exp sqrt : α → α)
    (normal : σ → Option (α × σ)) (S0 T mu sigma : α) (half : Nat) :
    Nat → Nat → List α → σ → Option (List α × σ)
  | 0, _, prices, g => some (prices, g)
  | k + 1, i, prices, g =>
    match normal g with
    | none => none
    | some r =>
      antithetic_loop exp sqrt normal S0 T mu sigma half k (i + 1)
        ((prices.set i (gbm_terminal_price exp sqrt S0 T mu sigma r.1)).set (half + i)
          (gbm_terminal_price exp sqrt S0 T mu sigma (-r.1))) r.2

/-- C `monte_carlo_antithetic(S0, T, mu, sigma, n_sims, prices)`. -/
def monte_carlo_antithetic {α : Type} [LinearOrderedField α] (exp log sqrt : α → α)
    (fuel : Nat) (S0 T mu sigma : α) (n_sims : Nat) (prices : List α) (g : RngState α) :
    Option (List α × RngState α) :=
  antithetic_loop exp sqrt (normal_random log sqrt fuel) S0 T mu sigma (n_sims / 2)
    (n_sims / 2) 0 prices g

/-- Lines 514-533 of `run_simulation`, Monte Carlo part: `monte_carlo_standard` fills
`gbm_prices`, then `monte_carlo_antithetic` fills `av_prices` from the same generator (the
statistics computed in between do not touch the generator). -/
def run_simulation_mc {α : Type} [LinearOrderedField α] (exp log sqrt : α → α) (fuel : Nat)
    (S0 T mu sigma : α) (n_sims : Nat) (gbm_prices av_prices : List α) (g : RngState α) :
    Option (List α × List α × RngState α) :=
  match monte_carlo_standard exp log sqrt fuel S0 T mu sigma n_sims gbm_prices g with
  | none => none
  | some r1 =>
    match monte_carlo_antithetic exp log sqrt fuel S0 T mu sigma n_sims av_prices r1.2 with
    | none => none
    | some r2 => some (r1.1, r2.1, r2.2)

/-- The uniform `u = u_low + (u_high - u_low) * U` drawn in stratum `s`, with
`u_low = (double)s / n_strata` and `u_high = (double)(s + 1) / n_strata`. -/
def stratum_u {α : Type} [LinearOrderedField α] (s n_strata : Nat) (U : α) : α :=
  let u_low := (s : α) / (n_strata : α)
  let u_high := ((s + 1 : Nat) : α) / (n_strata : α)
  u_low + (u_high - u_low) * U

/-- The price `S0 * exp((mu - 0.5 sigma^2) T + sigma sqrt(T) Z)` for a quantile `Z` that
may be infinite. -/
def gbm_price_of_quantile {α : Type} [LinearOrderedField α] (exp sqrt : α → α)
    (S0 T mu sigma : α) (Z : Dbl α) : Dbl α :=
  Dbl.scale S0
    (Dbl.exp exp (Dbl.shift ((mu - 0.5 * sigma * sigma) * T) (Dbl.scale (sigma * sqrt T) Z)))

/-- The inner loop of the stratified sampler (the same in both variants):
`for (i = 0; i < per_stratum && idx < n_sims; i++, idx++)`, with `k` iterations left. -/
def stratified_inner {α σ : Type} [LinearOrderedField α] (exp sqrt : α → α)
    (uniform : σ → α × σ) (quantile : α → Dbl α) (S0 T mu sigma : α)
    (n_sims n_strata s : Nat) : Nat → Nat → List (Dbl α) → σ → Nat × List (Dbl α) × σ
  | 0, idx, prices, g => (idx, prices, g)
  | k + 1, idx, prices, g =>
    if idx < n_sims then
      let r := uniform g
      let u := stratum_u s n_strata r.1
      let Z := quantile u
      stratified_inner exp sqrt uniform quantile S0 T mu sigma n_sims n_strata s k (idx + 1)
        (prices.set idx (gbm_price_of_quantile exp sqrt S0 T mu sigma Z)) r.2
    else (idx, prices, g)

/-- The outer loop `for (s = 0; s < n_strata; s++)` of the C `monte_carlo_stratified`, with
`m` strata left. -/
def stratified_outer {α σ : Type} [LinearOrderedField α] (exp sqrt : α → α)
    (uniform : σ → α × σ) (quantile : α → Dbl α) (S0 T mu sigma : α)
    (n_sims n_strata per_stratum : Nat) : Nat → Nat → Nat → List (Dbl α) → σ → List (Dbl α) × σ
  | 0, _, _, prices, g => (prices, g)
  | m + 1, s, idx, prices, g =>
    let r := stratified_inner exp sqrt uniform quantile S0 T mu sigma n_sims n_strata s
      per_stratum idx prices g
    stratified_outer exp sqrt uniform quantile S0 T mu sigma n_sims n_strata per_stratum m
      (s + 1) r.1 r.2.1 r.2.2

/-- C `monte_carlo_stratified(S0, T, mu, sigma, n_sims, n_strata, prices)`; `prices` is the
content of the buffer on entry. -/
def monte_carlo_stratified {α : Type} [LinearOrderedField α] (exp log sqrt : α → α)
    (S0 T mu sigma : α) (n_sims n_strata : Nat) (prices : List (Dbl α)) (g : RngState α) :
    List (Dbl α) × RngState α :=
  stratified_outer exp sqrt uniform_random (normal_quantile log sqrt) S0 T mu sigma n_sims
    n_strata (n_sims / n_strata) n_strata 0 0 prices g

/-- The loop of the C++ `simulate_standard` with `k` iterations left at index `i`; `normal`
is `rng_.normal()` on the state of the engine. -/
def MonteCarloEngine.standard_loop {α σ : Type} [LinearOrderedField α] (exp sqrt : α → α)
    (normal : σ → α × σ) (mu sigma S0 T : α) : Nat → Nat → List α → σ → List α × σ
  | 0, _, prices, g => (prices, g)
  | k + 1, i, prices, g =>
    let r := normal g
    MonteCarloEngine.standard_loop exp sqrt normal mu sigma S0 T k (i + 1)
      (prices.set i (gbm_terminal_price exp sqrt S0 T mu sigma r.1)) r.2

/-- C++ `MonteCarloEngine::simulate_standard(S0, T, n_sims)`. -/
def MonteCarloEngine.simulate_standard {α σ : Type} [LinearOrderedField α] (exp sqrt : α → α)
    (normal : σ → α × σ) (mu sigma S0 T : α) (n_sims : Nat) (g : σ) : List α × σ :=
  MonteCarloEngine.standard_loop exp sqrt normal mu sigma S0 T n_sims 0
    (List.replicate n_sims 0) g

/-- C++ `MonteCarloEngine::simulate_antithetic(S0, T, n_sims)`. -/
def MonteCarloEngine.simulate_antithetic {α σ : Type} [LinearOrderedField α]
    (exp sqrt : α → α) (normal : σ → α × σ) (mu sigma S0 T : α) (n_sims : Nat) (g : σ) :
    Option (List α × σ) :=
  antithetic_loop exp sqrt (fun st => some (normal st)) S0 T mu sigma (n_sims / 2)
    (n_sims / 2) 0 (List.replicate n_sims 0) g

/-- The outer loop `for (s = 0; s < n_strata && idx < n_sims; ++s)` of the C++
`simulate_stratified`, with `m` strata left. -/
def MonteCarloEngine.stratified_outer {α σ : Type} [LinearOrderedField α] (exp sqrt : α → α)
    (uniform : σ → α × σ) (quantile : α → Dbl α) (S0 T mu sigma : α)
    (n_sims n_strata per_stratum : Nat) : Nat → Nat → Nat → List (Dbl α) → σ → List (Dbl α) × σ
  | 0, _, _, prices, g => (prices, g)
  | m + 1, s, idx, prices, g =>
    if idx < n_sims then
      let r := stratified_inner exp sqrt uniform quantile S0 T mu sigma n_sims n_strata s
        per_stratum idx prices g
      MonteCarloEngine.stratified_outer exp sqrt uniform quantile S0 T mu sigma n_sims n_strata
        per_stratum m (s + 1) r.1 r.2.1 r.2.2
    else (prices, g)

/-- C++ `MonteCarloEngine::simulate_stratified(S0, T, n_sims, n_strata)`; `uniform` is
`gbm_.get_uniform()` on the state of the engine, `Vec prices(n_sims)` is all zeros. -/
def MonteCarloEngine.simulate_stratified {α σ : Type} [LinearOrderedField α]
    (exp log sqrt : α → α) (uniform : σ → α × σ) (mu sigma S0 T : α) (n_sims n_strata : Nat)
    (g : σ) : List (Dbl α) × σ :=
  MonteCarloEngine.stratified_outer exp sqrt uniform (NormalDistribution.quantile log sqrt)
    S0 T mu sigma n_sims n_strata (n_sims / n_strata) n_strata 0 0
    (List.replicate n_sims (Dbl.fin 0)) g

/-- The outputs of `n` successive calls of a generator `step`. -/
def draw_list {α σ : Type} (step : σ → α × σ) : Nat → σ → List α × σ
  | 0, g => ([], g)
  | n + 1, g =>
    let r := step g
    let rest := draw_list step n r.2
    (r.1 :: rest.1, rest.2)

/-- The outputs of `n` successive calls of a generator `step` that may fail to return. -/
def opt_draws {α σ : Type} (step : σ → Option (α × σ)) : Nat → σ → Option (List α × σ)
  | 0, g => some ([], g)
  | n + 1, g =>
    match step g with
    | none => none
    | some r =>
      match opt_draws step n r.2 with
      | none => none
      | some rest => some (r.1 :: rest.1, rest.2)

/-! ## Configuration -/

/-- The struct `MarketConfig`. -/
structure MarketConfig (α : Type) where
  current_price : α
  volatility : α
  drift : α
  risk_free_rate : α
  trading_days : Int
  minutes_per_day : Int
  simulations : Int
  random_seed : Nat

/-- The default configuration: the initialiser of `config` in the C `main` (the `DEFAULT_*`
constants) and the member initialisers of the C++ `MarketConfig`. -/
def default_config {α : Type} [LinearOrderedField α] : MarketConfig α :=
  { current_price := 44000.0
    volatility := 0.15
    drift := 0.05
    risk_free_rate := 0.045
    trading_days := 252
    minutes_per_day := 390
    simulations := 10000
    random_seed := 42 }

/-- C `compute_time_to_target(config)` and C++ `DJI1PMPredictor::compute_time_to_target()`:
`207.0 / (trading_days * minutes_per_day)`, the product being taken in `int`. -/
def compute_time_to_target {α : Type} [LinearOrderedField α] (config : MarketConfig α) : α :=
  let minutes_to_1pm : α := 207.0
  minutes_to_1pm / ((config.trading_days * config.minutes_per_day : Int) : α)

/-! ## Taylor expansion -/

/-- C `factorial(n)`: `NAN` for `n < 0`, `1.0` for `n <= 1`, otherwise the product of the loop
`for (i = 2; i <= n; i++) result *= i`. -/
def factorial {α : Type} [LinearOrderedField α] (n : Int) : Dbl α :=
  if n < 0 then Dbl.nan
  else if n ≤ 1 then Dbl.fin 1.0
  else
    Dbl.fin ((List.range' 2 (n.toNat - 1)).foldl
      (fun (result : α) (i : Nat) => result * (i : α)) 1.0)

/-- The loop `for (n = 1; n <= order; n++)` of `taylor_expansion_price` with `k` iterations
left; `pow(x, n)` is `x ^ n`.  A NaN returned by `factorial` makes the sum, and with it the
result, NaN. -/
def taylor_loop {α : Type} [LinearOrderedField α] (S0 dS : α) : Nat → Nat → α → Dbl α
  | 0, _, log_price_approx => Dbl.fin log_price_approx
  | k + 1, n, log_price_approx =>
    let deriv_n : Dbl α :=
      if n = 1 then Dbl.fin (1.0 / S0)
      else
        match factorial ((n : Int) - 1) with
        | Dbl.fin f => Dbl.fin ((if n % 2 = 0 then -1.0 else 1.0) * f / S0 ^ n)
        | _ => Dbl.nan
    match deriv_n, factorial (n : Int) with
    | Dbl.fin d, Dbl.fin f => taylor_loop S0 dS k (n + 1) (log_price_approx + d * dS ^ n / f)
    | _, _ => Dbl.nan

/-- C `taylor_expansion_price(S0, dS, order)`. -/
def taylor_expansion_price {α : Type} [LinearOrderedField α] (exp log : α → α) (S0 dS : α)
    (order : Int) : Dbl α :=
  let log_S0 := log S0
  Dbl.exp exp (taylor_loop S0 dS order.toNat 1 log_S0)

/-- The first loop of the C++ `TaylorExpansion<Order>::compute_price`, which fills the arrays
`dS_pow` and `factorials`, with `k` iterations left at index `n`. -/
def TaylorExpansion.fill_loop {α : Type} [LinearOrderedField α] (dS : α) :
    Nat → Nat → List α → List α → List α × List α
  | 0, _, dS_pow, factorials => (dS_pow, factorials)
  | k + 1, n, dS_pow, factorials =>
    TaylorExpansion.fill_loop dS k (n + 1) (dS_pow.set n (dS_pow.getD (n - 1) 0 * dS))
      (factorials.set n (factorials.getD (n - 1) 0 * (n : α)))

/-- The second loop of the C++ `TaylorExpansion<Order>::compute_price`, with `k` iterations
left at index `n`. -/
def TaylorExpansion.sum_loop {α : Type} [LinearOrderedField α] (S0 : α)
    (dS_pow factorials : List α) : Nat → Nat → α → α
  | 0, _, log_price_approx => log_price_approx
  | k + 1, n, log_price_approx =>
    let sign : α := if n % 2 = 0 then -1.0 else 1.0
    let deriv_n := sign * factorials.getD (n - 1) 0 / S0 ^ n
    TaylorExpansion.sum_loop S0 dS_pow factorials k (n + 1)
      (log_price_approx + deriv_n * dS_pow.getD n 0 / factorials.getD n 0)

/-- C++ `TaylorExpansion<Order>::compute_price(S0, dS)`; the two `std::array`s are
zero-initialised lists of length `Order + 1`. -/
def TaylorExpansion.compute_price {α : Type} [LinearOrderedField α] (exp log : α → α)
    (Order : Nat) (S0 dS : α) : α :=
  let log_S0 := log S0
  let dS_pow := (List.replicate (Order + 1) (0 : α)).set 0 1.0
  let factorials := (List.replicate (Order + 1) (0 : α)).set 0 1.0
  let t := TaylorExpansion.fill_loop dS Order 1 dS_pow factorials
  exp (TaylorExpansion.sum_loop S0 t.1 t.2 Order 1 log_S0)

/-! ## Numerical integration -/

/-- The loop `for (i = 1; i < n; i++)` of `simpsons_rule` with `k` iterations left at
index `i`. -/
def simpsons_loop {α : Type} [LinearOrderedField α] (f : α → α) (a h : α) : Nat → Nat → α → α
  | 0, _, sum => sum
  | k + 1, i, sum =>
    let x := a + (i : α) * h
    simpsons_loop f a h k (i + 1) (sum + (if i % 2 = 0 then 2.0 else 4.0) * f x)

/-- C `simpsons_rule(f, a, b, n, params)` and C++ `NumericalIntegration::simpsons_rule`; the
integrand is a pure function (`params` is part of it) and `%` on `int` truncates. -/
def simpsons_rule {α : Type} [LinearOrderedField α] (f : α → α) (a b : α) (n : Int) : α :=
  let n := if n.tmod 2 = 1 then n + 1 else n
  let h := (b - a) / (n : α)
  let sum := f a + f b
  h * simpsons_loop f a h (n - 1).toNat 1 sum / 3.0

/-! ## GBM paths -/

/-- The loop `for (i = 1; i <= steps; i++)` shared by `simulate_gbm_path` and
`GBMSimulator::simulate_path`, with `k` iterations left at index `i`; `normal` is the normal
generator of the variant. -/
def gbm_path_loop {α σ : Type} [LinearOrderedField α] (exp : α → α)
    (normal : σ → Option (α × σ)) (mu sigma dt sqrt_dt : α) :
    Nat → Nat → List α → σ → Option (List α × σ)
  | 0, _, path, g => some (path, g)
  | k + 1, i, path, g =>
    match normal g with
    | none => none
    | some r =>
      let dW := sqrt_dt * r.1
      gbm_path_loop exp normal mu sigma dt sqrt_dt k (i + 1)
        (path.set i (path.getD (i - 1) 0 * exp ((mu - 0.5 * sigma * sigma) * dt + sigma * dW)))
        r.2

/-- C `simulate_gbm_path(S0, T, steps, mu, sigma, path)`; `path` is the content of the buffer
on entry and `steps` is not negative. -/
def simulate_gbm_path {α : Type} [LinearOrderedField α] (exp log sqrt : α → α) (fuel : Nat)
    (S0 T : α) (steps : Nat) (mu sigma : α) (path : List α) (g : RngState α) :
    Option (List α × RngState α) :=
  let dt := T / (steps : α)
  let sqrt_dt := sqrt dt
  gbm_path_loop exp (normal_random log sqrt fuel) mu sigma dt sqrt_dt steps 1 (path.set 0 S0) g

/-- C++ `GBMSimulator::simulate_path(S0, T, steps)`; `Vec path(steps + 1)` is all zeros and
`normal` is `rng_.normal()` on the state of the generator. -/
def GBMSimulator.simulate_path {α σ : Type} [LinearOrderedField α] (exp sqrt : α → α)
    (normal : σ → α × σ) (mu sigma S0 T : α) (steps : Nat) (g : σ) : Option (List α × σ) :=
  let path := (List.replicate (steps + 1) (0 : α)).set 0 S0
  let dt := T / (steps : α)
  let sqrt_dt := sqrt dt
  gbm_path_loop exp (fun st => some (normal st)) mu sigma dt sqrt_dt steps 1 path g

/-! ## Orchestrator -/

/-- The struct `PredictionResults` of the C variant; `taylor_price` can be a NaN in the
model of `taylor_expansion_price`. -/
structure PredictionResults (α : Type) where
  gbm_mean : α
  gbm_std : α
  gbm_p5 : α
  gbm_p95 : α
  antithetic_mean : α
  antithetic_std : α
  variance_reduction : α
  stratified_mean : α
  stratified_std : α
  analytical_expected : α
  taylor_price : Dbl α
  combined_mean : α
  ci_lower : α
  ci_upper : α
  delta : α
  gamma : α
  theta : α
  vega : α

/-- Steps 4 to 8 of `run_simulation` (lines 540-559): the Greeks, the analytical expected
value, the Taylor price, the combined mean and the confidence interval.  `results` holds the
statistics that steps 1 to 3 computed from the three price samples. -/
def run_simulation_finish {α : Type} [LinearOrderedField α] (exp log sqrt : α → α)
    (config : MarketConfig α) (results : PredictionResults α) : PredictionResults α :=
  let S0 := config.current_price
  let T := compute_time_to_target config
  let mu := config.drift
  let sigma := config.volatility
  let r := config.risk_free_rate
  let n_sims := config.simulations
  let greeks := black_scholes_greeks exp log sqrt S0 S0 T r sigma
  let analytical_expected := S0 * exp (mu * T)
  let expected_dS := S0 * mu * T
  let taylor_price := taylor_expansion_price exp log S0 expected_dS 4
  let combined_mean := (results.gbm_mean + results.antithetic_mean +
    results.stratified_mean + analytical_expected) / 4.0
  let z_95 : α := 1.96
  let ci_std := results.antithetic_std / sqrt ((n_sims : Int) : α)
  { results with
    delta := greeks.delta
    gamma := greeks.gamma
    theta := greeks.theta
    vega := greeks.vega
    analytical_expected := analytical_expected
    taylor_price := taylor_price
    combined_mean := combined_mean
    ci_lower := results.antithetic_mean - z_95 * ci_std
    ci_upper := results.antithetic_mean + z_95 * ci_std }

/-- The struct `PredictionResults` of the C++ variant. -/
structure DJI1PMPredictor.PredictionResults (α : Type) where
  gbm_mean : α
  gbm_std : α
  gbm_p5 : α
  gbm_p95 : α
  antithetic_mean : α
  antithetic_std : α
  variance_reduction : α
  stratified_mean : α
  stratified_std : α
  analytical_expected : α
  taylor_price : α
  combined_mean : α
  ci_lower : α
  ci_upper : α
  delta : α
  gamma : α
  theta : α
  vega : α
  rho : α

/-- Steps 4 to 8 of the C++ `DJI1PMPredictor::run` (lines 609-632); `results` holds the
statistics that steps 1 to 3 computed from the three price samples. -/
def DJI1PMPredictor.run_finish {α : Type} [LinearOrderedField α] (exp log sqrt erf : α → α)
    (config : MarketConfig α) (results : DJI1PMPredictor.PredictionResults α) :
    DJI1PMPredictor.PredictionResults α :=
  let S0 := config.current_price
  let T := compute_time_to_target config
  let n_sims := config.simulations
  let greeks := BlackScholesGreeks.calculate exp log sqrt erf S0 S0 T config.risk_free_rate
    config.volatility
  let analytical_expected := S0 * exp (config.drift * T)
  let expected_dS := S0 * config.drift * T
  let taylor_price := TaylorExpansion.compute_price exp log 4 S0 expected_dS
  let combined_mean := (results.gbm_mean + results.antithetic_mean +
    results.stratified_mean + analytical_expected) / 4.0
  let z_95 : α := 1.96
  let ci_std := results.antithetic_std / sqrt ((n_sims : Int) : α)
  { results with
    delta := greeks.delta
    gamma := greeks.gamma
    theta := greeks.theta
    vega := greeks.vega
    rho := greeks.rho
    analytical_expected := analytical_expected
    taylor_price := taylor_price
    combined_mean := combined_mean
    ci_lower := results.antithetic_mean - z_95 * ci_std
    ci_upper := results.antithetic_mean + z_95 * ci_std }

/-! ## Auxiliary definitions: the candidate pairs of the rejection loop -/

/-- The first coordinate `u = 2 U - 1` of the candidate pair of iteration `j` of the
rejection loop, `us` being the successive outputs of `uniform_random`. -/
def polar_u {α : Type} [LinearOrderedField α] (us : List α) (j : Nat) : α :=
  2 * us.getD (2 * j) 0 - 1

/-- The second coordinate `v = 2 U - 1` of the candidate pair of iteration `j`. -/
def polar_v {α : Type} [LinearOrderedField α] (us : List α) (j : Nat) : α :=
  2 * us.getD (2 * j + 1) 0 - 1

/-- The quantity `s = u * u + v * v` of iteration `j`. -/
def polar_s {α : Type} [LinearOrderedField α] (us : List α) (j : Nat) : α :=
  polar_u us j * polar_u us j + polar_v us j * polar_v us j

/-! ## Gauss-Legendre quadrature -/

/-- The array `gl5_nodes`. -/
def gl5_nodes {α : Type} [LinearOrderedField α] : List α :=
  [-0.9061798459386640, -0.5384693101056831, 0.0, 0.5384693101056831, 0.9061798459386640]

/-- The array `gl5_weights`. -/
def gl5_weights {α : Type} [LinearOrderedField α] : List α :=
  [0.2369268850561891, 0.4786286704993665, 0.5688888888888889, 0.4786286704993665,
    0.2369268850561891]

/-- The loop `for (i = 0; i < 5; i++)` of the two quadrature functions over the arrays
`nodes` and `weights`, with `k` iterations left at index `i`. -/
def gauss_loop {α : Type} [LinearOrderedField α] (nodes weights : List α) (f : α → α)
    (scale shift : α) : Nat → Nat → α → α
  | 0, _, sum => sum
  | k + 1, i, sum =>
    let x := scale * nodes.getD i 0 + shift
    gauss_loop nodes weights f scale shift k (i + 1) (sum + weights.getD i 0 * f x)

/-- C `gaussian_quadrature(f, a, b, params)`; the integrand is a pure function (`params` is
part of it). -/
def gaussian_quadrature {α : Type} [LinearOrderedField α] (f : α → α) (a b : α) : α :=
  let sum : α := 0.0
  let scale := (b - a) / 2.0
  let shift := (b + a) / 2.0
  scale * gauss_loop gl5_nodes gl5_weights f scale shift 5 0 sum

/-- C++ `NumericalIntegration::gauss_legendre_5(f, a, b)`, with its own copies `nodes` and
`weights` of the constants. -/
def NumericalIntegration.gauss_legendre_5 {α : Type} [LinearOrderedField α] (f : α → α)
    (a b : α) : α :=
  let nodes : List α :=
    [-0.9061798459386640, -0.5384693101056831, 0.0, 0.5384693101056831, 0.9061798459386640]
  let weights : List α :=
    [0.2369268850561891, 0.4786286704993665, 0.5688888888888889, 0.4786286704993665,
      0.2369268850561891]
  let scale := (b - a) / 2.0
  let shift := (a + b) / 2.0
  let sum : α := 0.0
  scale * gauss_loop nodes weights f scale shift 5 0 sum

/-! ## Ticker analyzer (`src/gas_yfinance_predictor/ticker_analyzer.c`) -/

/-- The loop `for (i = 0; i < precision; i++) multiplier *= 10;` in `uint32_t`, with `k`
iterations left. -/
def multiplier_loop : Nat → Nat → Nat
  | 0, multiplier => multiplier
  | k + 1, multiplier => multiplier_loop k ((multiplier * 10) % UINT_RANGE)

/-- The conversion `(uint32_t)x` of a `double`: the fractional part is discarded (truncation
towards zero).  The conversion is undefined in C when the truncated value is not below
`2^32` or is negative; the model wraps in the first case and returns 0 in the second. -/
def double_to_uint32 {α : Type} [LinearOrderedField α] [FloorRing α] (x : α) : Nat :=
  (if 0 ≤ x then Int.floor x else Int.ceil x).toNat % UINT_RANGE

/-- Rounding of a real number to the nearest `double` (IEEE 754 binary64, round to nearest,
ties to even): the value a `double` operation returns when its exact result is `x`.  The
exponent is clamped at `-1022` (subnormal range); overflow to infinity is not modelled. -/
def round_double {α : Type} [LinearOrderedField α] [FloorRing α] (x : α) : α :=
  let e : Int := max (Int.log 2 |x|) (-1022)
  let ulp : α := (2 : α) ^ (e - 52)
  let q := x / ulp
  let lower : Int := Int.floor q
  let frac := q - (lower : α)
  let mant : Int :=
    if frac < 1 / 2 then lower
    else if 1 / 2 < frac then lower + 1
    else if lower % 2 = 0 then lower else lower + 1
  (mant : α) * ulp

/-- `compress_price(price, precision)`: the product `price * multiplier` is rounded to
`double`, then converted to `uint32_t`. -/
def compress_price {α : Type} [LinearOrderedField α] [FloorRing α] (price : α)
    (precision : Nat) : Nat :=
  let multiplier := multiplier_loop precision 1
  double_to_uint32 (round_double (price * (multiplier : α)))

/-- `decompress_price(compressed, precision)`: the quotient `(double)compressed / multiplier`,
rounded to `double`. -/
def decompress_price {α : Type} [LinearOrderedField α] [FloorRing α] (compressed : Nat)
    (precision : Nat) : α :=
  let multiplier := multiplier_loop precision 1
  round_double ((compressed : α) / (multiplier : α))

/-- The macro `SET_BIT(x, n)`: `x |= (1ULL << n)`. -/
def SET_BIT (x n : Nat) : Nat :=
  x ||| (1 <<< n)

/-- C `detect_patterns(prices, length, pattern_mask)`; `fmax`, `fmin` and `fabs` are `max`,
`min` and `abs`. -/
def detect_patterns {α : Type} [LinearOrderedField α] (prices : List α) (length : Nat)
    (pattern_mask : Nat) : Nat :=
  let detected : Nat := 0
  if length < 5 then detected
  else
    let idx := length - 1
    let open_ := prices.getD (idx - 1) 0
    let close := prices.getD idx 0
    let high := max open_ close * 1.01
    let low := min open_ close * 0.99
    let body := abs (close - open_)
    let range := high - low
    let detected :=
      if close > open_ ∧ body > range * 0.6 then SET_BIT detected 0 else detected
    let detected :=
      if close > open_ ∧ (high - close) < body * 0.3 ∧ (open_ - low) > body * 2 then
        SET_BIT detected 2
      else detected
    let detected := if body < range * 0.1 then SET_BIT detected 4 else detected
    detected &&& pattern_mask

/-! ## Auxiliary definitions: the rejection loop on integers -/

/-- The numerators `(p, q)` of the candidate pair `(u, v) = (p / D, q / D)`, `D = 2^31 - 1`,
that one iteration of the rejection loop of `normal_random` computes from the generator state
`s`, together with the state after the two draws. -/
def polar_pair (s : Nat) : (Int × Int) × Nat :=
  let s1 := lcg_step s
  let s2 := lcg_step s1
  ((2 * ((s1 % 2 ^ 31 : Nat) : Int) - (2 ^ 31 - 1),
    2 * ((s2 % 2 ^ 31 : Nat) : Int) - (2 ^ 31 - 1)), s2)

/-- The numerator `p * p + q * q` of `s = u * u + v * v = (p * p + q * q) / D^2`. -/
def pair_norm (pq : Int × Int) : Int :=
  pq.1 * pq.1 + pq.2 * pq.2

/-- The rejection loop of `normal_random` on the numerators: the first candidate pair with
`0 < s < 1` among the first `fuel` ones, with the generator state after it. -/
def polar_pair_loop : Nat → Nat → Option ((Int × Int) × Nat)
  | 0, _ => none
  | fuel + 1, s =>
    let r := polar_pair s
    if pair_norm r.1 ≥ (2 ^ 31 - 1) ^ 2 ∨ pair_norm r.1 = 0 then polar_pair_loop fuel r.2
    else some r

/-- The product of the numerators `p * p + q * q` of a list of pairs. -/
def norm_prod : List (Int × Int) → Int
  | [] => 1
  | pq :: l => pair_norm pq * norm_prod l

/-- Integer test on the generator stream after `seed_random(seed)`: the first `2 * j` accepted
pairs (they give the `4 * j` normal draws of `monte_carlo_standard`) have a product of `s` of
at least `(27182818283 / 10^10)^(-L1)`, and the next `j` accepted pairs (they give the `2 * j`
normal draws of `monte_carlo_antithetic`) have a product of `s` of at most
`(27182818286 / 10^10)^(-L2)`. -/
def stream_check (fuel seed j L1 L2 : Nat) : Bool :=
  match opt_draws (polar_pair_loop fuel) (2 * j) (seed % UINT_RANGE) with
  | none => false
  | some r1 =>
    match opt_draws (polar_pair_loop fuel) j r1.2 with
    | none => false
    | some r2 =>
      decide ((2 ^ 31 - 1) ^ (4 * j) * 10 ^ (10 * L1) ≤ norm_prod r1.1 * 27182818283 ^ L1) &&
      decide (norm_prod r2.1 * 27182818286 ^ L2 ≤ (2 ^ 31 - 1) ^ (2 * j) * 10 ^ (10 * L2))

/-! # Theorems -/

/-! ## Shared lemmas: the uniform generator -/

/-- The output of `uniform_random` depends only on the low 31 bits of the new state. -/
theorem uniform_random_low_bits {α : Type} [LinearOrderedField α] (g : RngState α) :
    (uniform_random g).1
      = ((lcg_step g.lcg_state % 2 ^ 31 : Nat) : α) / ((2 ^ 31 - 1 : Nat) : α) := by
  have h := Nat.and_pow_two_sub_one_eq_mod (lcg_step g.lcg_state) 31
  simp only [uniform_random]
  norm_num at h ⊢
  rw [h]

/-- Closed form of one `uniform_random` step, with the bit mask written as a remainder. -/
theorem uniform_random_eq {α : Type} [LinearOrderedField α] (g : RngState α) :
    uniform_random g
      = (((lcg_step g.lcg_state % 2 ^ 31 : Nat) : α) / ((2 ^ 31 - 1 : Nat) : α),
          { g with lcg_state := lcg_step g.lcg_state }) := by
  refine Prod.ext (uniform_random_low_bits g) rfl

/-- Every output of `uniform_random` lies in the closed interval from 0 to 1. -/
theorem uniform_random_mem_Icc {α : Type} [LinearOrderedField α] (g : RngState α) :
    0 ≤ (uniform_random g).1 ∧ (uniform_random g).1 ≤ 1 := by
  rw [uniform_random_low_bits]
  have hlt : lcg_step g.lcg_state % 2 ^ 31 < 2 ^ 31 := Nat.mod_lt _ (by norm_num)
  have hle : lcg_step g.lcg_state % 2 ^ 31 ≤ 2 ^ 31 - 1 := by omega
  have hpos : (0 : α) < ((2 ^ 31 - 1 : Nat) : α) := by norm_num
  constructor
  · exact div_nonneg (Nat.cast_nonneg _) hpos.le
  · rw [div_le_one hpos]
    exact_mod_cast hle

/-- The output of `uniform_random` and the new LCG state depend only on the LCG state. -/
theorem uniform_random_congr {α : Type} [LinearOrderedField α] (g1 g2 : RngState α)
    (h : g1.lcg_state = g2.lcg_state) :
    (uniform_random g1).1 = (uniform_random g2).1 ∧
      (uniform_random g1).2.lcg_state = (uniform_random g2).2.lcg_state := by
  simp only [uniform_random, h, and_self]

/-- Sequences of `uniform_random` outputs depend only on the LCG state. -/
theorem uniform_draws_congr {α : Type} [LinearOrderedField α] (n : Nat) :
    ∀ g1 g2 : RngState α, g1.lcg_state = g2.lcg_state →
      (uniform_draws n g1).1 = (uniform_draws n g2).1 := by
  induction n with
  | zero => intro g1 g2 _; rfl
  | succ n ih =>
    intro g1 g2 h
    obtain ⟨h1, h2⟩ := uniform_random_congr g1 g2 h
    simp only [uniform_draws, h1, ih _ _ h2]

/-- The rejection loop depends only on the LCG state it starts from. -/
theorem polar_loop_congr {α : Type} [LinearOrderedField α] (log sqrt : α → α) (fuel : Nat) :
    ∀ g1 g2 : RngState α, g1.lcg_state = g2.lcg_state →
      polar_loop log sqrt fuel g1 = polar_loop log sqrt fuel g2 := by
  induction fuel with
  | zero => intro g1 g2 _; rfl
  | succ n ih =>
    intro g1 g2 h
    obtain ⟨h1, h2⟩ := uniform_random_congr g1 g2 h
    obtain ⟨h3, h4⟩ := uniform_random_congr _ _ h2
    simp only [polar_loop, h1, h3, h4, ih _ _ h4]

/-- From two states that agree, `normal_random` either runs out of fuel in both or returns
the same value in both and leaves states that agree again. -/
theorem normal_random_congr {α : Type} [LinearOrderedField α] (log sqrt : α → α) (fuel : Nat)
    (g1 g2 : RngState α) (h : g1.agree g2) :
    (normal_random log sqrt fuel g1 = none ∧ normal_random log sqrt fuel g2 = none) ∨
    ∃ z g1' g2', normal_random log sqrt fuel g1 = some (z, g1') ∧
      normal_random log sqrt fuel g2 = some (z, g2') ∧ g1'.agree g2' := by
  obtain ⟨hl, hf, hs⟩ := h
  cases hb : g1.has_spare with
  | true =>
    right
    have hb2 : g2.has_spare = true := by rw [← hf, hb]
    refine ⟨g1.spare, { g1 with has_spare := false }, { g2 with has_spare := false }, ?_, ?_, ?_⟩
    · simp [normal_random, hb]
    · simp [normal_random, hb2, hs hb]
    · exact ⟨hl, rfl, fun h => by cases h⟩
  | false =>
    have hb2 : g2.has_spare = false := by rw [← hf, hb]
    have e1 : normal_random log sqrt fuel g1 = polar_loop log sqrt fuel g1 := by
      simp [normal_random, hb]
    have e2 : normal_random log sqrt fuel g2 = polar_loop log sqrt fuel g1 := by
      simp [normal_random, hb2, polar_loop_congr log sqrt fuel g1 g2 hl]
    rw [e1, e2]
    cases hp : polar_loop log sqrt fuel g1 with
    | none => exact Or.inl ⟨rfl, rfl⟩
    | some r => exact Or.inr ⟨r.1, r.2, r.2, rfl, rfl, rfl, rfl, fun _ => rfl⟩

/-- Sequences of `normal_random` outputs from two states that agree coincide. -/
theorem normal_draws_congr {α : Type} [LinearOrderedField α] (log sqrt : α → α) (fuel n : Nat) :
    ∀ g1 g2 : RngState α, g1.agree g2 →
      (normal_draws log sqrt fuel n g1).map Prod.fst
        = (normal_draws log sqrt fuel n g2).map Prod.fst := by
  induction n with
  | zero => intro g1 g2 _; rfl
  | succ n ih =>
    intro g1 g2 h
    rcases normal_random_congr log sqrt fuel g1 g2 h with ⟨e1, e2⟩ | ⟨z, g1', g2', e1, e2, h'⟩
    · simp only [normal_draws, e1, e2]
    · have := ih g1' g2' h'
      simp only [normal_draws, e1, e2]
      cases h1 : normal_draws log sqrt fuel n g1' with
      | none =>
        cases h2 : normal_draws log sqrt fuel n g2' with
        | none => rfl
        | some r2 => rw [h1, h2] at this; cases this
      | some r1 =>
        cases h2 : normal_draws log sqrt fuel n g2' with
        | none => rw [h1, h2] at this; cases this
        | some r2 =>
          rw [h1, h2] at this
          simp only [Option.map_some', Option.some.injEq] at this ⊢
          rw [this]

/-- First `uniform_random` step after `seed_random(42)`. -/
theorem uniform_random_seed42 (g : RngState ℝ) :
    uniform_random (seed_random 42 g)
      = (1250496027 / 2147483647,
          { lcg_state := 46347652635, has_spare := g.has_spare, spare := g.spare }) := by
  rw [uniform_random_eq]
  simp only [seed_random, lcg_step, UINT_RANGE, ULONG_RANGE]
  norm_num

/-- Second `uniform_random` step after `seed_random(42)`. -/
theorem uniform_random_seed42_next (b : Bool) (x : ℝ) :
    uniform_random ({ lcg_state := 46347652635, has_spare := b, spare := x } : RngState ℝ)
      = (1116302264 / 2147483647,
          { lcg_state := 14251853105267829688, has_spare := b, spare := x }) := by
  rw [uniform_random_eq]
  simp only [lcg_step, ULONG_RANGE]
  norm_num

/-- After `seed_random(42)` the first iteration of the rejection loop accepts: it returns
`u * m` and caches `v * m` with `u = 353508407/2147483647`, `v = 85120881/2147483647` and a
positive factor `m`. -/
theorem polar_loop_seed42 (g : RngState ℝ) :
    ∃ m : ℝ, 0 < m ∧ polar_loop Real.log Real.sqrt 1 (seed_random 42 g)
      = some (353508407 / 2147483647 * m,
          { lcg_state := 14251853105267829688, has_spare := true,
            spare := 85120881 / 2147483647 * m }) := by
  have hu : (2 * (1250496027 / 2147483647 : ℝ) - 1) = 353508407 / 2147483647 := by norm_num
  have hv : (2 * (1116302264 / 2147483647 : ℝ) - 1) = 85120881 / 2147483647 := by norm_num
  have hs1 : (353508407 / 2147483647 : ℝ) * (353508407 / 2147483647)
      + 85120881 / 2147483647 * (85120881 / 2147483647) < 1 := by norm_num
  have hs0 : (0 : ℝ) < (353508407 / 2147483647 : ℝ) * (353508407 / 2147483647)
      + 85120881 / 2147483647 * (85120881 / 2147483647) := by norm_num
  have hs : ¬ ((353508407 / 2147483647 : ℝ) * (353508407 / 2147483647)
      + 85120881 / 2147483647 * (85120881 / 2147483647) ≥ 1 ∨
      (353508407 / 2147483647 : ℝ) * (353508407 / 2147483647)
      + 85120881 / 2147483647 * (85120881 / 2147483647) = 0) := by
    rintro (h | h)
    · exact absurd hs1 (not_lt.mpr h)
    · exact absurd h hs0.ne'
  refine ⟨Real.sqrt (-2 * Real.log ((353508407 / 2147483647 : ℝ) * (353508407 / 2147483647)
      + 85120881 / 2147483647 * (85120881 / 2147483647)) /
      ((353508407 / 2147483647 : ℝ) * (353508407 / 2147483647)
      + 85120881 / 2147483647 * (85120881 / 2147483647))), ?_, ?_⟩
  · apply Real.sqrt_pos.mpr
    have hlog := Real.log_neg hs0 hs1
    exact div_pos (by linarith) hs0
  · simp only [polar_loop, uniform_random_seed42, uniform_random_seed42_next, hu, hv, hs,
      if_false]

/-- After `seed_random(42)` from a state without a cached spare, two `normal_random` draws
succeed with one iteration of the rejection loop each. -/
theorem normal_draws_seed42 (g : RngState ℝ) (hg : g.has_spare = false) :
    ∃ z1 z2 : ℝ, ∃ g2 : RngState ℝ,
      normal_draws Real.log Real.sqrt 1 2 (seed_random 42 g) = some ([z1, z2], g2) := by
  obtain ⟨m, _, hp⟩ := polar_loop_seed42 g
  have hn : normal_random Real.log Real.sqrt 1 (seed_random 42 g)
      = some (353508407 / 2147483647 * m,
          { lcg_state := 14251853105267829688, has_spare := true,
            spare := 85120881 / 2147483647 * m }) := by
    rw [← hp]
    simp [normal_random, seed_random, hg]
  refine ⟨353508407 / 2147483647 * m, 85120881 / 2147483647 * m,
    { lcg_state := 14251853105267829688, has_spare := false,
      spare := 85120881 / 2147483647 * m }, ?_⟩
  simp only [normal_draws, hn]
  simp [normal_random]

/-! ## Shared lemmas: the polynomial and the tail of `normal_cdf` -/

/-- Derivative of the polynomial of `normal_cdf`. -/
theorem cdf_poly_hasDerivAt (t : ℝ) :
    HasDerivAt (cdf_poly : ℝ → ℝ)
      (1.061405429 * (5 * t ^ 4) - 1.453152027 * (4 * t ^ 3) + 1.421413741 * (3 * t ^ 2)
        - 0.284496736 * (2 * t) + 0.254829592) t := by
  have h : (cdf_poly : ℝ → ℝ) = fun t => 1.061405429 * t ^ 5 - 1.453152027 * t ^ 4
      + 1.421413741 * t ^ 3 - 0.284496736 * t ^ 2 + 0.254829592 * t := by
    funext t
    simp only [cdf_poly]
    ring
  rw [h]
  have h5 := (hasDerivAt_pow 5 t).const_mul (1.061405429 : ℝ)
  have h4 := (hasDerivAt_pow 4 t).const_mul (1.453152027 : ℝ)
  have h3 := (hasDerivAt_pow 3 t).const_mul (1.421413741 : ℝ)
  have h2 := (hasDerivAt_pow 2 t).const_mul (0.284496736 : ℝ)
  have h1 := (hasDerivAt_id t).const_mul (0.254829592 : ℝ)
  have := (((h5.sub h4).add h3).sub h2).add h1
  convert this using 1
  norm_num

/-- The polynomial of `normal_cdf` is non-decreasing: its derivative is a quartic that is
positive on the whole real line. -/
theorem cdf_poly_monotone : Monotone (cdf_poly : ℝ → ℝ) := by
  refine monotone_of_deriv_nonneg (fun t => (cdf_poly_hasDerivAt t).differentiableAt) ?_
  intro t
  rw [(cdf_poly_hasDerivAt t).deriv]
  nlinarith [sq_nonneg (t - 0.284496736), sq_nonneg (t * (t - 0.5476)), sq_nonneg t]

/-- The polynomial of `normal_cdf` vanishes at `t = 0`. -/
theorem cdf_poly_zero : cdf_poly (0 : ℝ) = 0 := by
  simp [cdf_poly]

/-- At `t = 1` the polynomial of `normal_cdf` is the sum of the five coefficients. -/
theorem cdf_poly_one : cdf_poly (1 : ℝ) = 0.999999999 := by
  simp only [cdf_poly]
  norm_num

/-- In exact arithmetic `normal_cdf(0)` is `0.5 * (1 + (1 - 0.999999999))`: the five
coefficients add up to `0.999999999`, not to `1`. -/
theorem normal_cdf_zero_eq : normal_cdf Real.exp (0 : ℝ) = 0.5000000005 := by
  simp only [normal_cdf, cdf_poly]
  norm_num [Real.exp_zero]

/-- For `x ≥ 0`, `normal_cdf(x) = 1 - tail(x)/2`. -/
theorem normal_cdf_of_nonneg (exp : ℝ → ℝ) (x : ℝ) (hx : 0 ≤ x) :
    normal_cdf exp x = 1 - cdf_tail exp x / 2 := by
  have h : ¬ x < 0 := not_lt.mpr hx
  simp only [normal_cdf, cdf_tail, h, if_false]
  ring

/-- For `x < 0`, `normal_cdf(x) = tail(-x)/2`. -/
theorem normal_cdf_of_neg (exp : ℝ → ℝ) (x : ℝ) (hx : x < 0) :
    normal_cdf exp x = cdf_tail exp (-x) / 2 := by
  simp only [normal_cdf, cdf_tail, hx, if_true]
  ring

/-- The tail `poly(1/(1+p x)) * exp(-x^2/2)` is non-increasing on `x ≥ 0`. -/
theorem cdf_tail_antitone (x y : ℝ) (hx : 0 ≤ x) (hxy : x ≤ y) :
    cdf_tail Real.exp y ≤ cdf_tail Real.exp x := by
  have hy : 0 ≤ y := hx.trans hxy
  have hdx : (0 : ℝ) < 1 + 0.3275911 * x := by positivity
  have hdy : (0 : ℝ) < 1 + 0.3275911 * y := by positivity
  have ht : 1 / (1 + 0.3275911 * y) ≤ 1 / (1 + 0.3275911 * x) :=
    one_div_le_one_div_of_le hdx (by linarith)
  have hp : cdf_poly (1 / (1 + 0.3275911 * y)) ≤ cdf_poly (1 / (1 + 0.3275911 * x)) :=
    cdf_poly_monotone ht
  have hp0 : 0 ≤ cdf_poly (1 / (1 + 0.3275911 * x)) := by
    rw [← cdf_poly_zero]
    exact cdf_poly_monotone (by positivity)
  have he : Real.exp (-y * y / 2) ≤ Real.exp (-x * x / 2) :=
    Real.exp_le_exp.mpr (by nlinarith)
  exact mul_le_mul hp he (Real.exp_pos _).le hp0

/-- The tail at `x = 0`. -/
theorem cdf_tail_zero : cdf_tail Real.exp (0 : ℝ) = 0.999999999 := by
  simp only [cdf_tail]
  norm_num [cdf_poly_one]

/-- The tail is non-negative on `x ≥ 0`. -/
theorem cdf_tail_nonneg (x : ℝ) (hx : 0 ≤ x) : 0 ≤ cdf_tail Real.exp x := by
  have hp0 : 0 ≤ cdf_poly (1 / (1 + 0.3275911 * x)) := by
    rw [← cdf_poly_zero]
    exact cdf_poly_monotone (by positivity)
  exact mul_nonneg hp0 (Real.exp_pos _).le

/-- The tail is at most 1 on `x ≥ 0`. -/
theorem cdf_tail_le_one (x : ℝ) (hx : 0 ≤ x) : cdf_tail Real.exp x ≤ 1 := by
  have := cdf_tail_antitone 0 x le_rfl hx
  rw [cdf_tail_zero] at this
  linarith

/-- For `x > 0` the two branches of `normal_cdf` use the same `t` and `y`, so the values
at `x` and `-x` add up to exactly 1. -/
theorem normal_cdf_add_neg_of_pos (exp : ℝ → ℝ) (x : ℝ) (hx : 0 < x) :
    normal_cdf exp x + normal_cdf exp (-x) = 1 := by
  have h1 : ¬ x < 0 := not_lt.mpr hx.le
  have h2 : -x < 0 := neg_lt_zero.mpr hx
  simp only [normal_cdf, h1, h2, if_true, if_false, neg_neg]
  ring

/-- The values of `normal_cdf` at `x` and `-x` add up to exactly 1 whenever `x ≠ 0`. -/
theorem normal_cdf_add_neg_of_ne (exp : ℝ → ℝ) (x : ℝ) (hx : x ≠ 0) :
    normal_cdf exp x + normal_cdf exp (-x) = 1 := by
  rcases lt_or_gt_of_ne hx with h | h
  · have := normal_cdf_add_neg_of_pos exp (-x) (neg_pos.mpr h)
    rw [neg_neg] at this
    linarith
  · exact normal_cdf_add_neg_of_pos exp x h

/-- Bounds on the polynomial of `normal_cdf` at `t = 1/(1 + p/4)`. -/
theorem cdf_poly_at_quarter :
    cdf_poly (1 / (1 + 0.3275911 * (1 / 4 : ℝ))) ≤ 0.771 ∧
      0 ≤ cdf_poly (1 / (1 + 0.3275911 * (1 / 4 : ℝ))) := by
  simp only [cdf_poly]
  constructor <;> norm_num

/-- Bounds on the polynomial of `normal_cdf` at `t = 1/(1 + p)`. -/
theorem cdf_poly_at_one :
    cdf_poly (1 / (1 + 0.3275911 * (1 : ℝ))) < 0.43 ∧
      0 < cdf_poly (1 / (1 + 0.3275911 * (1 : ℝ))) := by
  simp only [cdf_poly]
  constructor <;> norm_num

/-- Numeric bound `exp(3/2) < 4.5`. -/
theorem exp_three_halves_lt : Real.exp (3 / 2) < 9 / 2 := by
  have h3 : Real.exp (3 / 2) ^ 2 = Real.exp 1 ^ 3 := by
    rw [← Real.exp_nat_mul, ← Real.exp_nat_mul]
    norm_num
  have he := Real.exp_one_lt_d9
  have hpos := Real.exp_pos 1
  have h4 : Real.exp 1 ^ 3 < (9 / 2) ^ 2 := by
    have : Real.exp 1 ^ 3 < 2.7182818286 ^ 3 := pow_lt_pow_left₀ he hpos.le (by norm_num)
    refine this.trans ?_
    norm_num
  rw [← h3] at h4
  exact lt_of_pow_lt_pow_left₀ 2 (by norm_num) h4

/-- The rational approximation of the quantile exceeds `1.1` for `t ≥ 2`. -/
theorem quantile_rational_ge (t : ℝ) (ht : 2 ≤ t) : 11 / 10 < quantile_rational t := by
  simp only [quantile_rational]
  have hB : (0 : ℝ) < 1 + 1.432788 * t + 0.189269 * t * t + 0.001308 * t * t * t := by
    have : 0 < t := by linarith
    positivity
  rw [lt_sub_iff_add_lt, ← lt_sub_iff_add_lt', div_lt_iff₀ hB]
  nlinarith [mul_nonneg (sub_nonneg.mpr ht) (sub_nonneg.mpr ht),
    mul_nonneg (mul_nonneg (sub_nonneg.mpr ht) (sub_nonneg.mpr ht)) (sub_nonneg.mpr ht),
    mul_nonneg (mul_nonneg (sub_nonneg.mpr ht) (sub_nonneg.mpr ht))
      (mul_nonneg (sub_nonneg.mpr ht) (sub_nonneg.mpr ht))]

/-! ## Shared lemmas: the standard normal law -/

section StandardNormal

open MeasureTheory ProbabilityTheory Set

/-- Symmetry of the standard normal law: the mass below `-a` equals the mass above `a`. -/
theorem stdNormal_Iic_neg (a : ℝ) :
    gaussianReal 0 1 (Iic (-a)) = gaussianReal 0 1 (Ici a) := by
  have h := @gaussianReal_map_const_mul 0 1 (-1)
  have h1 : gaussianReal (-1 * 0) (⟨(-1 : ℝ) ^ 2, sq_nonneg _⟩ * 1) = gaussianReal 0 1 := by
    congr 1
    · simp
    · ext
      simp
  rw [h1] at h
  conv_lhs => rw [← h]
  rw [Measure.map_apply (measurable_const_mul _) measurableSet_Iic]
  congr 1
  ext x
  simp

/-- Symmetry of the standard normal cumulative distribution function. -/
theorem stdNormal_cdf_neg (a : ℝ) :
    cdf (gaussianReal 0 1) (-a) = 1 - cdf (gaussianReal 0 1) a := by
  rw [cdf_eq_toReal, cdf_eq_toReal, stdNormal_Iic_neg]
  have hz : gaussianReal 0 1 {a} = 0 :=
    gaussianReal_absolutelyContinuous 0 one_ne_zero Real.volume_singleton
  have h1 : gaussianReal 0 1 (Iic a) = gaussianReal 0 1 (Iio a) := by
    rw [← Iic_diff_right, measure_diff_null hz]
  have h2 : gaussianReal 0 1 (Ici a) = 1 - gaussianReal 0 1 (Iio a) := by
    rw [← compl_Iio, prob_compl_eq_one_sub measurableSet_Iio]
  rw [h2, h1, ENNReal.toReal_sub_of_le prob_le_one ENNReal.one_ne_top]
  simp

/-- The standard normal mass of an interval is at most its length times the maximal
density `1/√(2π)`. -/
theorem stdNormal_Ioc_le (a b : ℝ) :
    gaussianReal 0 1 (Ioc a b) ≤ ENNReal.ofReal ((Real.sqrt (2 * Real.pi))⁻¹ * (b - a)) := by
  rw [gaussianReal_apply 0 one_ne_zero]
  calc ∫⁻ x in Ioc a b, gaussianPDF 0 1 x
      ≤ ∫⁻ _ in Ioc a b, ENNReal.ofReal ((Real.sqrt (2 * Real.pi))⁻¹) := by
        refine lintegral_mono (fun x => ENNReal.ofReal_le_ofReal ?_)
        simp only [gaussianPDFReal, NNReal.coe_one, mul_one]
        have h1 : Real.exp (-(x - 0) ^ 2 / 2) ≤ 1 :=
          Real.exp_le_one_iff.mpr (by have := sq_nonneg (x - 0); linarith)
        have h2 : 0 ≤ (Real.sqrt (2 * Real.pi))⁻¹ := by positivity
        calc (Real.sqrt (2 * Real.pi))⁻¹ * Real.exp (-(x - 0) ^ 2 / 2)
            ≤ (Real.sqrt (2 * Real.pi))⁻¹ * 1 := mul_le_mul_of_nonneg_left h1 h2
          _ = (Real.sqrt (2 * Real.pi))⁻¹ := mul_one _
    _ = ENNReal.ofReal ((Real.sqrt (2 * Real.pi))⁻¹) * volume (Ioc a b) := by
        rw [setLIntegral_const]
    _ = ENNReal.ofReal ((Real.sqrt (2 * Real.pi))⁻¹ * (b - a)) := by
        rw [Real.volume_Ioc, ← ENNReal.ofReal_mul (by positivity)]

/-- For `a ≥ 0` the standard normal cumulative probability at `a` is at most `1/2 + 0.4 a`. -/
theorem stdNormal_cdf_le (a : ℝ) (ha : 0 ≤ a) :
    cdf (gaussianReal 0 1) a ≤ 1 / 2 + 2 / 5 * a := by
  have h1 := (cdf (gaussianReal 0 1)).measure_Ioc (-a) a
  rw [measure_cdf] at h1
  have h2 := stdNormal_Ioc_le (-a) a
  rw [h1] at h2
  have hC : (Real.sqrt (2 * Real.pi))⁻¹ ≤ 2 / 5 := by
    have hs : (5 / 2 : ℝ) ≤ Real.sqrt (2 * Real.pi) := by
      apply Real.le_sqrt_of_sq_le
      have := Real.pi_gt_d2
      norm_num at this ⊢
      linarith
    rw [inv_le_comm₀ (by positivity) (by norm_num)]
    have h52 : ((2 : ℝ) / 5)⁻¹ = 5 / 2 := by norm_num
    rw [h52]
    exact hs
  have h3 : 0 ≤ (Real.sqrt (2 * Real.pi))⁻¹ * (a - -a) := by
    have : 0 ≤ (Real.sqrt (2 * Real.pi))⁻¹ := by positivity
    exact mul_nonneg this (by linarith)
  have h4 := (ENNReal.ofReal_le_ofReal_iff h3).mp h2
  rw [stdNormal_cdf_neg] at h4
  have h5 : (Real.sqrt (2 * Real.pi))⁻¹ * (a - -a) ≤ 2 / 5 * (a - -a) :=
    mul_le_mul_of_nonneg_right hC (by linarith)
  linarith

end StandardNormal

/-! ## C1: range of `uniform_random` -/

/-- C1 (code defect): seeded with 230538014, the very first call of `uniform_random`
returns exactly 1, so the output is not always below 1 as the function comment
("uniform random number in [0, 1)") promises. -/
theorem uniform_random_bad_seed {α : Type} [LinearOrderedField α] (g : RngState α) :
    (uniform_random (seed_random 230538014 g)).1 = 1 := by
  rw [uniform_random_low_bits]
  have h : lcg_step (seed_random 230538014 g).lcg_state % 2 ^ 31 = 2 ^ 31 - 1 := by
    simp only [seed_random, lcg_step, UINT_RANGE, ULONG_RANGE]
    norm_num
  rw [h]
  have hpos : ((2 ^ 31 - 1 : Nat) : α) ≠ 0 := by norm_num
  exact div_self hpos

/-! ## C2: accuracy of `normal_cdf` -/

/-- C2 (code defect): at `x = 0.25` the C `normal_cdf` exceeds the true standard normal
cumulative probability (the cdf of `gaussianReal 0 1`) by more than `0.01`, so the absolute
error is far above the `1e-7` of the claim and the `7.5e-8` of the function comment. -/
theorem normal_cdf_error_at_quarter :
    (1 / 100 : ℝ) < normal_cdf Real.exp (1 / 4) - ProbabilityTheory.cdf (ProbabilityTheory.gaussianReal 0 1) (1 / 4) ∧
    (1e-7 : ℝ) < |normal_cdf Real.exp (1 / 4) - ProbabilityTheory.cdf (ProbabilityTheory.gaussianReal 0 1) (1 / 4)| := by
  have hN := normal_cdf_of_nonneg Real.exp (1 / 4) (by norm_num)
  have hΦ := stdNormal_cdf_le (1 / 4) (by norm_num)
  have hT : cdf_tail Real.exp (1 / 4 : ℝ) ≤ 0.771 := by
    simp only [cdf_tail]
    have he : Real.exp (-(1 / 4 : ℝ) * (1 / 4) / 2) ≤ 1 :=
      Real.exp_le_one_iff.mpr (by norm_num)
    obtain ⟨hp, hp0⟩ := cdf_poly_at_quarter
    calc cdf_poly (1 / (1 + 0.3275911 * (1 / 4 : ℝ))) * Real.exp (-(1 / 4 : ℝ) * (1 / 4) / 2)
        ≤ cdf_poly (1 / (1 + 0.3275911 * (1 / 4 : ℝ))) * 1 := mul_le_mul_of_nonneg_left he hp0
      _ ≤ 0.771 := by rw [mul_one]; exact hp
  have h1 : (1 / 100 : ℝ) < normal_cdf Real.exp (1 / 4) - ProbabilityTheory.cdf (ProbabilityTheory.gaussianReal 0 1) (1 / 4) := by
    rw [hN]
    norm_num at hT hΦ ⊢
    linarith
  refine ⟨h1, ?_⟩
  have h2 : (1e-7 : ℝ) < 1 / 100 := by norm_num
  exact lt_of_lt_of_le (h2.trans h1) (le_abs_self _)

/-! ## C3: `cdf(0)` -/

/-- C3 (as stated, refuted): the C `normal_cdf(0)` is not exactly `0.5`. -/
theorem normal_cdf_zero_ne_half : normal_cdf Real.exp (0 : ℝ) ≠ 0.5 := by
  rw [normal_cdf_zero_eq]
  norm_num

/-- C3 (amended): the C `normal_cdf(0)` equals `0.5000000005` (so it is within `1e-9` of
`0.5`), and the C++ `NormalDistribution::cdf(0)` equals exactly `0.5` for every error
function with `erf(0) = 0`. -/
theorem cdf_zero_values :
    normal_cdf Real.exp (0 : ℝ) = 0.5000000005 ∧
    |normal_cdf Real.exp (0 : ℝ) - 0.5| ≤ 1e-9 ∧
    ∀ erf : ℝ → ℝ, erf 0 = 0 → NormalDistribution.cdf Real.sqrt erf 0 = 0.5 := by
  refine ⟨normal_cdf_zero_eq, ?_, ?_⟩
  · rw [normal_cdf_zero_eq]
    norm_num [abs_le]
  · intro erf h
    simp [NormalDistribution.cdf, h]

/-- Witness for C3: the hypothesis `erf 0 = 0` holds for the error function
`erf z = 2/√π * ∫ t in 0..z, exp (-t^2)`. -/
theorem cdf_zero_values_witness :
    NormalDistribution.cdf Real.sqrt
      (fun z : ℝ => 2 / Real.sqrt Real.pi * ∫ t in (0 : ℝ)..z, Real.exp (-(t * t))) 0 = 0.5 :=
  cdf_zero_values.2.2 _ (by simp)

/-! ## C4: `cdf(x) + cdf(-x)` -/

/-- C4: for every real `x`, `|normal_cdf(x) + normal_cdf(-x) - 1| ≤ 1e-6`; the sum is
exactly 1 for every `x ≠ 0`. -/
theorem normal_cdf_symmetry :
    (∀ x : ℝ, |normal_cdf Real.exp x + normal_cdf Real.exp (-x) - 1| ≤ 1e-6) ∧
    (∀ x : ℝ, x ≠ 0 → normal_cdf Real.exp x + normal_cdf Real.exp (-x) = 1) := by
  refine ⟨fun x => ?_, fun x hx => normal_cdf_add_neg_of_ne Real.exp x hx⟩
  by_cases hx : x = 0
  · subst hx
    rw [neg_zero, normal_cdf_zero_eq]
    norm_num [abs_le]
  · rw [normal_cdf_add_neg_of_ne Real.exp x hx]
    norm_num

/-- Witness for C4 at `x = 1`. -/
theorem normal_cdf_symmetry_witness :
    (1 : ℝ) ≠ 0 ∧ normal_cdf Real.exp (1 : ℝ) + normal_cdf Real.exp (-1) = 1 :=
  ⟨one_ne_zero, normal_cdf_symmetry.2 1 one_ne_zero⟩

/-! ## C5: monotonicity of `normal_cdf` -/

/-- C5: the C `normal_cdf` is monotonically non-decreasing on the reals, `x ≤ y` implies
`normal_cdf(x) ≤ normal_cdf(y)`, also across the branch switch at `x = 0`. -/
theorem normal_cdf_monotone (x y : ℝ) (h : x ≤ y) :
    normal_cdf Real.exp x ≤ normal_cdf Real.exp y := by
  rcases lt_or_le x 0 with hx | hx
  · rcases lt_or_le y 0 with hy | hy
    · rw [normal_cdf_of_neg _ x hx, normal_cdf_of_neg _ y hy]
      have := cdf_tail_antitone (-y) (-x) (by linarith) (by linarith)
      linarith
    · rw [normal_cdf_of_neg _ x hx, normal_cdf_of_nonneg _ y hy]
      have h1 := cdf_tail_le_one (-x) (by linarith)
      have h2 := cdf_tail_le_one y hy
      linarith
  · have hy : 0 ≤ y := hx.trans h
    rw [normal_cdf_of_nonneg _ x hx, normal_cdf_of_nonneg _ y hy]
    have := cdf_tail_antitone x y hx h
    linarith

/-- Witness for C5 across the branch switch: `normal_cdf(-1) ≤ normal_cdf(2)`. -/
theorem normal_cdf_monotone_witness :
    normal_cdf Real.exp (-1 : ℝ) ≤ normal_cdf Real.exp (2 : ℝ) :=
  normal_cdf_monotone (-1) 2 (by norm_num)

/-! ## C6: round trip `quantile(cdf(x))` -/

/-- C6 (code defect): at `x = 1` the round trip `normal_quantile(normal_cdf(1))` is a finite
value above `1.1`, so it misses `x = 1` by more than the `1e-3` of the claim. -/
theorem quantile_cdf_roundtrip_at_one :
    ∃ q : ℝ, normal_quantile Real.log Real.sqrt (normal_cdf Real.exp 1) = Dbl.fin q ∧
      11 / 10 < q ∧ (1e-3 : ℝ) < |q - 1| := by
  obtain ⟨hP1, hP0⟩ := cdf_poly_at_one
  have hE1 : Real.exp (-(1 : ℝ) * 1 / 2) ≤ 1 := Real.exp_le_one_iff.mpr (by norm_num)
  have hE0 := Real.exp_pos (-(1 : ℝ) * 1 / 2)
  have hN := normal_cdf_of_nonneg Real.exp 1 (by norm_num)
  have hTdef : cdf_tail Real.exp (1 : ℝ)
      = cdf_poly (1 / (1 + 0.3275911 * (1 : ℝ))) * Real.exp (-(1 : ℝ) * 1 / 2) := rfl
  have hT0 : 0 < cdf_tail Real.exp (1 : ℝ) := by
    rw [hTdef]
    exact mul_pos hP0 hE0
  have hT1 : cdf_tail Real.exp (1 : ℝ) < 0.43 := by
    rw [hTdef]
    calc cdf_poly (1 / (1 + 0.3275911 * (1 : ℝ))) * Real.exp (-(1 : ℝ) * 1 / 2)
        ≤ cdf_poly (1 / (1 + 0.3275911 * (1 : ℝ))) * 1 := mul_le_mul_of_nonneg_left hE1 hP0.le
      _ < 0.43 := by rw [mul_one]; exact hP1
  -- the tail is at most `exp(-2)`
  have hexp : Real.exp (-(3 / 2)) > 2 / 9 := by
    rw [Real.exp_neg]
    have := exp_three_halves_lt
    have hpos := Real.exp_pos (3 / 2)
    rw [gt_iff_lt, lt_inv_comm₀ (by norm_num) hpos]
    norm_num
    linarith
  have hT2 : cdf_tail Real.exp (1 : ℝ) / 2 ≤ Real.exp (-2) := by
    have hsplit : Real.exp (-2) = Real.exp (-(3 / 2)) * Real.exp (-(1 : ℝ) * 1 / 2) := by
      rw [← Real.exp_add]
      norm_num
    rw [hTdef, hsplit]
    have : cdf_poly (1 / (1 + 0.3275911 * (1 : ℝ))) / 2 ≤ Real.exp (-(3 / 2)) := by
      norm_num at hP1 hexp ⊢
      linarith
    calc cdf_poly (1 / (1 + 0.3275911 * (1 : ℝ))) * Real.exp (-(1 : ℝ) * 1 / 2) / 2
        = cdf_poly (1 / (1 + 0.3275911 * (1 : ℝ))) / 2 * Real.exp (-(1 : ℝ) * 1 / 2) := by ring
      _ ≤ Real.exp (-(3 / 2)) * Real.exp (-(1 : ℝ) * 1 / 2) :=
          mul_le_mul_of_nonneg_right this hE0.le
  have hlog : Real.log (cdf_tail Real.exp (1 : ℝ) / 2) ≤ -2 :=
    (Real.log_le_iff_le_exp (by linarith)).mpr hT2
  have ht : 2 ≤ Real.sqrt (-2 * Real.log (1 - normal_cdf Real.exp 1)) := by
    apply Real.le_sqrt_of_sq_le
    rw [hN]
    have : (1 : ℝ) - (1 - cdf_tail Real.exp 1 / 2) = cdf_tail Real.exp 1 / 2 := by ring
    rw [this]
    linarith
  have a0 : ¬ normal_cdf Real.exp (1 : ℝ) ≤ 0 := by
    rw [hN]
    norm_num at hT1 ⊢
    linarith
  have a1 : ¬ normal_cdf Real.exp (1 : ℝ) ≥ 1 := by
    rw [hN]
    intro h
    linarith
  have a2 : ¬ normal_cdf Real.exp (1 : ℝ) = 0.5 := by
    rw [hN]
    intro h
    norm_num at hT1 h
    linarith
  have a3 : ¬ normal_cdf Real.exp (1 : ℝ) < 0.5 := by
    rw [hN]
    intro h
    norm_num at hT1 h
    linarith
  refine ⟨quantile_rational (Real.sqrt (-2 * Real.log (1 - normal_cdf Real.exp 1))), ?_, ?_, ?_⟩
  · simp only [normal_quantile, a0, a1, a2, a3, if_false]
  · exact quantile_rational_ge _ ht
  · have := quantile_rational_ge _ ht
    have h2 : (1e-3 : ℝ) < 11 / 10 - 1 := by norm_num
    exact lt_of_lt_of_le (by linarith) (le_abs_self _)

/-! ## C7: case analysis of `normal_quantile` -/

/-- C7: `normal_quantile(p)` is `-∞` for `p ≤ 0`, `+∞` for `p ≥ 1`, exactly `0` at
`p = 0.5`, and for every other `p` in `(0,1)` the finite value
`± (t - (c0 + c1 t + c2 t²)/(1 + d1 t + d2 t² + d3 t³))` with
`t = sqrt(-2 ln(min(p, 1-p)))`, negated when `p < 0.5`; the C++ quantile is the same
function. -/
theorem normal_quantile_cases {α : Type} [LinearOrderedField α] (log sqrt : α → α) (p : α) :
    (p ≤ 0 → normal_quantile log sqrt p = Dbl.negInf) ∧
    (1 ≤ p → normal_quantile log sqrt p = Dbl.posInf) ∧
    (p = 0.5 → normal_quantile log sqrt p = Dbl.fin 0) ∧
    (0 < p → p < 1 → p ≠ 0.5 →
      normal_quantile log sqrt p =
        Dbl.fin (if p < 0.5
          then -(sqrt (-2 * log (min p (1 - p)))
            - (2.515517 + 0.802853 * sqrt (-2 * log (min p (1 - p)))
                + 0.010328 * sqrt (-2 * log (min p (1 - p))) ^ 2) /
              (1 + 1.432788 * sqrt (-2 * log (min p (1 - p)))
                + 0.189269 * sqrt (-2 * log (min p (1 - p))) ^ 2
                + 0.001308 * sqrt (-2 * log (min p (1 - p))) ^ 3))
          else sqrt (-2 * log (min p (1 - p)))
            - (2.515517 + 0.802853 * sqrt (-2 * log (min p (1 - p)))
                + 0.010328 * sqrt (-2 * log (min p (1 - p))) ^ 2) /
              (1 + 1.432788 * sqrt (-2 * log (min p (1 - p)))
                + 0.189269 * sqrt (-2 * log (min p (1 - p))) ^ 2
                + 0.001308 * sqrt (-2 * log (min p (1 - p))) ^ 3))) ∧
    NormalDistribution.quantile log sqrt p = normal_quantile log sqrt p := by
  have hhalf : (0.5 : α) = 1 / 2 := by norm_num
  refine ⟨fun h => ?_, fun h => ?_, fun h => ?_, fun h0 h1 hne => ?_, ?_⟩
  · simp [normal_quantile, h]
  · have h0 : ¬ p ≤ 0 := not_le.mpr (lt_of_lt_of_le zero_lt_one h)
    simp [normal_quantile, h0, h]
  · subst h
    have h0 : ¬ (0.5 : α) ≤ 0 := by norm_num
    have h1 : ¬ (0.5 : α) ≥ 1 := by norm_num
    simp only [normal_quantile, h0, h1, if_false, if_true]
  · have h0n : ¬ p ≤ 0 := not_le.mpr h0
    have h1n : ¬ p ≥ 1 := not_le.mpr h1
    simp only [normal_quantile, h0n, h1n, hne, if_false, quantile_rational]
    by_cases hlt : p < 0.5
    · have hmin : min p (1 - p) = p := min_eq_left (by rw [hhalf] at hlt; linarith)
      simp only [hlt, if_true, hmin]
      congr 1
      ring
    · have hmin : min p (1 - p) = 1 - p := min_eq_right (by rw [hhalf] at hlt; linarith)
      simp only [hlt, if_false, hmin]
      congr 1
      ring
  · simp only [NormalDistribution.quantile, normal_quantile, quantile_rational]

/-- Witness for C7: the four branches at `p = 0`, `p = 1`, `p = 0.5` and `p = 0.25`. -/
theorem normal_quantile_cases_witness :
    normal_quantile Real.log Real.sqrt (0 : ℝ) = Dbl.negInf ∧
    normal_quantile Real.log Real.sqrt (1 : ℝ) = Dbl.posInf ∧
    normal_quantile Real.log Real.sqrt (0.5 : ℝ) = Dbl.fin 0 ∧
    ∃ v : ℝ, normal_quantile Real.log Real.sqrt (0.25 : ℝ) = Dbl.fin v :=
  ⟨(normal_quantile_cases Real.log Real.sqrt 0).1 le_rfl,
   (normal_quantile_cases Real.log Real.sqrt 1).2.1 le_rfl,
   (normal_quantile_cases Real.log Real.sqrt 0.5).2.2.1 rfl,
   _, (normal_quantile_cases Real.log Real.sqrt 0.25).2.2.2.1
        (by norm_num) (by norm_num) (by norm_num)⟩

/-! ## C8: mirror law of `normal_quantile` -/

/-- C8: for every `p` with `0 < p < 1`, `normal_quantile(1 - p) = -normal_quantile(p)`. -/
theorem normal_quantile_mirror {α : Type} [LinearOrderedField α] (log sqrt : α → α) (p : α)
    (h0 : 0 < p) (h1 : p < 1) :
    normal_quantile log sqrt (1 - p) = Dbl.neg (normal_quantile log sqrt p) := by
  have hhalf : (0.5 : α) = 1 / 2 := by norm_num
  have a0 : ¬ p ≤ 0 := not_le.mpr h0
  have a1 : ¬ p ≥ 1 := not_le.mpr h1
  have b0 : ¬ 1 - p ≤ 0 := by linarith
  have b1 : ¬ 1 - p ≥ 1 := by
    intro h
    linarith
  rcases lt_trichotomy p 0.5 with h | h | h
  · have c1 : ¬ 1 - p = 0.5 := by
      intro h2
      rw [hhalf] at h h2
      linarith
    have c2 : ¬ 1 - p < 0.5 := by
      rw [hhalf] at h ⊢
      linarith
    simp only [normal_quantile, a0, a1, b0, b1, c1, c2, h, h.ne, if_false, if_true,
      sub_sub_cancel, Dbl.neg, neg_neg]
  · subst h
    have c1 : (1 : α) - 0.5 = 0.5 := by norm_num
    simp only [normal_quantile, c1, a0, a1, if_false, if_true, Dbl.neg, neg_zero]
  · have c1 : ¬ 1 - p = 0.5 := by
      intro h2
      rw [hhalf] at h h2
      linarith
    have c2 : 1 - p < 0.5 := by
      rw [hhalf] at h ⊢
      linarith
    have c3 : ¬ p < 0.5 := not_lt.mpr h.le
    simp only [normal_quantile, a0, a1, b0, b1, c1, c2, c3, h.ne', if_false, if_true, Dbl.neg]

/-- Witness for C8 at `p = 1/4`. -/
theorem normal_quantile_mirror_witness :
    normal_quantile Real.log Real.sqrt (1 - (1 / 4 : ℝ))
      = Dbl.neg (normal_quantile Real.log Real.sqrt (1 / 4 : ℝ)) :=
  normal_quantile_mirror Real.log Real.sqrt (1 / 4) (by norm_num) (by norm_num)

/-! ## C9: determinism of seeded generators -/

/-- C9 (determinism): two fresh generator states (`has_spare = 0`) seeded with the same `k`
produce the same sequence of `uniform_random` outputs and the same sequence of
`normal_random` outputs, for every `k`, every number of draws and every fuel. -/
theorem seeded_draws_deterministic {α : Type} [LinearOrderedField α] (log sqrt : α → α)
    (g1 g2 : RngState α) (h1 : g1.has_spare = false) (h2 : g2.has_spare = false)
    (k fuel n : Nat) :
    (uniform_draws n (seed_random k g1)).1 = (uniform_draws n (seed_random k g2)).1 ∧
    (normal_draws log sqrt fuel n (seed_random k g1)).map Prod.fst
      = (normal_draws log sqrt fuel n (seed_random k g2)).map Prod.fst := by
  refine ⟨uniform_draws_congr n _ _ rfl, normal_draws_congr log sqrt fuel n _ _ ⟨rfl, ?_, ?_⟩⟩
  · simp [seed_random, h1, h2]
  · intro h
    simp [seed_random, h1] at h

/-- Witness for C9: the initial state and another fresh state, both seeded with 42, give
the same two uniform draws and the same two normal draws, and the normal draws are produced
(the loop does not run out of fuel). -/
theorem seeded_draws_deterministic_witness :
    ((uniform_draws 2 (seed_random 42 (RngState.initial : RngState ℝ))).1
        = (uniform_draws 2
            (seed_random 42 ({ lcg_state := 7, has_spare := false, spare := 3 } : RngState ℝ))).1 ∧
      (normal_draws Real.log Real.sqrt 1 2 (seed_random 42 (RngState.initial : RngState ℝ))).map
          Prod.fst
        = (normal_draws Real.log Real.sqrt 1 2
            (seed_random 42
              ({ lcg_state := 7, has_spare := false, spare := 3 } : RngState ℝ))).map Prod.fst) ∧
    ∃ z1 z2 : ℝ, ∃ g2 : RngState ℝ,
      normal_draws Real.log Real.sqrt 1 2 (seed_random 42 (RngState.initial : RngState ℝ))
        = some ([z1, z2], g2) :=
  ⟨seeded_draws_deterministic Real.log Real.sqrt RngState.initial
      { lcg_state := 7, has_spare := false, spare := 3 } rfl rfl 42 1 2,
    normal_draws_seed42 _ rfl⟩

/-! ## C10: re-seeding -/

/-- C10 (as stated, refuted): let `gB` be the state reached from the initial state by
`seed_random(42)` and one `normal_random` draw.  Calling `seed_random(42)` again and
drawing one normal from `gB` does not give the value drawn after `seed_random(42)` from the
initial state: the first draw returns the spare cached before the re-seed. -/
theorem reseed_keeps_stale_spare :
    ∃ (z0 : ℝ) (gB : RngState ℝ),
      normal_random Real.log Real.sqrt 1 (seed_random 42 RngState.initial) = some (z0, gB) ∧
      (normal_draws Real.log Real.sqrt 1 1 (seed_random 42 gB)).map Prod.fst
        ≠ (normal_draws Real.log Real.sqrt 1 1 (seed_random 42 RngState.initial)).map Prod.fst := by
  obtain ⟨m, hm, hp⟩ := polar_loop_seed42 RngState.initial
  have hn : normal_random Real.log Real.sqrt 1 (seed_random 42 (RngState.initial : RngState ℝ))
      = some (353508407 / 2147483647 * m,
          { lcg_state := 14251853105267829688, has_spare := true,
            spare := 85120881 / 2147483647 * m }) := by
    rw [← hp]
    simp [normal_random, seed_random, RngState.initial]
  refine ⟨_, _, hn, ?_⟩
  simp only [normal_draws, hn]
  have hB : normal_random Real.log Real.sqrt 1
      (seed_random 42
        ({ lcg_state := 14251853105267829688, has_spare := true,
           spare := 85120881 / 2147483647 * m } : RngState ℝ))
      = some (85120881 / 2147483647 * m,
          { lcg_state := 42, has_spare := false, spare := 85120881 / 2147483647 * m }) := by
    simp [normal_random, seed_random, UINT_RANGE]
  rw [hB]
  simp only [Option.map_some', ne_eq, Option.some.injEq, List.cons.injEq, and_true]
  intro h
  have := mul_right_cancel₀ hm.ne' h
  norm_num at this

/-- C10 (amended): after `seed_random(u)` the sequence of `normal_random` outputs depends only
on `u` and on the spare cache left by the earlier draws (`has_spare`, and `spare` when it is
set): from any two prior states that agree on the cache the post-seed sequences coincide. -/
theorem reseed_depends_on_seed_and_cache {α : Type} [LinearOrderedField α] (log sqrt : α → α)
    (g1 g2 : RngState α) (hf : g1.has_spare = g2.has_spare)
    (hs : g1.has_spare = true → g1.spare = g2.spare) (u fuel n : Nat) :
    (normal_draws log sqrt fuel n (seed_random u g1)).map Prod.fst
      = (normal_draws log sqrt fuel n (seed_random u g2)).map Prod.fst :=
  normal_draws_congr log sqrt fuel n _ _ ⟨rfl, hf, hs⟩

/-- Witness for C10 (amended): two prior states with different LCG states and the same
cached spare `1/2`. -/
theorem reseed_depends_on_seed_and_cache_witness :
    (normal_draws Real.log Real.sqrt 1 2
        (seed_random 42 ({ lcg_state := 1, has_spare := true, spare := 1 / 2 } : RngState ℝ))).map
        Prod.fst
      = (normal_draws Real.log Real.sqrt 1 2
          (seed_random 42
            ({ lcg_state := 99, has_spare := true, spare := 1 / 2 } : RngState ℝ))).map Prod.fst :=
  reseed_depends_on_seed_and_cache Real.log Real.sqrt
    { lcg_state := 1, has_spare := true, spare := 1 / 2 }
    { lcg_state := 99, has_spare := true, spare := 1 / 2 } rfl (fun _ => rfl) 42 1 2

/-! ## Shared lemmas: statistics -/

/-- An accumulation loop `acc += f x` computes the sum of the `f x`. -/
theorem foldl_add_eq_sum {α : Type} [LinearOrderedField α] (f : α → α) (l : List α) (a : α) :
    l.foldl (fun acc x => acc + f x) a = a + (l.map f).sum := by
  induction l generalizing a with
  | nil => simp
  | cons x xs ih =>
    simp only [List.foldl_cons, List.map_cons, List.sum_cons, ih]
    ring

/-- When the sample fills the array, `compute_mean` is the sum divided by `n`. -/
theorem compute_mean_eq {α : Type} [LinearOrderedField α] (arr : List α) :
    compute_mean arr arr.length = arr.sum / (arr.length : α) := by
  have h := foldl_add_eq_sum (fun x : α => x) arr 0
  simp only [List.map_id', zero_add] at h
  simp only [compute_mean, List.take_length, h]

/-- When the sample fills the array, the loop of `compute_variance` is the sum of the squared
deviations. -/
theorem sum_sq_loop_eq {α : Type} [LinearOrderedField α] (arr : List α) (m : α) :
    sum_sq_loop arr arr.length m = (arr.map (fun x => (x - m) ^ 2)).sum := by
  have h := foldl_add_eq_sum (fun x : α => (x - m) * (x - m)) arr 0
  simp only [zero_add] at h
  have hf : (fun x : α => (x - m) * (x - m)) = fun x => (x - m) ^ 2 := by
    funext x
    ring
  simp only [sum_sq_loop, List.take_length, h, hf]

/-- When floor and ceiling of `r` coincide, `r` is that integer. -/
theorem eq_floor_of_floor_eq_ceil (r : ℝ) (h : Int.floor r = Int.ceil r) :
    r = (Int.floor r : ℝ) := by
  have h1 := Int.floor_le r
  have h2 := Int.le_ceil r
  rw [← h] at h2
  exact le_antisymm h2 h1

/-- Both branches of `compute_percentile` are the interpolation formula. -/
theorem compute_percentile_eq (data : List ℝ) (hne : data ≠ []) (p : ℝ) :
    compute_percentile data data.length p
      = (data.insertionSort (fun a b => a ≤ b)).getD
            (Int.floor (p * ((data.length : ℝ) - 1))).toNat 0
          * (1 - (p * ((data.length : ℝ) - 1) - (Int.floor (p * ((data.length : ℝ) - 1)) : ℝ)))
        + (data.insertionSort (fun a b => a ≤ b)).getD
            (Int.ceil (p * ((data.length : ℝ) - 1))).toNat 0
          * (p * ((data.length : ℝ) - 1) - (Int.floor (p * ((data.length : ℝ) - 1)) : ℝ)) := by
  have hn : data.length ≠ 0 := by
    intro h
    exact hne (List.length_eq_zero.mp h)
  have hcast : (((data.length : Int) - 1 : Int) : ℝ) = (data.length : ℝ) - 1 := by
    push_cast
    ring
  simp only [compute_percentile, hn, if_false, List.take_length, hcast]
  by_cases h : Int.floor (p * ((data.length : ℝ) - 1)) = Int.ceil (p * ((data.length : ℝ) - 1))
  · have hr := eq_floor_of_floor_eq_ceil _ h
    simp only [h, if_true]
    rw [← h, ← hr]
    ring
  · simp only [h, if_false]

/-- The C++ percentile computes the same value as the C one. -/
theorem Statistics_percentile_eq (data : List ℝ) (p : ℝ) (hp : 0 ≤ p) :
    Statistics.percentile data p = compute_percentile data data.length p := by
  by_cases hne : data = []
  · simp [Statistics.percentile, compute_percentile, hne]
  · have hn : data.length ≠ 0 := by
      intro h
      exact hne (List.length_eq_zero.mp h)
    have hpos : 1 ≤ data.length := Nat.one_le_iff_ne_zero.mpr hn
    have hcast : (((data.length : Int) - 1 : Int) : ℝ) = (data.length : ℝ) - 1 := by
      push_cast
      ring
    have hcastN : ((data.length - 1 : Nat) : ℝ) = (data.length : ℝ) - 1 := by
      rw [Nat.cast_sub hpos]
      simp
    have hr : 0 ≤ p * ((data.length : ℝ) - 1) := by
      apply mul_nonneg hp
      have : (1 : ℝ) ≤ data.length := by exact_mod_cast hpos
      linarith
    have hfl : 0 ≤ Int.floor (p * ((data.length : ℝ) - 1)) := Int.floor_nonneg.mpr hr
    have hce : 0 ≤ Int.ceil (p * ((data.length : ℝ) - 1)) := Int.ceil_nonneg hr
    have hfc : (((Int.floor (p * ((data.length : ℝ) - 1))).toNat : Nat) : ℝ)
        = (Int.floor (p * ((data.length : ℝ) - 1)) : ℝ) := by
      have := Int.toNat_of_nonneg hfl
      exact_mod_cast congrArg (fun z : Int => (z : ℝ)) this
    have hiff : (Int.floor (p * ((data.length : ℝ) - 1))).toNat
          = (Int.ceil (p * ((data.length : ℝ) - 1))).toNat
        ↔ Int.floor (p * ((data.length : ℝ) - 1)) = Int.ceil (p * ((data.length : ℝ) - 1)) := by
      constructor
      · intro h
        have h1 := Int.toNat_of_nonneg hfl
        have h2 := Int.toNat_of_nonneg hce
        rw [← h1, ← h2, h]
      · intro h
        rw [h]
    simp only [Statistics.percentile, compute_percentile, hne, hn, if_false, List.take_length,
      List.length_insertionSort, hcast, hcastN, hfc, hiff]

/-! ## Shared lemmas: the normal density -/

/-- The constant `SQRT_2PI` agrees with `√(2π)` to within `1e-20`. -/
theorem SQRT_2PI_close : |(SQRT_2PI : ℝ) - Real.sqrt (2 * Real.pi)| < 1e-20 := by
  have h1 := Real.pi_gt_d20
  have h2 := Real.pi_lt_d20
  have hlo : (SQRT_2PI : ℝ) - 1e-20 < Real.sqrt (2 * Real.pi) := by
    apply Real.lt_sqrt_of_sq_lt
    simp only [SQRT_2PI]
    norm_num at h1 ⊢
    linarith
  have hhi : Real.sqrt (2 * Real.pi) < (SQRT_2PI : ℝ) + 1e-20 := by
    rw [Real.sqrt_lt' (by simp only [SQRT_2PI]; norm_num)]
    simp only [SQRT_2PI]
    norm_num at h2 ⊢
    linarith
  rw [abs_lt]
  constructor <;> linarith

/-- The code density is within `1e-20` of `exp(-x^2/2)/√(2π)` everywhere. -/
theorem normal_pdf_close (x : ℝ) :
    |normal_pdf Real.exp x - Real.exp (-x ^ 2 / 2) / Real.sqrt (2 * Real.pi)| ≤ 1e-20 := by
  have hc := SQRT_2PI_close
  have hL : (2 : ℝ) < SQRT_2PI := by
    simp only [SQRT_2PI]
    norm_num
  have hs : (2 : ℝ) < Real.sqrt (2 * Real.pi) := by
    obtain ⟨_, hc2⟩ := abs_lt.mp hc
    have h3 : (2 : ℝ) + 1e-20 < SQRT_2PI := by
      simp only [SQRT_2PI]
      norm_num
    linarith
  have hE0 := Real.exp_pos (-x ^ 2 / 2)
  have hE1 : Real.exp (-x ^ 2 / 2) ≤ 1 :=
    Real.exp_le_one_iff.mpr (by have := sq_nonneg x; linarith)
  have harg : (-0.5 : ℝ) * x * x = -x ^ 2 / 2 := by ring
  simp only [normal_pdf, harg]
  generalize Real.sqrt (2 * Real.pi) = s at hc hs ⊢
  have hdiff : Real.exp (-x ^ 2 / 2) / SQRT_2PI - Real.exp (-x ^ 2 / 2) / s
      = Real.exp (-x ^ 2 / 2) * ((s - SQRT_2PI)
          / (SQRT_2PI * s)) := by
    field_simp
    ring
  rw [hdiff, abs_mul, abs_of_pos hE0, abs_div]
  have hden : (4 : ℝ) ≤ |(SQRT_2PI : ℝ) * s| := by
    rw [abs_of_pos (by positivity)]
    nlinarith
  have hnum : |s - (SQRT_2PI : ℝ)| < 1e-20 := by
    rw [abs_sub_comm]
    exact hc
  have hq : |s - (SQRT_2PI : ℝ)|
      / |(SQRT_2PI : ℝ) * s| ≤ 1e-20 := by
    rw [div_le_iff₀ (by linarith)]
    have : (0 : ℝ) ≤ 1e-20 := by norm_num
    nlinarith [abs_nonneg (s - (SQRT_2PI : ℝ))]
  calc Real.exp (-x ^ 2 / 2) * (|s - (SQRT_2PI : ℝ)|
        / |(SQRT_2PI : ℝ) * s|)
      ≤ 1 * 1e-20 := mul_le_mul hE1 hq (by positivity) (by norm_num)
    _ = 1e-20 := by norm_num

/-- The code `d1`, `d2` are the specification ones. -/
theorem code_d1_eq (log sqrt : ℝ → ℝ) (S0 K T r sigma : ℝ) :
    (log (S0 / K) + (r + 0.5 * sigma * sigma) * T) / (sigma * sqrt T)
      = spec_d1 log sqrt S0 K T r sigma := by
  simp only [spec_d1]
  congr 1
  ring

/-! ## Shared lemmas: the stratified sampler -/

/-- The uniform draws of the C generator are the generic draws of `uniform_random`. -/
theorem uniform_draws_eq_draw_list {α : Type} [LinearOrderedField α] (n : Nat) :
    ∀ g : RngState α, uniform_draws n g = draw_list uniform_random n g := by
  induction n with
  | zero => intro g; rfl
  | succ n ih =>
    intro g
    simp only [uniform_draws, draw_list, ih]

/-- Length of a list of draws. -/
theorem draw_list_length {α σ : Type} (step : σ → α × σ) (n : Nat) :
    ∀ g : σ, (draw_list step n g).1.length = n := by
  induction n with
  | zero => intro g; rfl
  | succ n ih =>
    intro g
    simp only [draw_list, List.length_cons, ih]

/-- Drawing `a + b` values is drawing `a` values and then `b` more. -/
theorem draw_list_add {α σ : Type} (step : σ → α × σ) (a b : Nat) :
    ∀ g : σ, draw_list step (a + b) g
      = ((draw_list step a g).1 ++ (draw_list step b (draw_list step a g).2).1,
          (draw_list step b (draw_list step a g).2).2) := by
  induction a with
  | zero =>
    intro g
    simp [draw_list]
  | succ a ih =>
    intro g
    have e : a + 1 + b = (a + b) + 1 := by omega
    rw [e]
    simp only [draw_list, ih, List.cons_append]

/-- The inner loop writes the prices of the next `k` uniforms at `idx, ..., idx + k - 1`. -/
theorem stratified_inner_spec {α σ : Type} [LinearOrderedField α] (exp sqrt : α → α)
    (uniform : σ → α × σ) (quantile : α → Dbl α) (S0 T mu sigma : α)
    (n_sims n_strata s k : Nat) :
    ∀ (idx : Nat) (prices : List (Dbl α)) (g : σ), idx + k ≤ n_sims →
      n_sims ≤ prices.length →
      (stratified_inner exp sqrt uniform quantile S0 T mu sigma n_sims n_strata s k idx prices
          g).1 = idx + k ∧
      (stratified_inner exp sqrt uniform quantile S0 T mu sigma n_sims n_strata s k idx prices
          g).2.2 = (draw_list uniform k g).2 ∧
      (stratified_inner exp sqrt uniform quantile S0 T mu sigma n_sims n_strata s k idx prices
          g).2.1.length = prices.length ∧
      (∀ j, j < k →
        (stratified_inner exp sqrt uniform quantile S0 T mu sigma n_sims n_strata s k idx prices
            g).2.1[idx + j]?
          = some (gbm_price_of_quantile exp sqrt S0 T mu sigma
              (quantile (stratum_u s n_strata ((draw_list uniform k g).1.getD j 0))))) ∧
      (∀ t, (t < idx ∨ idx + k ≤ t) →
        (stratified_inner exp sqrt uniform quantile S0 T mu sigma n_sims n_strata s k idx prices
            g).2.1[t]? = prices[t]?) := by
  induction k with
  | zero =>
    intro idx prices g _ _
    simp [stratified_inner, draw_list]
  | succ k ih =>
    intro idx prices g h1 h2
    have hlt : idx < n_sims := by omega
    obtain ⟨a1, a2, a3, a4, a5⟩ := ih (idx + 1)
      (prices.set idx (gbm_price_of_quantile exp sqrt S0 T mu sigma
        (quantile (stratum_u s n_strata (uniform g).1)))) (uniform g).2 (by omega)
      (by simp only [List.length_set]; exact h2)
    simp only [List.length_set] at a3
    simp only [stratified_inner, hlt, if_true, draw_list]
    refine ⟨by rw [a1]; omega, a2, a3, ?_, ?_⟩
    · intro j hj
      cases j with
      | zero =>
        have h := a5 idx (Or.inl (by omega))
        rw [List.getElem?_set_self (by omega)] at h
        simpa using h
      | succ j =>
        have := a4 j (by omega)
        have e : idx + (j + 1) = idx + 1 + j := by omega
        rw [e]
        simpa using this
    · intro t ht
      rw [a5 t (by omega), List.getElem?_set_ne (by omega)]

/-- The outer loop fills stratum after stratum: entry `s * per + j` receives the price of
the `j`-th uniform, mapped into stratum `s + j / per`. -/
theorem stratified_outer_spec {α σ : Type} [LinearOrderedField α] (exp sqrt : α → α)
    (uniform : σ → α × σ) (quantile : α → Dbl α) (S0 T mu sigma : α)
    (n_sims n_strata per m : Nat) :
    ∀ (s : Nat) (prices : List (Dbl α)) (g : σ), (s + m) * per ≤ n_sims →
      n_sims ≤ prices.length →
      (stratified_outer exp sqrt uniform quantile S0 T mu sigma n_sims n_strata per m s
          (s * per) prices g).2 = (draw_list uniform (m * per) g).2 ∧
      (stratified_outer exp sqrt uniform quantile S0 T mu sigma n_sims n_strata per m s
          (s * per) prices g).1.length = prices.length ∧
      (∀ j, j < m * per →
        (stratified_outer exp sqrt uniform quantile S0 T mu sigma n_sims n_strata per m s
            (s * per) prices g).1[s * per + j]?
          = some (gbm_price_of_quantile exp sqrt S0 T mu sigma
              (quantile (stratum_u (s + j / per) n_strata
                ((draw_list uniform (m * per) g).1.getD j 0))))) ∧
      (∀ t, (t < s * per ∨ (s + m) * per ≤ t) →
        (stratified_outer exp sqrt uniform quantile S0 T mu sigma n_sims n_strata per m s
            (s * per) prices g).1[t]? = prices[t]?) := by
  induction m with
  | zero =>
    intro s prices g _ _
    simp [stratified_outer, draw_list]
  | succ m ih =>
    intro s prices g h1 h2
    have hb : s * per + per ≤ n_sims := by
      have : (s + (m + 1)) * per = s * per + per + m * per := by ring
      omega
    obtain ⟨b1, b2, b3, b4, b5⟩ := stratified_inner_spec exp sqrt uniform quantile S0 T mu sigma
      n_sims n_strata s per (s * per) prices g hb h2
    have hidx : s * per + per = (s + 1) * per := by ring
    rw [hidx] at b1
    have hm : (s + 1 + m) * per ≤ n_sims := by
      have : s + 1 + m = s + (m + 1) := by omega
      rw [this]
      exact h1
    obtain ⟨c1, c2, c3, c4⟩ := ih (s + 1)
      (stratified_inner exp sqrt uniform quantile S0 T mu sigma n_sims n_strata s per (s * per)
        prices g).2.1
      (stratified_inner exp sqrt uniform quantile S0 T mu sigma n_sims n_strata s per (s * per)
        prices g).2.2 hm (by rw [b3]; exact h2)
    have hsplit : (m + 1) * per = per + m * per := by ring
    have hd := draw_list_add uniform per (m * per) g
    have hlen1 := draw_list_length uniform per g
    simp only [stratified_outer, b1, b2, hsplit, hd]
    rw [b2] at c1 c2 c3 c4
    refine ⟨c1, by rw [c2, b3], ?_, ?_⟩
    · intro j hj
      by_cases hjp : j < per
      · have hdiv : j / per = 0 := Nat.div_eq_of_lt hjp
        rw [c4 (s * per + j) (Or.inl (by rw [← hidx]; omega)), b4 j hjp, hdiv, Nat.add_zero]
        rw [List.getD_append _ _ _ _ (by rw [hlen1]; exact hjp)]
      · have hper : 0 < per := by
          rcases Nat.eq_zero_or_pos per with h0 | h0
          · rw [h0] at hj
            simp at hj
          · exact h0
        have hj' : j - per < m * per := by omega
        have hdiv : j / per = 1 + (j - per) / per := by
          have : j = per + (j - per) := by omega
          conv_lhs => rw [this]
          rw [Nat.add_div_left _ hper]
          omega
        have hpos : s * per + j = (s + 1) * per + (j - per) := by rw [← hidx]; omega
        rw [hpos, c3 (j - per) hj', hdiv]
        have hidx2 : s + 1 + (j - per) / per = s + (1 + (j - per) / per) := by omega
        rw [hidx2, List.getD_append_right _ _ _ _ (by rw [hlen1]; omega), hlen1]
    · intro t ht
      have hsm : (s + 1 + m) * per = (s + (m + 1)) * per := by
        have : s + 1 + m = s + (m + 1) := by omega
        rw [this]
      have hexp : (s + (m + 1)) * per = s * per + per + m * per := by ring
      rw [c4 t (by rw [hsm, ← hidx]; omega), b5 t (by rw [hexp] at ht; omega)]

/-- With no sample per stratum the C outer loop leaves the buffer and the generator alone. -/
theorem stratified_outer_per_zero {α σ : Type} [LinearOrderedField α] (exp sqrt : α → α)
    (uniform : σ → α × σ) (quantile : α → Dbl α) (S0 T mu sigma : α)
    (n_sims n_strata m : Nat) :
    ∀ (s idx : Nat) (prices : List (Dbl α)) (g : σ),
      stratified_outer exp sqrt uniform quantile S0 T mu sigma n_sims n_strata 0 m s idx prices g
        = (prices, g) := by
  induction m with
  | zero => intro s idx prices g; rfl
  | succ m ih =>
    intro s idx prices g
    simp only [stratified_outer, stratified_inner, ih]

/-- The extra test `idx < n_sims` of the C++ outer loop changes nothing. -/
theorem cpp_stratified_outer_eq {α σ : Type} [LinearOrderedField α] (exp sqrt : α → α)
    (uniform : σ → α × σ) (quantile : α → Dbl α) (S0 T mu sigma : α)
    (n_sims n_strata per m : Nat) :
    ∀ (s : Nat) (prices : List (Dbl α)) (g : σ), (s + m) * per ≤ n_sims →
      n_sims ≤ prices.length →
      MonteCarloEngine.stratified_outer exp sqrt uniform quantile S0 T mu sigma n_sims n_strata
          per m s (s * per) prices g
        = stratified_outer exp sqrt uniform quantile S0 T mu sigma n_sims n_strata per m s
          (s * per) prices g := by
  induction m with
  | zero => intro s prices g _ _; rfl
  | succ m ih =>
    intro s prices g h1 h2
    have hexp : (s + (m + 1)) * per = s * per + per + m * per := by ring
    by_cases hlt : s * per < n_sims
    · obtain ⟨b1, _, b3, _, _⟩ := stratified_inner_spec exp sqrt uniform quantile S0 T mu sigma
        n_sims n_strata s per (s * per) prices g (by omega) h2
      have hidx : s * per + per = (s + 1) * per := by ring
      rw [hidx] at b1
      have hm : (s + 1 + m) * per ≤ n_sims := by
        have : s + 1 + m = s + (m + 1) := by omega
        rw [this]
        exact h1
      simp only [MonteCarloEngine.stratified_outer, stratified_outer, hlt, if_true, b1]
      exact ih (s + 1) _ _ hm (by rw [b3]; exact h2)
    · have hper : per = 0 := by omega
      subst hper
      simp only [MonteCarloEngine.stratified_outer, hlt, if_false, stratified_outer_per_zero]

/-- What `monte_carlo_stratified` does: it consumes `n_strata * (n / n_strata)` uniforms,
writes the price of the `j`-th one at index `j` (in stratum `j / (n / n_strata)`), and leaves
the entries from `n_strata * (n / n_strata)` on alone. -/
theorem monte_carlo_stratified_spec {α : Type} [LinearOrderedField α] (exp log sqrt : α → α)
    (S0 T mu sigma : α) (n n_strata : Nat) (prices : List (Dbl α)) (hlen : prices.length = n)
    (g : RngState α) :
    (monte_carlo_stratified exp log sqrt S0 T mu sigma n n_strata prices g).2
      = (uniform_draws (n_strata * (n / n_strata)) g).2 ∧
    (monte_carlo_stratified exp log sqrt S0 T mu sigma n n_strata prices g).1.length = n ∧
    (∀ j, j < n_strata * (n / n_strata) →
      (monte_carlo_stratified exp log sqrt S0 T mu sigma n n_strata prices g).1[j]?
        = some (gbm_price_of_quantile exp sqrt S0 T mu sigma
            (normal_quantile log sqrt (stratum_u (j / (n / n_strata)) n_strata
              ((uniform_draws (n_strata * (n / n_strata)) g).1.getD j 0))))) ∧
    (∀ j, n_strata * (n / n_strata) ≤ j →
      (monte_carlo_stratified exp log sqrt S0 T mu sigma n n_strata prices g).1[j]?
        = prices[j]?) := by
  have hM : (0 + n_strata) * (n / n_strata) ≤ n := by
    rw [Nat.zero_add, Nat.mul_comm]
    exact Nat.div_mul_le_self n n_strata
  obtain ⟨a1, a2, a3, a4⟩ := stratified_outer_spec exp sqrt uniform_random
    (normal_quantile log sqrt) S0 T mu sigma n n_strata (n / n_strata) n_strata 0 prices g hM
    (by rw [hlen])
  simp only [Nat.zero_mul, Nat.zero_add] at a1 a2 a3 a4
  simp only [monte_carlo_stratified, uniform_draws_eq_draw_list]
  exact ⟨a1, by rw [a2, hlen], a3, fun j hj => a4 j (Or.inr hj)⟩

/-- What the C++ `simulate_stratified` does: the vector has length `n`, the first
`n_strata * (n / n_strata)` entries are filled and the rest keep the initial `0.0`. -/
theorem simulate_stratified_spec {α σ : Type} [LinearOrderedField α] (exp log sqrt : α → α)
    (uniform : σ → α × σ) (mu sigma S0 T : α) (n n_strata : Nat) (g : σ) :
    (MonteCarloEngine.simulate_stratified exp log sqrt uniform mu sigma S0 T n n_strata
        g).1.length = n ∧
    (∀ j, j < n_strata * (n / n_strata) →
      (MonteCarloEngine.simulate_stratified exp log sqrt uniform mu sigma S0 T n n_strata
          g).1[j]?
        = some (gbm_price_of_quantile exp sqrt S0 T mu sigma
            (NormalDistribution.quantile log sqrt (stratum_u (j / (n / n_strata)) n_strata
              ((draw_list uniform (n_strata * (n / n_strata)) g).1.getD j 0))))) ∧
    (∀ j, n_strata * (n / n_strata) ≤ j → j < n →
      (MonteCarloEngine.simulate_stratified exp log sqrt uniform mu sigma S0 T n n_strata
          g).1[j]? = some (Dbl.fin 0)) := by
  have hM : (0 + n_strata) * (n / n_strata) ≤ n := by
    rw [Nat.zero_add, Nat.mul_comm]
    exact Nat.div_mul_le_self n n_strata
  have hl : n ≤ (List.replicate n (Dbl.fin (0 : α))).length := by simp
  have heq := cpp_stratified_outer_eq exp sqrt uniform (NormalDistribution.quantile log sqrt)
    S0 T mu sigma n n_strata (n / n_strata) n_strata 0 (List.replicate n (Dbl.fin 0)) g hM hl
  obtain ⟨_, a2, a3, a4⟩ := stratified_outer_spec exp sqrt uniform
    (NormalDistribution.quantile log sqrt) S0 T mu sigma n n_strata (n / n_strata) n_strata 0
    (List.replicate n (Dbl.fin 0)) g hM hl
  simp only [Nat.zero_mul, Nat.zero_add] at heq a2 a3 a4
  simp only [MonteCarloEngine.simulate_stratified, heq]
  refine ⟨by rw [a2]; simp, a3, ?_⟩
  intro j hj hjn
  rw [a4 j (Or.inr hj), List.getElem?_replicate_of_lt hjn]

/-! ## Shared lemmas: normal draws and the antithetic loop -/

/-- The normal draws of the C generator are the generic draws of `normal_random`. -/
theorem normal_draws_eq_opt_draws {α : Type} [LinearOrderedField α] (log sqrt : α → α)
    (fuel n : Nat) :
    ∀ g : RngState α, normal_draws log sqrt fuel n g
      = opt_draws (normal_random log sqrt fuel) n g := by
  induction n with
  | zero => intro g; rfl
  | succ n ih =>
    intro g
    simp only [normal_draws, opt_draws]
    cases normal_random log sqrt fuel g with
    | none => rfl
    | some r =>
      simp only [ih]
      cases opt_draws (normal_random log sqrt fuel) n r.2 <;> rfl

/-- A generator that always returns produces all its draws. -/
theorem opt_draws_total {α σ : Type} (normal : σ → α × σ) (n : Nat) :
    ∀ g : σ, opt_draws (fun st => some (normal st)) n g = some (draw_list normal n g) := by
  induction n with
  | zero => intro g; rfl
  | succ n ih =>
    intro g
    simp only [opt_draws, draw_list, ih]

/-- The antithetic loop writes the pair of prices of the `j`-th draw at `i + j` and
`half + i + j` and leaves every other entry alone. -/
theorem antithetic_loop_spec {α σ : Type} [LinearOrderedField α] (exp sqrt : α → α)
    (normal : σ → Option (α × σ)) (S0 T mu sigma : α) (half k : Nat) :
    ∀ (i : Nat) (prices : List α) (g : σ) (zs : List α) (g' : σ),
      opt_draws normal k g = some (zs, g') → i + k ≤ half →
      half + i + k ≤ prices.length →
      ∃ out, antithetic_loop exp sqrt normal S0 T mu sigma half k i prices g = some (out, g') ∧
        out.length = prices.length ∧ zs.length = k ∧
        (∀ j, j < k →
          out[i + j]? = some (gbm_terminal_price exp sqrt S0 T mu sigma (zs.getD j 0)) ∧
          out[half + i + j]?
            = some (gbm_terminal_price exp sqrt S0 T mu sigma (-(zs.getD j 0)))) ∧
        (∀ t, (t < i ∨ (i + k ≤ t ∧ t < half + i) ∨ half + i + k ≤ t) →
          out[t]? = prices[t]?) := by
  induction k with
  | zero =>
    intro i prices g zs g' hz _ _
    simp only [opt_draws, Option.some.injEq, Prod.mk.injEq] at hz
    obtain ⟨hz1, hz2⟩ := hz
    subst hz1 hz2
    exact ⟨prices, rfl, rfl, rfl, fun j hj => absurd hj (Nat.not_lt_zero j), fun _ _ => rfl⟩
  | succ k ih =>
    intro i prices g zs g' hz hik hlen
    simp only [opt_draws] at hz
    cases hr : normal g with
    | none => simp [hr] at hz
    | some r =>
      simp only [hr] at hz
      cases hrest : opt_draws normal k r.2 with
      | none => simp [hrest] at hz
      | some rest =>
        simp only [hrest, Option.some.injEq, Prod.mk.injEq] at hz
        obtain ⟨hz1, hz2⟩ := hz
        subst hz1 hz2
        obtain ⟨out, ho, hl, hzl, hv, hf⟩ := ih (i + 1)
          ((prices.set i (gbm_terminal_price exp sqrt S0 T mu sigma r.1)).set (half + i)
            (gbm_terminal_price exp sqrt S0 T mu sigma (-r.1))) r.2 rest.1 rest.2
          (by rw [hrest]) (by omega) (by simp only [List.length_set]; omega)
        simp only [List.length_set] at hl
        refine ⟨out, ?_, hl, by simp [hzl], ?_, ?_⟩
        · simp only [antithetic_loop, hr, ho]
        · intro j hj
          cases j with
          | zero =>
            simp only [Nat.add_zero, List.getD_cons_zero]
            constructor
            · rw [hf i (Or.inl (by omega)), List.getElem?_set_ne (by omega),
                List.getElem?_set_self (by omega)]
            · rw [hf (half + i) (Or.inr (Or.inl ⟨by omega, by omega⟩)),
                List.getElem?_set_self (by simp only [List.length_set]; omega)]
          | succ j =>
            have := hv j (by omega)
            simp only [List.getD_cons_succ]
            have e1 : i + (j + 1) = i + 1 + j := by omega
            have e2 : half + i + (j + 1) = half + (i + 1) + j := by omega
            rw [e1, e2]
            exact this
        · intro t ht
          rw [hf t (by omega), List.getElem?_set_ne (by omega), List.getElem?_set_ne (by omega)]

/-- The two prices of an antithetic pair, in the form of the claim, and their product. -/
theorem antithetic_pair_values (S0 T mu sigma z : ℝ) (out : List ℝ) (i j : Nat)
    (h1 : out[i]? = some (gbm_terminal_price Real.exp Real.sqrt S0 T mu sigma z))
    (h2 : out[j]? = some (gbm_terminal_price Real.exp Real.sqrt S0 T mu sigma (-z))) :
    out[i]? = some (S0 * Real.exp ((mu - sigma ^ 2 / 2) * T + sigma * Real.sqrt T * z)) ∧
    out[j]? = some (S0 * Real.exp ((mu - sigma ^ 2 / 2) * T - sigma * Real.sqrt T * z)) ∧
    out.getD i 0 * out.getD j 0 = S0 ^ 2 * Real.exp (2 * (mu - sigma ^ 2 / 2) * T) := by
  have e1 : gbm_terminal_price Real.exp Real.sqrt S0 T mu sigma z
      = S0 * Real.exp ((mu - sigma ^ 2 / 2) * T + sigma * Real.sqrt T * z) := by
    simp only [gbm_terminal_price]
    congr 2
    ring
  have e2 : gbm_terminal_price Real.exp Real.sqrt S0 T mu sigma (-z)
      = S0 * Real.exp ((mu - sigma ^ 2 / 2) * T - sigma * Real.sqrt T * z) := by
    simp only [gbm_terminal_price]
    congr 2
    ring
  rw [e1] at h1
  rw [e2] at h2
  refine ⟨h1, h2, ?_⟩
  rw [List.getD_eq_getElem?_getD, List.getD_eq_getElem?_getD, h1, h2]
  simp only [Option.getD_some]
  have : S0 * Real.exp ((mu - sigma ^ 2 / 2) * T + sigma * Real.sqrt T * z)
      * (S0 * Real.exp ((mu - sigma ^ 2 / 2) * T - sigma * Real.sqrt T * z))
      = S0 ^ 2 * (Real.exp ((mu - sigma ^ 2 / 2) * T + sigma * Real.sqrt T * z)
        * Real.exp ((mu - sigma ^ 2 / 2) * T - sigma * Real.sqrt T * z)) := by
    ring
  rw [this, ← Real.exp_add]
  congr 2
  ring

/-- With a total normal generator the antithetic loop returns, and keeps the length. -/
theorem antithetic_loop_length {α σ : Type} [LinearOrderedField α] (exp sqrt : α → α)
    (normal : σ → α × σ) (S0 T mu sigma : α) (half k : Nat) :
    ∀ (i : Nat) (prices : List α) (g : σ),
      ∃ out g', antithetic_loop exp sqrt (fun st => some (normal st)) S0 T mu sigma half k i
          prices g = some (out, g') ∧ out.length = prices.length := by
  induction k with
  | zero => intro i prices g; exact ⟨prices, g, rfl, rfl⟩
  | succ k ih =>
    intro i prices g
    obtain ⟨out, g', h1, h2⟩ := ih (i + 1)
      ((prices.set i (gbm_terminal_price exp sqrt S0 T mu sigma (normal g).1)).set (half + i)
        (gbm_terminal_price exp sqrt S0 T mu sigma (-(normal g).1))) (normal g).2
    refine ⟨out, g', ?_, ?_⟩
    · simp only [antithetic_loop, h1]
    · rw [h2]
      simp only [List.length_set]

/-- The C++ standard loop keeps the length of the vector. -/
theorem cpp_standard_loop_length {α σ : Type} [LinearOrderedField α] (exp sqrt : α → α)
    (normal : σ → α × σ) (mu sigma S0 T : α) (k : Nat) :
    ∀ (i : Nat) (prices : List α) (g : σ),
      (MonteCarloEngine.standard_loop exp sqrt normal mu sigma S0 T k i prices g).1.length
        = prices.length := by
  induction k with
  | zero => intro i prices g; rfl
  | succ k ih =>
    intro i prices g
    simp only [MonteCarloEngine.standard_loop, ih, List.length_set]

/-! ## C11: antithetic pairs -/

/-- C11: for even `n` and every `i < n/2`, `monte_carlo_antithetic` sets
`prices[i] = S0*exp((mu - sigma^2/2)*T + sigma*sqrt(T)*Z_i)` and
`prices[n/2 + i] = S0*exp((mu - sigma^2/2)*T - sigma*sqrt(T)*Z_i)` for the same normal draw
`Z_i`; it consumes exactly the `n/2` normal draws `zs` (it returns whenever they are
produced, and ends in the generator state they leave), and
`prices[i] * prices[n/2 + i] = S0^2 * exp(2*(mu - sigma^2/2)*T)`.  The C++
`simulate_antithetic` does the same with the draws of its own generator. -/
theorem antithetic_pairs (fuel : Nat) (S0 T mu sigma : ℝ) (n : Nat) (_heven : n % 2 = 0) :
    (∀ (prices : List ℝ) (g g' : RngState ℝ) (zs : List ℝ), prices.length = n →
      normal_draws Real.log Real.sqrt fuel (n / 2) g = some (zs, g') →
      ∃ out, monte_carlo_antithetic Real.exp Real.log Real.sqrt fuel S0 T mu sigma n prices g
          = some (out, g') ∧
        out.length = n ∧ zs.length = n / 2 ∧
        ∀ i, i < n / 2 →
          out[i]? = some (S0 * Real.exp ((mu - sigma ^ 2 / 2) * T
            + sigma * Real.sqrt T * zs.getD i 0)) ∧
          out[n / 2 + i]? = some (S0 * Real.exp ((mu - sigma ^ 2 / 2) * T
            - sigma * Real.sqrt T * zs.getD i 0)) ∧
          out.getD i 0 * out.getD (n / 2 + i) 0
            = S0 ^ 2 * Real.exp (2 * (mu - sigma ^ 2 / 2) * T)) ∧
    (∀ (σ : Type) (normal : σ → ℝ × σ) (g0 : σ),
      ∃ out, MonteCarloEngine.simulate_antithetic Real.exp Real.sqrt normal mu sigma S0 T n g0
          = some (out, (draw_list normal (n / 2) g0).2) ∧
        out.length = n ∧
        ∀ i, i < n / 2 →
          out[i]? = some (S0 * Real.exp ((mu - sigma ^ 2 / 2) * T
            + sigma * Real.sqrt T * (draw_list normal (n / 2) g0).1.getD i 0)) ∧
          out[n / 2 + i]? = some (S0 * Real.exp ((mu - sigma ^ 2 / 2) * T
            - sigma * Real.sqrt T * (draw_list normal (n / 2) g0).1.getD i 0)) ∧
          out.getD i 0 * out.getD (n / 2 + i) 0
            = S0 ^ 2 * Real.exp (2 * (mu - sigma ^ 2 / 2) * T)) := by
  constructor
  · intro prices g g' zs hlen hz
    rw [normal_draws_eq_opt_draws] at hz
    obtain ⟨out, ho, hl, hzl, hv, _⟩ := antithetic_loop_spec Real.exp Real.sqrt
      (normal_random Real.log Real.sqrt fuel) S0 T mu sigma (n / 2) (n / 2) 0 prices g zs g' hz
      (by omega) (by omega)
    refine ⟨out, ho, by rw [hl, hlen], hzl, ?_⟩
    intro i hi
    obtain ⟨h1, h2⟩ := hv i hi
    simp only [Nat.zero_add, Nat.add_zero] at h1 h2
    exact antithetic_pair_values S0 T mu sigma _ out _ _ h1 h2
  · intro σ normal g0
    have hz := opt_draws_total normal (n / 2) g0
    obtain ⟨out, ho, hl, _, hv, _⟩ := antithetic_loop_spec Real.exp Real.sqrt
      (fun st => some (normal st)) S0 T mu sigma (n / 2) (n / 2) 0 (List.replicate n 0) g0
      (draw_list normal (n / 2) g0).1 (draw_list normal (n / 2) g0).2 hz
      (by omega) (by simp only [List.length_replicate]; omega)
    refine ⟨out, ho, by rw [hl]; simp, ?_⟩
    intro i hi
    obtain ⟨h1, h2⟩ := hv i hi
    simp only [Nat.zero_add, Nat.add_zero] at h1 h2
    exact antithetic_pair_values S0 T mu sigma _ out _ _ h1 h2

/-- Witness for C11: `n = 4` after `seed_random(42)`; the two normal draws are produced and
the four prices form two antithetic pairs. -/
theorem antithetic_pairs_witness :
    ∃ (z1 z2 : ℝ) (out : List ℝ) (g' : RngState ℝ),
      monte_carlo_antithetic Real.exp Real.log Real.sqrt 1 100 0.01 0.05 0.2 4 [0, 0, 0, 0]
        (seed_random 42 RngState.initial) = some (out, g') ∧
      out.length = 4 ∧
      out.getD 0 0 * out.getD 2 0 = 100 ^ 2 * Real.exp (2 * (0.05 - 0.2 ^ 2 / 2) * 0.01) ∧
      out.getD 1 0 * out.getD 3 0 = 100 ^ 2 * Real.exp (2 * (0.05 - 0.2 ^ 2 / 2) * 0.01) ∧
      out[0]? = some (100 * Real.exp ((0.05 - 0.2 ^ 2 / 2) * 0.01
          + 0.2 * Real.sqrt 0.01 * z1)) ∧
      out[3]? = some (100 * Real.exp ((0.05 - 0.2 ^ 2 / 2) * 0.01
          - 0.2 * Real.sqrt 0.01 * z2)) := by
  obtain ⟨z1, z2, g2, hd⟩ := normal_draws_seed42 (RngState.initial : RngState ℝ) rfl
  obtain ⟨out, ho, hl, _, hv⟩ := (antithetic_pairs 1 100 0.01 0.05 0.2 4 rfl).1 [0, 0, 0, 0]
    (seed_random 42 RngState.initial) g2 [z1, z2] rfl hd
  exact ⟨z1, z2, out, g2, ho, hl, (hv 0 (by norm_num)).2.2, (hv 1 (by norm_num)).2.2,
    (hv 0 (by norm_num)).1, (hv 1 (by norm_num)).2.1⟩

/-! ## Shared lemmas: the rejection loop on integers -/

/-- The candidate pair of one iteration of the rejection loop, in terms of `polar_pair`. -/
theorem polar_pair_facts (g : RngState ℝ) :
    2 * (uniform_random g).1 - 1 = ((polar_pair g.lcg_state).1.1 : ℝ) / 2147483647 ∧
    2 * (uniform_random (uniform_random g).2).1 - 1
      = ((polar_pair g.lcg_state).1.2 : ℝ) / 2147483647 ∧
    (uniform_random (uniform_random g).2).2
      = { g with lcg_state := (polar_pair g.lcg_state).2 } := by
  have key : ∀ a : ℕ, 2 * ((a : ℝ) / ((2 ^ 31 - 1 : ℕ) : ℝ)) - 1
      = ((2 * ((a : ℕ) : ℤ) - (2 ^ 31 - 1) : ℤ) : ℝ) / 2147483647 := by
    intro a
    simp only [Int.cast_sub, Int.cast_mul, Int.cast_natCast, Int.cast_ofNat, Int.cast_pow,
      Int.cast_one]
    norm_num
    field_simp
  refine ⟨?_, ?_, ?_⟩
  · rw [uniform_random_low_bits g]
    exact key _
  · rw [uniform_random_low_bits (uniform_random g).2]
    exact key _
  · simp only [uniform_random, polar_pair]

/-- The quantity `s = u * u + v * v` of a candidate pair is `pair_norm / D^2`. -/
theorem pair_norm_cast (pq : ℤ × ℤ) :
    (pq.1 : ℝ) / 2147483647 * ((pq.1 : ℝ) / 2147483647)
        + (pq.2 : ℝ) / 2147483647 * ((pq.2 : ℝ) / 2147483647)
      = ((pair_norm pq : ℤ) : ℝ) / 2147483647 ^ 2 := by
  simp only [pair_norm]
  push_cast
  ring

/-- The acceptance test on the integers is the acceptance test of the code. -/
theorem pair_norm_test (pq : ℤ × ℤ) :
    (((pair_norm pq : ℤ) : ℝ) / 2147483647 ^ 2 ≥ 1 ∨ ((pair_norm pq : ℤ) : ℝ) / 2147483647 ^ 2 = 0)
      ↔ (pair_norm pq ≥ (2 ^ 31 - 1) ^ 2 ∨ pair_norm pq = 0) := by
  have hD : (0 : ℝ) < 2147483647 ^ 2 := by norm_num
  have e : (((2 ^ 31 - 1) ^ 2 : ℤ) : ℝ) = 2147483647 ^ 2 := by norm_num
  constructor
  · rintro (h | h)
    · left
      rw [ge_iff_le, le_div_iff₀ hD, one_mul, ← e] at h
      exact_mod_cast h
    · right
      rw [div_eq_zero_iff] at h
      rcases h with h | h
      · exact_mod_cast h
      · exact absurd h hD.ne'
  · rintro (h | h)
    · left
      rw [ge_iff_le, le_div_iff₀ hD, one_mul, ← e]
      exact_mod_cast h
    · right
      rw [h]
      simp

/-- The rejection loop returns what its integer version computes: the pair of numerators
`(p, q)` with `0 < p^2 + q^2 < D^2`, scaled by `D = 2^31 - 1` and by the Box-Muller factor. -/
theorem polar_loop_of_pair_loop (log sqrt : ℝ → ℝ) (fuel : Nat) :
    ∀ (g : RngState ℝ) (r : (Int × Int) × Nat), polar_pair_loop fuel g.lcg_state = some r →
      (0 < pair_norm r.1 ∧ pair_norm r.1 < (2 ^ 31 - 1) ^ 2) ∧
      polar_loop log sqrt fuel g
        = some ((r.1.1 : ℝ) / 2147483647
              * polar_factor log sqrt ((pair_norm r.1 : ℝ) / 2147483647 ^ 2),
            { lcg_state := r.2, has_spare := true,
              spare := (r.1.2 : ℝ) / 2147483647
                * polar_factor log sqrt ((pair_norm r.1 : ℝ) / 2147483647 ^ 2) }) := by
  induction fuel with
  | zero =>
    intro g r h
    simp [polar_pair_loop] at h
  | succ fuel ih =>
    intro g r h
    obtain ⟨hu, hv, hg⟩ := polar_pair_facts g
    have hs := pair_norm_cast (polar_pair g.lcg_state).1
    have htest := pair_norm_test (polar_pair g.lcg_state).1
    have hnn : 0 ≤ pair_norm (polar_pair g.lcg_state).1 :=
      add_nonneg (mul_self_nonneg _) (mul_self_nonneg _)
    simp only [polar_pair_loop] at h
    by_cases hrej : pair_norm (polar_pair g.lcg_state).1 ≥ (2 ^ 31 - 1) ^ 2 ∨
        pair_norm (polar_pair g.lcg_state).1 = 0
    · rw [if_pos hrej] at h
      have hc := htest.mpr hrej
      have hstep : polar_loop log sqrt (fuel + 1) g
          = polar_loop log sqrt fuel { g with lcg_state := (polar_pair g.lcg_state).2 } := by
        simp only [polar_loop, hu, hv, hs, hc, if_true, hg]
      rw [hstep]
      exact ih { g with lcg_state := (polar_pair g.lcg_state).2 } r h
    · rw [if_neg hrej] at h
      simp only [Option.some.injEq] at h
      have hc : ¬ (((pair_norm (polar_pair g.lcg_state).1 : ℤ) : ℝ) / 2147483647 ^ 2 ≥ 1 ∨
          ((pair_norm (polar_pair g.lcg_state).1 : ℤ) : ℝ) / 2147483647 ^ 2 = 0) :=
        fun hcon => hrej (htest.mp hcon)
      push_neg at hrej
      have hpos : 0 < pair_norm (polar_pair g.lcg_state).1 :=
        lt_of_le_of_ne hnn (Ne.symm hrej.2)
      subst h
      refine ⟨⟨hpos, hrej.1⟩, ?_⟩
      simp only [polar_loop, hu, hv, hs, hc, if_false, hg, polar_factor]

/-- The two squares of an accepted Box-Muller pair add up to `-2 log s`. -/
theorem box_muller_sq_sum (u v : ℝ) (hs0 : 0 < u * u + v * v) (hs1 : u * u + v * v < 1) :
    (u * polar_factor Real.log Real.sqrt (u * u + v * v)) ^ 2
      + (v * polar_factor Real.log Real.sqrt (u * u + v * v)) ^ 2
      = -2 * Real.log (u * u + v * v) := by
  have hlog : Real.log (u * u + v * v) < 0 := Real.log_neg hs0 hs1
  have hnn : 0 ≤ -2 * Real.log (u * u + v * v) / (u * u + v * v) :=
    div_nonneg (by linarith) hs0.le
  have hsq : polar_factor Real.log Real.sqrt (u * u + v * v) ^ 2
      = -2 * Real.log (u * u + v * v) / (u * u + v * v) := by
    simp only [polar_factor]
    exact Real.sq_sqrt hnn
  have e : (u * polar_factor Real.log Real.sqrt (u * u + v * v)) ^ 2
      + (v * polar_factor Real.log Real.sqrt (u * u + v * v)) ^ 2
      = (u * u + v * v) * polar_factor Real.log Real.sqrt (u * u + v * v) ^ 2 := by ring
  rw [e, hsq]
  field_simp
  ring

/-- Two successive calls of `normal_random` from a state without a cached spare, when the
integer rejection loop accepts the pair `r`: the two draws, the states, and the sum of the
squares of the draws. -/
theorem normal_random_pair (fuel : Nat) (g : RngState ℝ) (r : (Int × Int) × Nat)
    (hsp : g.has_spare = false) (hr : polar_pair_loop fuel g.lcg_state = some r) :
    (0 < pair_norm r.1 ∧ pair_norm r.1 < (2 ^ 31 - 1) ^ 2) ∧
    ∃ z1 z2 : ℝ,
      normal_random Real.log Real.sqrt fuel g
        = some (z1, { lcg_state := r.2, has_spare := true, spare := z2 }) ∧
      normal_random Real.log Real.sqrt fuel { lcg_state := r.2, has_spare := true, spare := z2 }
        = some (z2, { lcg_state := r.2, has_spare := false, spare := z2 }) ∧
      z1 ^ 2 + z2 ^ 2 = -2 * Real.log ((pair_norm r.1 : ℝ) / 2147483647 ^ 2) := by
  obtain ⟨hN, hloop⟩ := polar_loop_of_pair_loop Real.log Real.sqrt fuel g r hr
  refine ⟨hN, (r.1.1 : ℝ) / 2147483647
      * polar_factor Real.log Real.sqrt ((pair_norm r.1 : ℝ) / 2147483647 ^ 2),
    (r.1.2 : ℝ) / 2147483647
      * polar_factor Real.log Real.sqrt ((pair_norm r.1 : ℝ) / 2147483647 ^ 2), ?_, ?_, ?_⟩
  · simp only [normal_random, hsp, hloop]
    rfl
  · simp only [normal_random]
    rfl
  · have hN0 : (0 : ℝ) < ((pair_norm r.1 : ℤ) : ℝ) := by exact_mod_cast hN.1
    have hN1 : ((pair_norm r.1 : ℤ) : ℝ) < 2147483647 ^ 2 := by
      have : ((pair_norm r.1 : ℤ) : ℝ) < (((2 ^ 31 - 1) ^ 2 : ℤ) : ℝ) := by
        exact_mod_cast hN.2
      have e : (((2 ^ 31 - 1) ^ 2 : ℤ) : ℝ) = 2147483647 ^ 2 := by norm_num
      rw [e] at this
      exact this
    have hcast := pair_norm_cast r.1
    have hbm := box_muller_sq_sum ((r.1.1 : ℝ) / 2147483647) ((r.1.2 : ℝ) / 2147483647)
      (by rw [hcast]; exact div_pos hN0 (by norm_num))
      (by rw [hcast, div_lt_one (by norm_num)]; exact hN1)
    rw [hcast] at hbm
    exact hbm

/-- From a state without a cached spare, `2 k` calls of `normal_random` consume `k` accepted
pairs of the rejection loop; the squares of the draws add up to the sum of the `-2 log s`. -/
theorem normal_draws_of_pairs (fuel k : Nat) :
    ∀ (g : RngState ℝ) (prs : List (Int × Int)) (s1 : Nat), g.has_spare = false →
      opt_draws (polar_pair_loop fuel) k g.lcg_state = some (prs, s1) →
      ∃ zs g1, normal_draws Real.log Real.sqrt fuel (2 * k) g = some (zs, g1) ∧
        g1.lcg_state = s1 ∧ g1.has_spare = false ∧
        (zs.map (fun z => z ^ 2)).sum
          = (prs.map (fun pq => -2 * Real.log ((pair_norm pq : ℝ) / 2147483647 ^ 2))).sum ∧
        (∀ pq ∈ prs, 0 < pair_norm pq ∧ pair_norm pq < (2 ^ 31 - 1) ^ 2) := by
  induction k with
  | zero =>
    intro g prs s1 hsp h
    simp only [opt_draws, Option.some.injEq, Prod.mk.injEq] at h
    obtain ⟨h1, h2⟩ := h
    subst h1 h2
    exact ⟨[], g, rfl, rfl, hsp, rfl, fun pq hpq => absurd hpq (List.not_mem_nil pq)⟩
  | succ k ih =>
    intro g prs s1 hsp h
    simp only [opt_draws] at h
    cases hr : polar_pair_loop fuel g.lcg_state with
    | none => simp [hr] at h
    | some r =>
      simp only [hr] at h
      cases hrest : opt_draws (polar_pair_loop fuel) k r.2 with
      | none => simp [hrest] at h
      | some rest =>
        simp only [hrest, Option.some.injEq, Prod.mk.injEq] at h
        obtain ⟨h1, h2⟩ := h
        subst h1 h2
        obtain ⟨hN, z1, z2, hfirst, hsecond, hbm⟩ := normal_random_pair fuel g r hsp hr
        obtain ⟨zs, g1, hz, hl, hs, hsum, hall⟩ := ih
          ({ lcg_state := r.2, has_spare := false, spare := z2 } : RngState ℝ)
          rest.1 rest.2 rfl (by rw [hrest])
        have e2 : 2 * (k + 1) = (2 * k + 1) + 1 := by ring
        refine ⟨z1 :: z2 :: zs, g1, ?_, hl, hs, ?_, ?_⟩
        · rw [e2]
          simp only [normal_draws, hfirst, hsecond, hz]
        · simp only [List.map_cons, List.sum_cons, hsum]
          rw [← add_assoc, hbm]
        · intro pq hpq
          rcases List.mem_cons.mp hpq with h1 | h1
          · rw [h1]
            exact hN
          · exact hall pq h1

/-- The sum of the `-2 log s` over a list of accepted pairs is `-2 log` of the product of the
`s`. -/
theorem sum_log_norm (prs : List (Int × Int)) (h : ∀ pq ∈ prs, 0 < pair_norm pq) :
    (0 : ℝ) < (norm_prod prs : ℝ) ∧
    (prs.map (fun pq => -2 * Real.log ((pair_norm pq : ℝ) / 2147483647 ^ 2))).sum
      = -2 * Real.log ((norm_prod prs : ℝ) / 2147483647 ^ (2 * prs.length)) := by
  induction prs with
  | nil => simp [norm_prod]
  | cons pq l ih =>
    obtain ⟨ih1, ih2⟩ := ih (fun x hx => h x (List.mem_cons_of_mem _ hx))
    have hpq : (0 : ℝ) < ((pair_norm pq : ℤ) : ℝ) := by
      exact_mod_cast h pq (List.mem_cons_self _ _)
    have hprod : ((norm_prod (pq :: l) : ℤ) : ℝ)
        = ((pair_norm pq : ℤ) : ℝ) * ((norm_prod l : ℤ) : ℝ) := by
      simp only [norm_prod]
      push_cast
      rfl
    refine ⟨by rw [hprod]; exact mul_pos hpq ih1, ?_⟩
    simp only [List.map_cons, List.sum_cons, ih2, List.length_cons]
    have e : ((norm_prod (pq :: l) : ℤ) : ℝ) / 2147483647 ^ (2 * (l.length + 1))
        = (((pair_norm pq : ℤ) : ℝ) / 2147483647 ^ 2)
          * (((norm_prod l : ℤ) : ℝ) / 2147483647 ^ (2 * l.length)) := by
      rw [hprod]
      field_simp
      ring
    rw [e, Real.log_mul (div_pos hpq (by norm_num)).ne' (div_pos ih1 (by positivity)).ne']
    ring

/-! ## Shared lemmas: the two samples of `run_simulation` -/

/-- A list is determined by its length and its entries. -/
theorem list_eq_map_of_getD {α : Type} [LinearOrderedField α] (f : α → α) (out zs : List α)
    (hl : out.length = zs.length)
    (h : ∀ j, j < zs.length → out[j]? = some (f (zs.getD j 0))) : out = zs.map f := by
  apply List.ext_getElem?
  intro t
  by_cases ht : t < zs.length
  · rw [h t ht, List.getElem?_map, List.getElem?_eq_getElem ht, List.getD_eq_getElem _ _ ht]
    rfl
  · rw [List.getElem?_eq_none (by omega), List.getElem?_eq_none (by simp; omega)]

/-- A list made of two halves is determined by its length and its entries. -/
theorem list_eq_append_of_getD {α : Type} [LinearOrderedField α] (f1 f2 : α → α)
    (out zs : List α) (hl : out.length = 2 * zs.length)
    (h : ∀ j, j < zs.length → out[j]? = some (f1 (zs.getD j 0)) ∧
      out[zs.length + j]? = some (f2 (zs.getD j 0))) :
    out = zs.map f1 ++ zs.map f2 := by
  apply List.ext_getElem?
  intro t
  by_cases ht : t < zs.length
  · rw [(h t ht).1, List.getElem?_append_left (by simp; exact ht), List.getElem?_map,
      List.getElem?_eq_getElem ht, List.getD_eq_getElem _ _ ht]
    rfl
  · by_cases ht2 : t < 2 * zs.length
    · obtain ⟨j, rfl⟩ : ∃ j, t = zs.length + j := ⟨t - zs.length, by omega⟩
      have hj : j < zs.length := by omega
      rw [(h j hj).2, List.getElem?_append_right (by simp), List.getElem?_map]
      simp only [List.length_map, Nat.add_sub_cancel_left]
      rw [List.getElem?_eq_getElem hj, List.getD_eq_getElem _ _ hj]
      rfl
    · rw [List.getElem?_eq_none (by omega), List.getElem?_eq_none (by simp; omega)]

/-- The loop of `monte_carlo_standard` writes the price of the `j`-th draw at `i + j` and
leaves every other entry alone. -/
theorem standard_loop_spec {α : Type} [LinearOrderedField α] (exp log sqrt : α → α)
    (fuel : Nat) (S0 T mu sigma : α) (k : Nat) :
    ∀ (i : Nat) (prices : List α) (g : RngState α) (zs : List α) (g1 : RngState α),
      normal_draws log sqrt fuel k g = some (zs, g1) → i + k ≤ prices.length →
      ∃ out, standard_loop exp log sqrt fuel S0 T mu sigma k i prices g = some (out, g1) ∧
        out.length = prices.length ∧ zs.length = k ∧
        (∀ j, j < k →
          out[i + j]? = some (gbm_terminal_price exp sqrt S0 T mu sigma (zs.getD j 0))) ∧
        (∀ t, (t < i ∨ i + k ≤ t) → out[t]? = prices[t]?) := by
  induction k with
  | zero =>
    intro i prices g zs g1 hz _
    simp only [normal_draws, Option.some.injEq, Prod.mk.injEq] at hz
    obtain ⟨hz1, hz2⟩ := hz
    subst hz1 hz2
    exact ⟨prices, rfl, rfl, rfl, fun j hj => absurd hj (Nat.not_lt_zero j), fun _ _ => rfl⟩
  | succ k ih =>
    intro i prices g zs g1 hz hlen
    simp only [normal_draws] at hz
    cases hr : normal_random log sqrt fuel g with
    | none => simp [hr] at hz
    | some r =>
      simp only [hr] at hz
      cases hrest : normal_draws log sqrt fuel k r.2 with
      | none => simp [hrest] at hz
      | some rest =>
        simp only [hrest, Option.some.injEq, Prod.mk.injEq] at hz
        obtain ⟨hz1, hz2⟩ := hz
        subst hz1 hz2
        obtain ⟨out, ho, hl, hzl, hv, hf⟩ := ih (i + 1)
          (prices.set i (gbm_terminal_price exp sqrt S0 T mu sigma r.1)) r.2 rest.1 rest.2
          (by rw [hrest]) (by simp only [List.length_set]; omega)
        simp only [List.length_set] at hl
        refine ⟨out, ?_, hl, by simp [hzl], ?_, ?_⟩
        · simp only [standard_loop, simulate_gbm_terminal, hr, ho]
        · intro j hj
          cases j with
          | zero =>
            simp only [Nat.add_zero, List.getD_cons_zero]
            rw [hf i (Or.inl (by omega)), List.getElem?_set_self (by omega)]
          | succ j =>
            have := hv j (by omega)
            simp only [List.getD_cons_succ]
            have e1 : i + (j + 1) = i + 1 + j := by omega
            rw [e1]
            exact this
        · intro t ht
          rw [hf t (by omega), List.getElem?_set_ne (by omega)]

/-- The two samples of `run_simulation` in terms of the generator stream: when the first
`n = 2 h` calls of `normal_random` return `zs` and the next `h` calls return `ws`, the plain
sample is the list of the prices of `zs` and the antithetic sample the list of the prices of
`ws` followed by the prices of the negated `ws`. -/
theorem run_simulation_mc_spec (fuel h : Nat) (S0 T mu sigma : ℝ) (gbm0 av0 zs ws : List ℝ)
    (g g1 g2 : RngState ℝ) (hg : gbm0.length = 2 * h) (ha : av0.length = 2 * h)
    (hz : normal_draws Real.log Real.sqrt fuel (2 * h) g = some (zs, g1))
    (hw : normal_draws Real.log Real.sqrt fuel h g1 = some (ws, g2)) :
    zs.length = 2 * h ∧ ws.length = h ∧
    run_simulation_mc Real.exp Real.log Real.sqrt fuel S0 T mu sigma (2 * h) gbm0 av0 g
      = some (zs.map (gbm_terminal_price Real.exp Real.sqrt S0 T mu sigma),
          ws.map (gbm_terminal_price Real.exp Real.sqrt S0 T mu sigma)
            ++ ws.map (fun z => gbm_terminal_price Real.exp Real.sqrt S0 T mu sigma (-z)),
          g2) := by
  obtain ⟨out1, ho1, hl1, hzl, hv1, -⟩ := standard_loop_spec Real.exp Real.log Real.sqrt fuel
    S0 T mu sigma (2 * h) 0 gbm0 g zs g1 hz (by omega)
  have hw2 := hw
  rw [normal_draws_eq_opt_draws] at hw2
  obtain ⟨out2, ho2, hl2, hwl, hv2, -⟩ := antithetic_loop_spec Real.exp Real.sqrt
    (normal_random Real.log Real.sqrt fuel) S0 T mu sigma h h 0 av0 g1 ws g2 hw2 (by omega)
    (by omega)
  have e1 : out1 = zs.map (gbm_terminal_price Real.exp Real.sqrt S0 T mu sigma) := by
    apply list_eq_map_of_getD
    · rw [hl1, hg, hzl]
    · intro j hj
      have := hv1 j (by omega)
      simp only [Nat.zero_add] at this
      exact this
  have e2 : out2 = ws.map (gbm_terminal_price Real.exp Real.sqrt S0 T mu sigma)
      ++ ws.map (fun z => gbm_terminal_price Real.exp Real.sqrt S0 T mu sigma (-z)) := by
    apply list_eq_append_of_getD
    · rw [hl2, ha, hwl]
    · intro j hj
      have := hv2 j (by omega)
      simp only [Nat.add_zero, Nat.zero_add] at this
      rw [hwl]
      exact this
  have hhalf : 2 * h / 2 = h := by omega
  refine ⟨hzl, hwl, ?_⟩
  simp only [run_simulation_mc, monte_carlo_standard, monte_carlo_antithetic, ho1, hhalf, ho2,
    e1, e2]

/-- The ratio stored in `variance_reduction`, when the samples fill the arrays: the quotient
of the two sample variances with divisor `n - 1`. -/
theorem variance_reduction_eq (gbm av : List ℝ) (n : Nat) (hg : gbm.length = n)
    (ha : av.length = n) :
    variance_reduction gbm av n
      = ((gbm.map (fun x => (x - gbm.sum / (n : ℝ)) ^ 2)).sum / ((n : ℝ) - 1))
        / ((av.map (fun x => (x - av.sum / (n : ℝ)) ^ 2)).sum / ((n : ℝ) - 1)) := by
  subst hg
  simp only [variance_reduction, compute_variance]
  rw [compute_mean_eq gbm, sum_sq_loop_eq gbm]
  rw [← ha, compute_mean_eq av, sum_sq_loop_eq av]
  push_cast
  rfl

/-- The squared deviations from the mean add up to at most the squared deviations from any
other number. -/
theorem sum_sq_dev_le (l : List ℝ) (c : ℝ) (hl : l ≠ []) :
    (l.map (fun x => (x - l.sum / (l.length : ℝ)) ^ 2)).sum
      ≤ (l.map (fun x => (x - c) ^ 2)).sum := by
  have key : ∀ (l : List ℝ) (a : ℝ), (l.map (fun x => (x - a) ^ 2)).sum
      = (l.map (fun x => x ^ 2)).sum - 2 * a * l.sum + (l.length : ℝ) * a ^ 2 := by
    intro l a
    induction l with
    | nil => simp
    | cons x l ih =>
      simp only [List.map_cons, List.sum_cons, List.length_cons, ih]
      push_cast
      ring
  have hn : (0 : ℝ) < (l.length : ℝ) := by
    have : 0 < l.length := List.length_pos.mpr hl
    exact_mod_cast this
  rw [key l c, key l (l.sum / (l.length : ℝ))]
  have e : (l.map (fun x => x ^ 2)).sum - 2 * c * l.sum + (l.length : ℝ) * c ^ 2
      - ((l.map (fun x => x ^ 2)).sum - 2 * (l.sum / (l.length : ℝ)) * l.sum
        + (l.length : ℝ) * (l.sum / (l.length : ℝ)) ^ 2)
      = (l.length : ℝ) * (c - l.sum / (l.length : ℝ)) ^ 2 := by
    field_simp
    ring
  have : 0 ≤ (l.length : ℝ) * (c - l.sum / (l.length : ℝ)) ^ 2 :=
    mul_nonneg hn.le (sq_nonneg _)
  linarith

/-- The squared deviations of a sample made of pairs `(f w, g w)` from any number add up to at
least half the squared differences inside the pairs. -/
theorem sum_sq_pairs_ge (ws : List ℝ) (f1 f2 : ℝ → ℝ) (c : ℝ) :
    (ws.map (fun w => (f1 w - f2 w) ^ 2 / 2)).sum
      ≤ ((ws.map f1 ++ ws.map f2).map (fun x => (x - c) ^ 2)).sum := by
  have key : ((ws.map f1 ++ ws.map f2).map (fun x => (x - c) ^ 2)).sum
      = (ws.map (fun w => (f1 w - c) ^ 2 + (f2 w - c) ^ 2)).sum := by
    induction ws with
    | nil => simp
    | cons w l ih =>
      simp only [List.map_cons, List.map_append, List.sum_cons, List.sum_append,
        List.cons_append, List.map_map] at ih ⊢
      linarith
  rw [key]
  apply List.sum_le_sum
  intro w _
  nlinarith [sq_nonneg (f1 w + f2 w - 2 * c)]

/-- The bound `(exp t - 1)^2 ≤ (400 / 289) t^2` for `|t| ≤ 3/20`. -/
theorem exp_sub_one_sq_le (t : ℝ) (ht : t ^ 2 ≤ 9 / 400) :
    (Real.exp t - 1) ^ 2 ≤ 400 / 289 * t ^ 2 := by
  have hlo : -(3 / 20) ≤ t := by nlinarith
  have hhi : t ≤ 3 / 20 := by nlinarith
  have h1 : t + 1 ≤ Real.exp t := Real.add_one_le_exp t
  rcases le_or_lt 0 t with h0 | h0
  · have h2 : Real.exp t ≤ 1 / (1 - t) :=
      Real.exp_bound_div_one_sub_of_interval h0 (by linarith)
    have h3 : 1 / (1 - t) - 1 ≤ 20 / 17 * t := by
      rw [sub_le_iff_le_add, div_le_iff₀ (by linarith)]
      nlinarith
    have h4 : 0 ≤ Real.exp t - 1 := by linarith
    have h5 : Real.exp t - 1 ≤ 20 / 17 * t := by linarith
    have h6 : (Real.exp t - 1) ^ 2 ≤ (20 / 17 * t) ^ 2 := by
      exact pow_le_pow_left₀ h4 h5 2
    calc (Real.exp t - 1) ^ 2 ≤ (20 / 17 * t) ^ 2 := h6
      _ = 400 / 289 * t ^ 2 := by ring
  · have h4 : Real.exp t - 1 ≤ 0 := by
      have : Real.exp t < Real.exp 0 := Real.exp_lt_exp.mpr h0
      rw [Real.exp_zero] at this
      linarith
    have h5 : t ≤ Real.exp t - 1 := by linarith
    have h6 : (Real.exp t - 1) ^ 2 ≤ t ^ 2 := by nlinarith
    have h7 : t ^ 2 ≤ 400 / 289 * t ^ 2 := by nlinarith [sq_nonneg t]
    linarith

/-- The bound `(exp t - exp (-t))^2 ≥ 4 t^2`. -/
theorem exp_sub_exp_neg_sq_ge (t : ℝ) : 4 * t ^ 2 ≤ (Real.exp t - Real.exp (-t)) ^ 2 := by
  have key : ∀ s : ℝ, 0 ≤ s → 4 * s ^ 2 ≤ (Real.exp s - Real.exp (-s)) ^ 2 := by
    intro s hs
    have h1 : s ≤ Real.sinh s := Real.self_le_sinh_iff.mpr hs
    rw [Real.sinh_eq] at h1
    have h2 : 2 * s ≤ Real.exp s - Real.exp (-s) := by linarith
    have h3 : (2 * s) ^ 2 ≤ (Real.exp s - Real.exp (-s)) ^ 2 :=
      pow_le_pow_left₀ (by linarith) h2 2
    calc 4 * s ^ 2 = (2 * s) ^ 2 := by ring
      _ ≤ _ := h3
  rcases le_or_lt 0 t with h0 | h0
  · exact key t h0
  · have := key (-t) (by linarith)
    rw [neg_neg] at this
    calc 4 * t ^ 2 = 4 * (-t) ^ 2 := by ring
      _ ≤ (Real.exp (-t) - Real.exp t) ^ 2 := this
      _ = (Real.exp t - Real.exp (-t)) ^ 2 := by ring

/-- The closed-form terminal price as `C * exp(b Z)`. -/
theorem gbm_terminal_price_eq (S0 T mu sigma Z : ℝ) :
    gbm_terminal_price Real.exp Real.sqrt S0 T mu sigma Z
      = S0 * Real.exp ((mu - 0.5 * sigma * sigma) * T) * Real.exp (sigma * Real.sqrt T * Z) := by
  simp only [gbm_terminal_price]
  rw [Real.exp_add]
  ring

/-- Comparison of the two sample variances from the squares of the normal draws: when the
squares of the plain draws add up to at most `A`, those of the antithetic draws to at least
`B`, and `(sigma sqrt T)^2 A ≤ 9/400`, the sums of squared deviations of the two price samples
are separated by the factors `400 A / 289` and `2 B`. -/
theorem sample_variances_bound (S0 T mu sigma A B : ℝ) (zs ws : List ℝ) (hzs : zs ≠ [])
    (hA : (zs.map (fun z => z ^ 2)).sum ≤ A) (hB : B ≤ (ws.map (fun z => z ^ 2)).sum)
    (hb : (sigma * Real.sqrt T) ^ 2 * A ≤ 9 / 400) :
    (((zs.map (gbm_terminal_price Real.exp Real.sqrt S0 T mu sigma)).map
        (fun x => (x - (zs.map (gbm_terminal_price Real.exp Real.sqrt S0 T mu sigma)).sum
          / (zs.length : ℝ)) ^ 2)).sum
      ≤ (S0 * Real.exp ((mu - 0.5 * sigma * sigma) * T)) ^ 2 * (sigma * Real.sqrt T) ^ 2
          * (400 / 289 * A)) ∧
    ((S0 * Real.exp ((mu - 0.5 * sigma * sigma) * T)) ^ 2 * (sigma * Real.sqrt T) ^ 2 * (2 * B)
      ≤ ((ws.map (gbm_terminal_price Real.exp Real.sqrt S0 T mu sigma)
            ++ ws.map (fun z => gbm_terminal_price Real.exp Real.sqrt S0 T mu sigma (-z))).map
          (fun x => (x - (ws.map (gbm_terminal_price Real.exp Real.sqrt S0 T mu sigma)
            ++ ws.map (fun z => gbm_terminal_price Real.exp Real.sqrt S0 T mu sigma (-z))).sum
            / ((2 * ws.length : ℕ) : ℝ)) ^ 2)).sum) := by
  set C := S0 * Real.exp ((mu - 0.5 * sigma * sigma) * T) with hC
  set b := sigma * Real.sqrt T with hbdef
  have hprice : ∀ Z, gbm_terminal_price Real.exp Real.sqrt S0 T mu sigma Z
      = C * Real.exp (b * Z) := fun Z => gbm_terminal_price_eq S0 T mu sigma Z
  have hsq_nonneg : ∀ l : List ℝ, 0 ≤ (l.map (fun z => z ^ 2)).sum := by
    intro l
    apply List.sum_nonneg
    intro x hx
    obtain ⟨z, -, rfl⟩ := List.mem_map.mp hx
    exact sq_nonneg z
  constructor
  · -- the plain sample
    have hzsq : ∀ z ∈ zs, z ^ 2 ≤ A := by
      intro z hz
      have h1 : z ^ 2 ≤ (zs.map (fun z => z ^ 2)).sum :=
        List.single_le_sum (fun x hx => by
          obtain ⟨y, -, rfl⟩ := List.mem_map.mp hx
          exact sq_nonneg y) _ (List.mem_map.mpr ⟨z, hz, rfl⟩)
      linarith
    have hne : zs.map (gbm_terminal_price Real.exp Real.sqrt S0 T mu sigma) ≠ [] := by
      simpa using hzs
    have h1 := sum_sq_dev_le (zs.map (gbm_terminal_price Real.exp Real.sqrt S0 T mu sigma)) C hne
    rw [List.length_map] at h1
    refine le_trans h1 ?_
    rw [List.map_map]
    have h2 : ∀ z ∈ zs, ((fun x => (x - C) ^ 2) ∘
          gbm_terminal_price Real.exp Real.sqrt S0 T mu sigma) z
        ≤ C ^ 2 * b ^ 2 * (400 / 289) * z ^ 2 := by
      intro z hz
      simp only [Function.comp, hprice]
      have ht : (b * z) ^ 2 ≤ 9 / 400 := by
        have : b ^ 2 * z ^ 2 ≤ b ^ 2 * A := mul_le_mul_of_nonneg_left (hzsq z hz) (sq_nonneg b)
        calc (b * z) ^ 2 = b ^ 2 * z ^ 2 := by ring
          _ ≤ b ^ 2 * A := this
          _ ≤ 9 / 400 := hb
      have h3 := exp_sub_one_sq_le (b * z) ht
      calc (C * Real.exp (b * z) - C) ^ 2 = C ^ 2 * (Real.exp (b * z) - 1) ^ 2 := by ring
        _ ≤ C ^ 2 * (400 / 289 * (b * z) ^ 2) := mul_le_mul_of_nonneg_left h3 (sq_nonneg C)
        _ = C ^ 2 * b ^ 2 * (400 / 289) * z ^ 2 := by ring
    have h4 := List.sum_le_sum h2
    have h5 : (zs.map (fun z => C ^ 2 * b ^ 2 * (400 / 289) * z ^ 2)).sum
        = C ^ 2 * b ^ 2 * (400 / 289) * (zs.map (fun z => z ^ 2)).sum := by
      rw [← List.sum_map_mul_left]
    rw [h5] at h4
    refine le_trans h4 ?_
    have : C ^ 2 * b ^ 2 * (400 / 289) * (zs.map (fun z => z ^ 2)).sum
        ≤ C ^ 2 * b ^ 2 * (400 / 289) * A :=
      mul_le_mul_of_nonneg_left hA (by positivity)
    calc C ^ 2 * b ^ 2 * (400 / 289) * (zs.map (fun z => z ^ 2)).sum
        ≤ C ^ 2 * b ^ 2 * (400 / 289) * A := this
      _ = C ^ 2 * b ^ 2 * (400 / 289 * A) := by ring
  · -- the antithetic sample
    have h1 := sum_sq_pairs_ge ws (gbm_terminal_price Real.exp Real.sqrt S0 T mu sigma)
      (fun z => gbm_terminal_price Real.exp Real.sqrt S0 T mu sigma (-z))
      ((ws.map (gbm_terminal_price Real.exp Real.sqrt S0 T mu sigma)
            ++ ws.map (fun z => gbm_terminal_price Real.exp Real.sqrt S0 T mu sigma (-z))).sum
            / ((2 * ws.length : ℕ) : ℝ))
    refine le_trans ?_ h1
    have h2 : ∀ w ∈ ws, C ^ 2 * b ^ 2 * 2 * w ^ 2
        ≤ (gbm_terminal_price Real.exp Real.sqrt S0 T mu sigma w
            - gbm_terminal_price Real.exp Real.sqrt S0 T mu sigma (-w)) ^ 2 / 2 := by
      intro w _
      rw [hprice, hprice]
      have h3 := exp_sub_exp_neg_sq_ge (b * w)
      have e : b * -w = -(b * w) := by ring
      rw [e]
      have h4 : C ^ 2 * (4 * (b * w) ^ 2) ≤ C ^ 2 * (Real.exp (b * w) - Real.exp (-(b * w))) ^ 2 :=
        mul_le_mul_of_nonneg_left h3 (sq_nonneg C)
      have e2 : (C * Real.exp (b * w) - C * Real.exp (-(b * w))) ^ 2 / 2
          = C ^ 2 * (Real.exp (b * w) - Real.exp (-(b * w))) ^ 2 / 2 := by ring
      rw [e2]
      linarith
    have h4 := List.sum_le_sum h2
    have h5 : (ws.map (fun w => C ^ 2 * b ^ 2 * 2 * w ^ 2)).sum
        = C ^ 2 * b ^ 2 * 2 * (ws.map (fun z => z ^ 2)).sum := by
      rw [← List.sum_map_mul_left]
    rw [h5] at h4
    refine le_trans ?_ h4
    have : C ^ 2 * b ^ 2 * 2 * B ≤ C ^ 2 * b ^ 2 * 2 * (ws.map (fun z => z ^ 2)).sum :=
      mul_le_mul_of_nonneg_left hB (by positivity)
    calc C ^ 2 * b ^ 2 * (2 * B) = C ^ 2 * b ^ 2 * 2 * B := by ring
      _ ≤ _ := this

/-! ## Shared lemmas: a generator stream with a large antithetic variance -/

/-- A list of draws that is returned has the requested length. -/
theorem opt_draws_length {α σ : Type} (step : σ → Option (α × σ)) (k : Nat) :
    ∀ (g : σ) (l : List α) (g1 : σ), opt_draws step k g = some (l, g1) → l.length = k := by
  induction k with
  | zero =>
    intro g l g1 h
    simp only [opt_draws, Option.some.injEq, Prod.mk.injEq] at h
    rw [← h.1]
    rfl
  | succ k ih =>
    intro g l g1 h
    simp only [opt_draws] at h
    cases hr : step g with
    | none => simp [hr] at h
    | some r =>
      simp only [hr] at h
      cases hrest : opt_draws step k r.2 with
      | none => simp [hrest] at h
      | some rest =>
        simp only [hrest, Option.some.injEq, Prod.mk.injEq] at h
        rw [← h.1, List.length_cons, ih r.2 rest.1 rest.2 (by rw [hrest])]

/-- Meaning of `stream_check`: after `seed_random(seed)` the first `4 j` calls of
`normal_random` return draws whose squares add up to at most `2 L1`, and the next `2 j` calls
return draws whose squares add up to at least `2 L2`. -/
theorem stream_check_spec (fuel seed j L1 L2 : Nat) (g0 : RngState ℝ)
    (hsp : g0.has_spare = false) (hc : stream_check fuel seed j L1 L2 = true) :
    ∃ zs ws g1 g2,
      normal_draws Real.log Real.sqrt fuel (2 * (2 * j)) (seed_random seed g0) = some (zs, g1) ∧
      normal_draws Real.log Real.sqrt fuel (2 * j) g1 = some (ws, g2) ∧
      (zs.map (fun z => z ^ 2)).sum ≤ 2 * (L1 : ℝ) ∧
      2 * (L2 : ℝ) ≤ (ws.map (fun z => z ^ 2)).sum := by
  simp only [stream_check] at hc
  cases h1 : opt_draws (polar_pair_loop fuel) (2 * j) (seed % UINT_RANGE) with
  | none => simp [h1] at hc
  | some r1 =>
    simp only [h1] at hc
    cases h2 : opt_draws (polar_pair_loop fuel) j r1.2 with
    | none => simp [h2] at hc
    | some r2 =>
      simp only [h2, Bool.and_eq_true, decide_eq_true_eq] at hc
      obtain ⟨hc1, hc2⟩ := hc
      obtain ⟨zs, g1, hz, hl1, hs1, hsum1, hall1⟩ := normal_draws_of_pairs fuel (2 * j)
        (seed_random seed g0) r1.1 r1.2 hsp h1
      obtain ⟨ws, g2, hw, -, -, hsum2, hall2⟩ := normal_draws_of_pairs fuel j g1 r2.1 r2.2 hs1
        (by rw [hl1, h2])
      have hlen1 := opt_draws_length _ _ _ _ _ h1
      have hlen2 := opt_draws_length _ _ _ _ _ h2
      obtain ⟨hP1, hlog1⟩ := sum_log_norm r1.1 (fun pq hpq => (hall1 pq hpq).1)
      obtain ⟨hP2, hlog2⟩ := sum_log_norm r2.1 (fun pq hpq => (hall2 pq hpq).1)
      refine ⟨zs, ws, g1, g2, hz, hw, ?_, ?_⟩
      · rw [hsum1, hlog1, hlen1]
        have hc1R : ((((2 ^ 31 - 1) ^ (4 * j) * 10 ^ (10 * L1) : ℤ)) : ℝ)
            ≤ (((norm_prod r1.1 * 27182818283 ^ L1 : ℤ)) : ℝ) := by exact_mod_cast hc1
        push_cast at hc1R
        have hD : (0 : ℝ) < 2147483647 ^ (2 * (2 * j)) := by positivity
        have ha : (27182818283 : ℝ) / 10 ^ 10 ≤ Real.exp 1 := by
          have := Real.exp_one_gt_d9
          norm_num at this ⊢
          linarith
        have hpow : ((27182818283 : ℝ) / 10 ^ 10) ^ L1 ≤ Real.exp (L1 : ℝ) := by
          rw [← Real.exp_one_pow]
          exact pow_le_pow_left₀ (by norm_num) ha L1
        have hkey : Real.exp (-(L1 : ℝ))
            ≤ ((norm_prod r1.1 : ℤ) : ℝ) / 2147483647 ^ (2 * (2 * j)) := by
          rw [le_div_iff₀ hD, Real.exp_neg, inv_mul_le_iff₀ (Real.exp_pos _)]
          have e4 : 2 * (2 * j) = 4 * j := by omega
          have e10 : (27182818283 : ℝ) ^ L1
              = ((27182818283 : ℝ) / 10 ^ 10) ^ L1 * 10 ^ (10 * L1) := by
            rw [div_pow, ← pow_mul]
            field_simp
          rw [e10] at hc1R
          have h10 : (0 : ℝ) < 10 ^ (10 * L1) := by positivity
          have hle : (2147483647 : ℝ) ^ (4 * j)
              ≤ ((norm_prod r1.1 : ℤ) : ℝ) * ((27182818283 : ℝ) / 10 ^ 10) ^ L1 := by
            have : (2147483647 : ℝ) ^ (4 * j) * 10 ^ (10 * L1)
                ≤ (((norm_prod r1.1 : ℤ) : ℝ) * ((27182818283 : ℝ) / 10 ^ 10) ^ L1)
                  * 10 ^ (10 * L1) := by
              calc (2147483647 : ℝ) ^ (4 * j) * 10 ^ (10 * L1)
                  ≤ ((norm_prod r1.1 : ℤ) : ℝ)
                    * (((27182818283 : ℝ) / 10 ^ 10) ^ L1 * 10 ^ (10 * L1)) := hc1R
                _ = _ := by ring
            exact le_of_mul_le_mul_right this h10
          rw [e4]
          calc (2147483647 : ℝ) ^ (4 * j)
              ≤ ((norm_prod r1.1 : ℤ) : ℝ) * ((27182818283 : ℝ) / 10 ^ 10) ^ L1 := hle
            _ ≤ ((norm_prod r1.1 : ℤ) : ℝ) * Real.exp (L1 : ℝ) :=
                mul_le_mul_of_nonneg_left hpow hP1.le
            _ = Real.exp (L1 : ℝ) * ((norm_prod r1.1 : ℤ) : ℝ) := mul_comm _ _
        have hlogle := Real.log_le_log (Real.exp_pos _) hkey
        rw [Real.log_exp] at hlogle
        linarith
      · rw [hsum2, hlog2, hlen2]
        have hc2R : (((norm_prod r2.1 * 27182818286 ^ L2 : ℤ)) : ℝ)
            ≤ ((((2 ^ 31 - 1) ^ (2 * j) * 10 ^ (10 * L2) : ℤ)) : ℝ) := by exact_mod_cast hc2
        push_cast at hc2R
        have hD : (0 : ℝ) < 2147483647 ^ (2 * j) := by positivity
        have ha : Real.exp 1 ≤ (27182818286 : ℝ) / 10 ^ 10 := by
          have := Real.exp_one_lt_d9
          norm_num at this ⊢
          linarith
        have hpow : Real.exp (L2 : ℝ) ≤ ((27182818286 : ℝ) / 10 ^ 10) ^ L2 := by
          rw [← Real.exp_one_pow]
          exact pow_le_pow_left₀ (Real.exp_pos _).le ha L2
        have hkey : ((norm_prod r2.1 : ℤ) : ℝ) / 2147483647 ^ (2 * j)
            ≤ Real.exp (-(L2 : ℝ)) := by
          rw [div_le_iff₀ hD, Real.exp_neg, ← div_eq_inv_mul, le_div_iff₀ (Real.exp_pos _)]
          have e10 : (27182818286 : ℝ) ^ L2
              = ((27182818286 : ℝ) / 10 ^ 10) ^ L2 * 10 ^ (10 * L2) := by
            rw [div_pow, ← pow_mul]
            field_simp
          rw [e10] at hc2R
          have h10 : (0 : ℝ) < 10 ^ (10 * L2) := by positivity
          have hle : ((norm_prod r2.1 : ℤ) : ℝ) * ((27182818286 : ℝ) / 10 ^ 10) ^ L2
              ≤ (2147483647 : ℝ) ^ (2 * j) := by
            have : (((norm_prod r2.1 : ℤ) : ℝ) * ((27182818286 : ℝ) / 10 ^ 10) ^ L2)
                  * 10 ^ (10 * L2)
                ≤ (2147483647 : ℝ) ^ (2 * j) * 10 ^ (10 * L2) := by
              calc (((norm_prod r2.1 : ℤ) : ℝ) * ((27182818286 : ℝ) / 10 ^ 10) ^ L2)
                    * 10 ^ (10 * L2)
                  = ((norm_prod r2.1 : ℤ) : ℝ)
                    * (((27182818286 : ℝ) / 10 ^ 10) ^ L2 * 10 ^ (10 * L2)) := by ring
                _ ≤ _ := hc2R
            exact le_of_mul_le_mul_right this h10
          calc ((norm_prod r2.1 : ℤ) : ℝ) * Real.exp (L2 : ℝ)
              ≤ ((norm_prod r2.1 : ℤ) : ℝ) * ((27182818286 : ℝ) / 10 ^ 10) ^ L2 :=
                mul_le_mul_of_nonneg_left hpow hP2.le
            _ ≤ (2147483647 : ℝ) ^ (2 * j) := hle
        have hlogle := Real.log_le_log (div_pos hP2 hD) hkey
        rw [Real.log_exp] at hlogle
        linarith

set_option maxRecDepth 100000 in
/-- The integer test holds after `seed_random(54524)` for `n = 100` simulations, with at most
two rejections in a row: the 50 pairs behind the plain sample have `-log` of the product of
the `s` at most 26, the 25 pairs behind the antithetic sample at least 35. -/
theorem stream_check_seed54524 : stream_check 3 54524 25 26 35 = true := by
  decide

/-- When `stream_check fuel seed j 26 35` holds and `(sigma sqrt T)^2 ≤ 1/2500`, the run of
`run_simulation` with `n = 4 j` simulations after `seed_random(seed)` returns and reports a
variance ratio below `3/5`. -/
theorem variance_reduction_of_check (fuel seed j : Nat) (S0 T mu sigma : ℝ) (gbm0 av0 : List ℝ)
    (g0 : RngState ℝ) (hsp : g0.has_spare = false) (hj : 0 < j)
    (hc : stream_check fuel seed j 26 35 = true)
    (hg : gbm0.length = 2 * (2 * j)) (ha : av0.length = 2 * (2 * j))
    (hS : S0 ≠ 0) (hb0 : sigma * Real.sqrt T ≠ 0)
    (hb : (sigma * Real.sqrt T) ^ 2 ≤ 1 / 2500) :
    ∃ gbm av g2,
      run_simulation_mc Real.exp Real.log Real.sqrt fuel S0 T mu sigma (2 * (2 * j)) gbm0 av0
        (seed_random seed g0) = some (gbm, av, g2) ∧
      variance_reduction gbm av (2 * (2 * j)) < 3 / 5 := by
  obtain ⟨zs, ws, g1, g2, hz, hw, hA, hB⟩ := stream_check_spec fuel seed j 26 35 g0 hsp hc
  obtain ⟨hzl, hwl, hrun⟩ := run_simulation_mc_spec fuel (2 * j) S0 T mu sigma gbm0 av0 zs ws
    (seed_random seed g0) g1 g2 hg ha hz hw
  refine ⟨_, _, g2, hrun, ?_⟩
  have hzs : zs ≠ [] := by
    intro h0
    rw [h0] at hzl
    simp at hzl
    omega
  obtain ⟨h1, h2⟩ := sample_variances_bound S0 T mu sigma (2 * (26 : ℕ)) (2 * (35 : ℕ)) zs ws
    hzs hA hB (by
      push_cast
      nlinarith)
  rw [variance_reduction_eq _ _ (2 * (2 * j)) (by rw [List.length_map, hzl])
    (by rw [List.length_append, List.length_map, List.length_map, hwl]; ring)]
  rw [hzl] at h1
  rw [hwl] at h2
  set X := (S0 * Real.exp ((mu - 0.5 * sigma * sigma) * T)) ^ 2 * (sigma * Real.sqrt T) ^ 2
    with hX
  have hXpos : 0 < X := by
    apply mul_pos
    · exact lt_of_le_of_ne (sq_nonneg _)
        (Ne.symm (pow_ne_zero 2 (mul_ne_zero hS (Real.exp_pos _).ne')))
    · exact lt_of_le_of_ne (sq_nonneg _) (Ne.symm (pow_ne_zero 2 hb0))
  have hn : (0 : ℝ) < ((2 * (2 * j) : ℕ) : ℝ) - 1 := by
    have : (1 : ℝ) ≤ (j : ℝ) := by exact_mod_cast hj
    push_cast
    linarith
  push_cast at h1 h2 hn ⊢
  have hB0 : (0 : ℝ) < X * (2 * (2 * 35)) := by positivity
  rw [div_div_div_cancel_right₀ hn.ne', div_lt_iff₀ (lt_of_lt_of_le hB0 h2)]
  nlinarith

/-! ## C12: variance reduction -/

/-- C12 (as stated, refuted): with `SIMULATIONS=100` and `RANDOM_SEED=54524` (both inside the
ranges the loader accepts) and the default market parameters, `run_simulation` returns from its
two Monte Carlo calls, each call of `normal_random` needing at most three iterations of the
rejection loop, and the ratio it stores in `variance_reduction` is below `3/5`: the sample
variance of the antithetic prices is larger than the one of the plain prices.  The same holds
with the parameters of the specification (`S0 = 100`, `T = 0.01`, `mu = 0.05`,
`sigma = 0.2`). -/
theorem variance_reduction_below_one :
    (∃ gbm av g,
      run_simulation_mc Real.exp Real.log Real.sqrt 3
          (default_config : MarketConfig ℝ).current_price
          (compute_time_to_target (default_config : MarketConfig ℝ))
          (default_config : MarketConfig ℝ).drift (default_config : MarketConfig ℝ).volatility
          100 (List.replicate 100 0) (List.replicate 100 0)
          (seed_random 54524 RngState.initial) = some (gbm, av, g) ∧
        variance_reduction gbm av 100 < 3 / 5) ∧
    (∃ gbm av g,
      run_simulation_mc Real.exp Real.log Real.sqrt 3 100 0.01 0.05 0.2
          100 (List.replicate 100 0) (List.replicate 100 0)
          (seed_random 54524 RngState.initial) = some (gbm, av, g) ∧
        variance_reduction gbm av 100 < 3 / 5) := by
  constructor
  · have hT : compute_time_to_target (default_config : MarketConfig ℝ) = 207 / (252 * 390) := by
      simp only [compute_time_to_target, default_config]
      norm_num
    have hT0 : (0 : ℝ) < 207 / (252 * 390) := by norm_num
    have hsig : (default_config : MarketConfig ℝ).volatility = 0.15 := rfl
    rw [hT, hsig]
    exact variance_reduction_of_check 3 54524 25 _ _ _ _ _ _ RngState.initial rfl (by norm_num)
      stream_check_seed54524 (by simp) (by simp)
      (by simp only [default_config]; norm_num)
      (mul_ne_zero (by norm_num) (Real.sqrt_pos.mpr hT0).ne')
      (by
        rw [mul_pow, Real.sq_sqrt hT0.le]
        norm_num)
  · have hT0 : (0 : ℝ) < 0.01 := by norm_num
    exact variance_reduction_of_check 3 54524 25 _ _ _ _ _ _ RngState.initial rfl (by norm_num)
      stream_check_seed54524 (by simp) (by simp) (by norm_num)
      (mul_ne_zero (by norm_num) (Real.sqrt_pos.mpr hT0).ne')
      (by
        rw [mul_pow, Real.sq_sqrt hT0.le]
        norm_num)

/-- C12 (amended): for an even sample count `n = 2 h`, when the first `n` calls of
`normal_random` return the draws `zs` and the next `h` calls return the draws `ws`, the two
Monte Carlo calls of `run_simulation` return the plain sample (the prices of `zs`) and the
antithetic sample (the prices of `ws`, then the prices of the negated `ws`, drawn from the
continuation of the same generator stream); `variance_reduction` is the quotient of their
sample variances (mean `sum / n`, divisor `n - 1`), and when the antithetic sample variance is
positive it is `≥ 1` exactly when that variance is at most the plain one. -/
theorem variance_reduction_of_stream (fuel h : Nat) (S0 T mu sigma : ℝ)
    (gbm0 av0 zs ws : List ℝ) (g g1 g2 : RngState ℝ)
    (hg : gbm0.length = 2 * h) (ha : av0.length = 2 * h)
    (hz : normal_draws Real.log Real.sqrt fuel (2 * h) g = some (zs, g1))
    (hw : normal_draws Real.log Real.sqrt fuel h g1 = some (ws, g2)) :
    ∃ gbm av,
      run_simulation_mc Real.exp Real.log Real.sqrt fuel S0 T mu sigma (2 * h) gbm0 av0 g
        = some (gbm, av, g2) ∧
      gbm = zs.map (gbm_terminal_price Real.exp Real.sqrt S0 T mu sigma) ∧
      av = ws.map (gbm_terminal_price Real.exp Real.sqrt S0 T mu sigma)
        ++ ws.map (fun z => gbm_terminal_price Real.exp Real.sqrt S0 T mu sigma (-z)) ∧
      variance_reduction gbm av (2 * h)
        = ((gbm.map (fun x => (x - gbm.sum / ((2 * h : ℕ) : ℝ)) ^ 2)).sum
            / (((2 * h : ℕ) : ℝ) - 1))
          / ((av.map (fun x => (x - av.sum / ((2 * h : ℕ) : ℝ)) ^ 2)).sum
            / (((2 * h : ℕ) : ℝ) - 1)) ∧
      (0 < (av.map (fun x => (x - av.sum / ((2 * h : ℕ) : ℝ)) ^ 2)).sum
          / (((2 * h : ℕ) : ℝ) - 1) →
        (1 ≤ variance_reduction gbm av (2 * h) ↔
          (av.map (fun x => (x - av.sum / ((2 * h : ℕ) : ℝ)) ^ 2)).sum
              / (((2 * h : ℕ) : ℝ) - 1)
            ≤ (gbm.map (fun x => (x - gbm.sum / ((2 * h : ℕ) : ℝ)) ^ 2)).sum
              / (((2 * h : ℕ) : ℝ) - 1))) := by
  obtain ⟨hzl, hwl, hrun⟩ := run_simulation_mc_spec fuel h S0 T mu sigma gbm0 av0 zs ws g g1 g2
    hg ha hz hw
  have heq := variance_reduction_eq
    (zs.map (gbm_terminal_price Real.exp Real.sqrt S0 T mu sigma))
    (ws.map (gbm_terminal_price Real.exp Real.sqrt S0 T mu sigma)
      ++ ws.map (fun z => gbm_terminal_price Real.exp Real.sqrt S0 T mu sigma (-z))) (2 * h)
    (by rw [List.length_map, hzl])
    (by rw [List.length_append, List.length_map, List.length_map, hwl]; ring)
  refine ⟨_, _, hrun, rfl, rfl, heq, ?_⟩
  intro hpos
  rw [heq]
  exact one_le_div hpos

/-- Witness for C12 (amended): the run with `SIMULATIONS=100` and `RANDOM_SEED=54524` and the
default market parameters. -/
theorem variance_reduction_of_stream_witness :
    ∃ gbm av g2,
      run_simulation_mc Real.exp Real.log Real.sqrt 3
          (default_config : MarketConfig ℝ).current_price
          (compute_time_to_target (default_config : MarketConfig ℝ))
          (default_config : MarketConfig ℝ).drift (default_config : MarketConfig ℝ).volatility
          100 (List.replicate 100 0) (List.replicate 100 0)
          (seed_random 54524 RngState.initial) = some (gbm, av, g2) ∧
      variance_reduction gbm av 100
        = ((gbm.map (fun x => (x - gbm.sum / 100) ^ 2)).sum / (100 - 1))
          / ((av.map (fun x => (x - av.sum / 100) ^ 2)).sum / (100 - 1)) := by
  obtain ⟨zs, ws, g1, g2, hz, hw, -, -⟩ :=
    stream_check_spec 3 54524 25 26 35 RngState.initial rfl stream_check_seed54524
  obtain ⟨gbm, av, h1, -, -, h4, -⟩ := variance_reduction_of_stream 3 50
    (default_config : MarketConfig ℝ).current_price
    (compute_time_to_target (default_config : MarketConfig ℝ))
    (default_config : MarketConfig ℝ).drift (default_config : MarketConfig ℝ).volatility
    (List.replicate 100 0) (List.replicate 100 0) zs ws
    (seed_random 54524 RngState.initial) g1 g2 (by simp) (by simp) hz hw
  refine ⟨gbm, av, g2, h1, ?_⟩
  rw [show (100 : ℕ) = 2 * 50 from rfl, h4]
  norm_num

/-! ## C13: range of the stratified uniforms -/

/-- C13 (code defect): after `seed_random(230538014)` the first uniform of
`monte_carlo_stratified` (stratum 0 of 10) is `u = 1/10 = (s+1)/n_strata`, not below it,
because `uniform_random` returns exactly 1; this `u` is the one whose price is written to
`prices[0]`. -/
theorem stratified_u_reaches_upper_bound (S0 T mu sigma : ℝ) (g : RngState ℝ) :
    stratum_u 0 10 (uniform_random (seed_random 230538014 g)).1
      = ((0 + 1 : Nat) : ℝ) / ((10 : Nat) : ℝ) ∧
    ¬ (stratum_u 0 10 (uniform_random (seed_random 230538014 g)).1
      < ((0 + 1 : Nat) : ℝ) / ((10 : Nat) : ℝ)) ∧
    (monte_carlo_stratified Real.exp Real.log Real.sqrt S0 T mu sigma 10 10
        (List.replicate 10 (Dbl.fin 0)) (seed_random 230538014 g)).1[0]?
      = some (gbm_price_of_quantile Real.exp Real.sqrt S0 T mu sigma
          (normal_quantile Real.log Real.sqrt
            (stratum_u 0 10 (uniform_random (seed_random 230538014 g)).1))) := by
  have hU : (uniform_random (seed_random 230538014 g)).1 = 1 := by
    rw [uniform_random_low_bits]
    have h : lcg_step (seed_random 230538014 g).lcg_state % 2 ^ 31 = 2 ^ 31 - 1 := by
      simp only [seed_random, lcg_step, UINT_RANGE, ULONG_RANGE]
      norm_num
    rw [h]
    have hpos : ((2 ^ 31 - 1 : Nat) : ℝ) ≠ 0 := by norm_num
    exact div_self hpos
  have hu : stratum_u 0 10 (uniform_random (seed_random 230538014 g)).1
      = ((0 + 1 : Nat) : ℝ) / ((10 : Nat) : ℝ) := by
    rw [hU]
    simp only [stratum_u]
    norm_num
  refine ⟨hu, ?_, ?_⟩
  · rw [hu]
    exact lt_irrefl _
  · have h := (monte_carlo_stratified_spec Real.exp Real.log Real.sqrt S0 T mu sigma 10 10
      (List.replicate 10 (Dbl.fin 0)) (by simp) (seed_random 230538014 g)).2.2.1 0
      (by norm_num)
    rw [h]
    simp [uniform_draws]

/-! ## C14: entries written by the stratified sampler -/

/-- C14: for `n_strata ≥ 1`, `monte_carlo_stratified` consumes `n_strata * (n / n_strata)`
uniforms, stratum `s` fills the block of indices `s * (n / n_strata) + i` with
`i < n / n_strata`, and the `n mod n_strata` entries from `n_strata * (n / n_strata)` on
are never written; in the C++ `simulate_stratified` they keep the initial value `0.0`. -/
theorem stratified_fills_blocks (S0 T mu sigma : ℝ) (n n_strata : Nat) (_hs : 1 ≤ n_strata)
    (prices : List (Dbl ℝ)) (hlen : prices.length = n) (g : RngState ℝ) :
    (monte_carlo_stratified Real.exp Real.log Real.sqrt S0 T mu sigma n n_strata prices g).2
      = (uniform_draws (n_strata * (n / n_strata)) g).2 ∧
    (monte_carlo_stratified Real.exp Real.log Real.sqrt S0 T mu sigma n n_strata prices
      g).1.length = n ∧
    (∀ s i, s < n_strata → i < n / n_strata →
      (monte_carlo_stratified Real.exp Real.log Real.sqrt S0 T mu sigma n n_strata prices
          g).1[s * (n / n_strata) + i]?
        = some (gbm_price_of_quantile Real.exp Real.sqrt S0 T mu sigma
            (normal_quantile Real.log Real.sqrt (stratum_u s n_strata
              ((uniform_draws (n_strata * (n / n_strata)) g).1.getD
                (s * (n / n_strata) + i) 0))))) ∧
    (∀ j, n_strata * (n / n_strata) ≤ j →
      (monte_carlo_stratified Real.exp Real.log Real.sqrt S0 T mu sigma n n_strata prices
          g).1[j]? = prices[j]?) ∧
    n - n_strata * (n / n_strata) = n % n_strata ∧
    (∀ (σ : Type) (uniform : σ → ℝ × σ) (g0 : σ),
      (MonteCarloEngine.simulate_stratified Real.exp Real.log Real.sqrt uniform mu sigma S0 T n
          n_strata g0).1.length = n ∧
      (∀ s i, s < n_strata → i < n / n_strata →
        (MonteCarloEngine.simulate_stratified Real.exp Real.log Real.sqrt uniform mu sigma S0 T
            n n_strata g0).1[s * (n / n_strata) + i]?
          = some (gbm_price_of_quantile Real.exp Real.sqrt S0 T mu sigma
              (NormalDistribution.quantile Real.log Real.sqrt (stratum_u s n_strata
                ((draw_list uniform (n_strata * (n / n_strata)) g0).1.getD
                  (s * (n / n_strata) + i) 0))))) ∧
      (∀ j, n_strata * (n / n_strata) ≤ j → j < n →
        (MonteCarloEngine.simulate_stratified Real.exp Real.log Real.sqrt uniform mu sigma S0 T
            n n_strata g0).1[j]? = some (Dbl.fin 0))) := by
  have hblock : ∀ s i, s < n_strata → i < n / n_strata →
      s * (n / n_strata) + i < n_strata * (n / n_strata) ∧
        (s * (n / n_strata) + i) / (n / n_strata) = s := by
    intro s i hs hi
    constructor
    · have h1 : (s + 1) * (n / n_strata) ≤ n_strata * (n / n_strata) :=
        Nat.mul_le_mul_right _ hs
      have h2 : (s + 1) * (n / n_strata) = s * (n / n_strata) + n / n_strata := by ring
      omega
    · have hpos : 0 < n / n_strata := by omega
      rw [Nat.add_comm, Nat.add_mul_div_right _ _ hpos, Nat.div_eq_of_lt hi]
      omega
  obtain ⟨a1, a2, a3, a4⟩ := monte_carlo_stratified_spec Real.exp Real.log Real.sqrt S0 T mu
    sigma n n_strata prices hlen g
  refine ⟨a1, a2, ?_, a4, ?_, ?_⟩
  · intro s i hs hi
    obtain ⟨h1, h2⟩ := hblock s i hs hi
    rw [a3 _ h1, h2]
  · have := Nat.div_add_mod n n_strata
    omega
  · intro σ uniform g0
    obtain ⟨b1, b2, b3⟩ := simulate_stratified_spec Real.exp Real.log Real.sqrt uniform mu
      sigma S0 T n n_strata g0
    refine ⟨b1, ?_, b3⟩
    intro s i hs hi
    obtain ⟨h1, h2⟩ := hblock s i hs hi
    rw [b2 _ h1, h2]

/-- Witness for C14: `n = 25`, `n_strata = 10`; the entries 20 to 24 keep the content the
buffer had on entry. -/
theorem stratified_fills_blocks_witness :
    (monte_carlo_stratified Real.exp Real.log Real.sqrt 44000 (1 / 484) 0.05 0.15 25 10
        (List.replicate 25 Dbl.nan) (seed_random 42 RngState.initial)).1.length = 25 ∧
    (monte_carlo_stratified Real.exp Real.log Real.sqrt 44000 (1 / 484) 0.05 0.15 25 10
        (List.replicate 25 Dbl.nan) (seed_random 42 RngState.initial)).1[20]?
      = some Dbl.nan ∧
    (monte_carlo_stratified Real.exp Real.log Real.sqrt 44000 (1 / 484) 0.05 0.15 25 10
        (List.replicate 25 Dbl.nan) (seed_random 42 RngState.initial)).1[24]?
      = some Dbl.nan ∧
    25 - 10 * (25 / 10) = 25 % 10 := by
  have h := stratified_fills_blocks 44000 (1 / 484) 0.05 0.15 25 10 (by norm_num)
    (List.replicate 25 Dbl.nan) (by simp) (seed_random 42 RngState.initial)
  refine ⟨h.2.1, ?_, ?_, h.2.2.2.2.1⟩
  · rw [h.2.2.2.1 20 (by norm_num)]
    simp
  · rw [h.2.2.2.1 24 (by norm_num)]
    simp

/-! ## C15: length of the returned samples -/

/-- C15 (as stated, refuted): for `n = 105` and `n_strata = 10` the vector returned by the
C++ `simulate_stratified` has length 105, not `10 * floor(105/10) = 100`. -/
theorem stratified_sample_not_shorter :
    (MonteCarloEngine.simulate_stratified Real.exp Real.log Real.sqrt
        (fun k : Nat => ((1 / 2 : ℝ), k + 1)) 0.05 0.15 44000 (1 / 484) 105 10 0).1.length
      ≠ 10 * (105 / 10) := by
  rw [(simulate_stratified_spec Real.exp Real.log Real.sqrt
    (fun k : Nat => ((1 / 2 : ℝ), k + 1)) 0.05 0.15 44000 (1 / 484) 105 10 0).1]
  norm_num

/-- C15 (amended): each of the three C++ strategies returns a vector of length `n`; in the
partial-stratum case the stratified vector still has length `n` and its entries from
`n_strata * (n / n_strata)` on are the initial `0.0`. -/
theorem strategy_sample_lengths (σ : Type) (normal uniform : σ → ℝ × σ)
    (mu sigma S0 T : ℝ) (n n_strata : Nat) (g : σ) :
    (MonteCarloEngine.simulate_standard Real.exp Real.sqrt normal mu sigma S0 T n g).1.length
      = n ∧
    (∃ out g', MonteCarloEngine.simulate_antithetic Real.exp Real.sqrt normal mu sigma S0 T n g
        = some (out, g') ∧ out.length = n) ∧
    (MonteCarloEngine.simulate_stratified Real.exp Real.log Real.sqrt uniform mu sigma S0 T n
        n_strata g).1.length = n ∧
    (∀ j, n_strata * (n / n_strata) ≤ j → j < n →
      (MonteCarloEngine.simulate_stratified Real.exp Real.log Real.sqrt uniform mu sigma S0 T n
          n_strata g).1[j]? = some (Dbl.fin 0)) := by
  obtain ⟨b1, _, b3⟩ := simulate_stratified_spec Real.exp Real.log Real.sqrt uniform mu
    sigma S0 T n n_strata g
  refine ⟨?_, ?_, b1, b3⟩
  · simp only [MonteCarloEngine.simulate_standard, cpp_standard_loop_length,
      List.length_replicate]
  · obtain ⟨out, g', h1, h2⟩ := antithetic_loop_length Real.exp Real.sqrt normal S0 T mu sigma
      (n / 2) (n / 2) 0 (List.replicate n 0) g
    exact ⟨out, g', h1, by rw [h2]; simp⟩

/-- Witness for C15 (amended): `n = 105`, `n_strata = 10`; the length is 105 and entry 104
is `0.0`. -/
theorem strategy_sample_lengths_witness :
    (MonteCarloEngine.simulate_stratified Real.exp Real.log Real.sqrt
        (fun k : Nat => ((1 / 2 : ℝ), k + 1)) 0.05 0.15 44000 (1 / 484) 105 10 0).1.length
      = 105 ∧
    (MonteCarloEngine.simulate_stratified Real.exp Real.log Real.sqrt
        (fun k : Nat => ((1 / 2 : ℝ), k + 1)) 0.05 0.15 44000 (1 / 484) 105 10 0).1[104]?
      = some (Dbl.fin 0) :=
  ⟨(strategy_sample_lengths Nat (fun k : Nat => ((0 : ℝ), k + 1))
      (fun k : Nat => ((1 / 2 : ℝ), k + 1)) 0.05 0.15 44000 (1 / 484) 105 10 0).2.2.1,
    (strategy_sample_lengths Nat (fun k : Nat => ((0 : ℝ), k + 1))
      (fun k : Nat => ((1 / 2 : ℝ), k + 1)) 0.05 0.15 44000 (1 / 484) 105 10 0).2.2.2 104
      (by norm_num) (by norm_num)⟩

/-! ## C16: Greeks at expiry -/

/-- C16: for every `S0, K, r, sigma` and every `T ≤ 0`, `black_scholes_greeks` returns
`delta = gamma = theta = vega = 0` and the C++ `calculate` returns the all-zero record
(including `rho`), whatever `exp`, `log`, `sqrt` and `erf` are: none of them is consulted. -/
theorem greeks_zero_at_expiry {α : Type} [LinearOrderedField α] (exp log sqrt erf : α → α)
    (S0 K T r sigma : α) (hT : T ≤ 0) :
    black_scholes_greeks exp log sqrt S0 K T r sigma
      = { delta := 0, gamma := 0, theta := 0, vega := 0 } ∧
    BlackScholesGreeks.calculate exp log sqrt erf S0 K T r sigma
      = { d1 := 0, d2 := 0, call_price := 0, put_price := 0, delta := 0, gamma := 0,
          theta := 0, vega := 0, rho := 0 } := by
  simp only [black_scholes_greeks, BlackScholesGreeks.calculate, hT, if_true, and_self]

/-- Witness for C16 at `T = 0` (C) and `T = -1` (C++). -/
theorem greeks_zero_at_expiry_witness :
    (black_scholes_greeks Real.exp Real.log Real.sqrt 44000 44000 0 0.045 0.15).delta = 0 ∧
    (BlackScholesGreeks.calculate Real.exp Real.log Real.sqrt (fun _ => 0)
      44000 44000 (-1) 0.045 0.15).rho = 0 := by
  constructor
  · rw [(greeks_zero_at_expiry Real.exp Real.log Real.sqrt (fun _ => 0) 44000 44000 0 0.045 0.15
      le_rfl).1]
  · rw [(greeks_zero_at_expiry Real.exp Real.log Real.sqrt (fun _ => 0) 44000 44000 (-1) 0.045
      0.15 (by norm_num)).2]

/-! ## C17: closed forms of the Greeks -/

/-- C17: for `T > 0`, `S0 > 0`, `K > 0`, `sigma > 0`, `black_scholes_greeks` returns
`delta = N(d1)`, `gamma = pdf(d1)/(S0 sigma sqrt(T))`,
`theta = -S0 pdf(d1) sigma/(2 sqrt(T)) - r K exp(-r T) N(d2)`, `vega = S0 sqrt(T) pdf(d1)`
with `N` the cdf of the variant; the C++ variant returns the same and
`rho = K T exp(-r T) N(d2)`.  Here `pdf(x) = exp(-x^2/2)/SQRT_2PI` with the 21-digit
constant of the code, which is within `1e-20` of `exp(-x^2/2)/sqrt(2 pi)` for every `x`. -/
theorem greeks_closed_forms (erf : ℝ → ℝ) (S0 K T r sigma : ℝ) (hT : 0 < T) (_hS : 0 < S0)
    (_hK : 0 < K) (_hsigma : 0 < sigma) :
    (black_scholes_greeks Real.exp Real.log Real.sqrt S0 K T r sigma).delta
      = normal_cdf Real.exp (spec_d1 Real.log Real.sqrt S0 K T r sigma) ∧
    (black_scholes_greeks Real.exp Real.log Real.sqrt S0 K T r sigma).gamma
      = normal_pdf Real.exp (spec_d1 Real.log Real.sqrt S0 K T r sigma)
          / (S0 * sigma * Real.sqrt T) ∧
    (black_scholes_greeks Real.exp Real.log Real.sqrt S0 K T r sigma).theta
      = -S0 * normal_pdf Real.exp (spec_d1 Real.log Real.sqrt S0 K T r sigma) * sigma
            / (2 * Real.sqrt T)
          - r * K * Real.exp (-r * T)
            * normal_cdf Real.exp (spec_d2 Real.log Real.sqrt S0 K T r sigma) ∧
    (black_scholes_greeks Real.exp Real.log Real.sqrt S0 K T r sigma).vega
      = S0 * Real.sqrt T * normal_pdf Real.exp (spec_d1 Real.log Real.sqrt S0 K T r sigma) ∧
    (BlackScholesGreeks.calculate Real.exp Real.log Real.sqrt erf S0 K T r sigma).delta
      = NormalDistribution.cdf Real.sqrt erf (spec_d1 Real.log Real.sqrt S0 K T r sigma) ∧
    (BlackScholesGreeks.calculate Real.exp Real.log Real.sqrt erf S0 K T r sigma).gamma
      = normal_pdf Real.exp (spec_d1 Real.log Real.sqrt S0 K T r sigma)
          / (S0 * sigma * Real.sqrt T) ∧
    (BlackScholesGreeks.calculate Real.exp Real.log Real.sqrt erf S0 K T r sigma).theta
      = -S0 * normal_pdf Real.exp (spec_d1 Real.log Real.sqrt S0 K T r sigma) * sigma
            / (2 * Real.sqrt T)
          - r * K * Real.exp (-r * T)
            * NormalDistribution.cdf Real.sqrt erf (spec_d2 Real.log Real.sqrt S0 K T r sigma) ∧
    (BlackScholesGreeks.calculate Real.exp Real.log Real.sqrt erf S0 K T r sigma).vega
      = S0 * Real.sqrt T * normal_pdf Real.exp (spec_d1 Real.log Real.sqrt S0 K T r sigma) ∧
    (BlackScholesGreeks.calculate Real.exp Real.log Real.sqrt erf S0 K T r sigma).rho
      = K * T * Real.exp (-r * T)
          * NormalDistribution.cdf Real.sqrt erf (spec_d2 Real.log Real.sqrt S0 K T r sigma) ∧
    (∀ x : ℝ, |normal_pdf Real.exp x - Real.exp (-x ^ 2 / 2) / Real.sqrt (2 * Real.pi)|
      ≤ 1e-20) := by
  have hT2 : ¬ T ≤ 0 := not_le.mpr hT
  have hd := code_d1_eq Real.log Real.sqrt S0 K T r sigma
  simp only [black_scholes_greeks, BlackScholesGreeks.calculate, NormalDistribution.pdf,
    normal_pdf, hT2, if_false, hd, spec_d2]
  refine ⟨trivial, trivial, by ring, trivial, trivial, trivial, by ring, trivial, trivial, ?_⟩
  intro x
  exact normal_pdf_close x

/-- Witness for C17 at the money with `T = 1`. -/
theorem greeks_closed_forms_witness :
    (black_scholes_greeks Real.exp Real.log Real.sqrt 44000 44000 1 0.045 0.15).delta
      = normal_cdf Real.exp (spec_d1 Real.log Real.sqrt 44000 44000 1 0.045 0.15) :=
  (greeks_closed_forms (fun _ => 0) 44000 44000 1 0.045 0.15 (by norm_num) (by norm_num)
    (by norm_num) (by norm_num)).1

/-! ## C18: percentile -/

/-- C18: for a non-empty sample and `0 ≤ p ≤ 1`, `compute_percentile` is
`sorted[floor r] * (1 - frac) + sorted[ceil r] * frac` with `sorted` the ascending sort,
`r = p (n - 1)` and `frac = r - floor r`; the C++ percentile is the same; at `p = 0.5` it
is the middle element for odd `n` and the mean of the two middle elements for even `n`. -/
theorem percentile_interpolates (data : List ℝ) (hne : data ≠ []) (p : ℝ) (hp0 : 0 ≤ p)
    (_hp1 : p ≤ 1) :
    (data.insertionSort (fun a b => a ≤ b)).Sorted (fun a b => a ≤ b) ∧
    (data.insertionSort (fun a b => a ≤ b)).Perm data ∧
    compute_percentile data data.length p
      = (data.insertionSort (fun a b => a ≤ b)).getD
            (Int.floor (p * ((data.length : ℝ) - 1))).toNat 0
          * (1 - (p * ((data.length : ℝ) - 1) - (Int.floor (p * ((data.length : ℝ) - 1)) : ℝ)))
        + (data.insertionSort (fun a b => a ≤ b)).getD
            (Int.ceil (p * ((data.length : ℝ) - 1))).toNat 0
          * (p * ((data.length : ℝ) - 1) - (Int.floor (p * ((data.length : ℝ) - 1)) : ℝ)) ∧
    Statistics.percentile data p = compute_percentile data data.length p ∧
    (∀ k : Nat, data.length = 2 * k + 1 →
      compute_percentile data data.length 0.5
        = (data.insertionSort (fun a b => a ≤ b)).getD k 0) ∧
    (∀ k : Nat, data.length = 2 * k + 2 →
      compute_percentile data data.length 0.5
        = ((data.insertionSort (fun a b => a ≤ b)).getD k 0
            + (data.insertionSort (fun a b => a ≤ b)).getD (k + 1) 0) / 2) := by
  refine ⟨List.sorted_insertionSort _ _, List.perm_insertionSort _ _,
    compute_percentile_eq data hne p, Statistics_percentile_eq data p hp0, ?_, ?_⟩
  · intro k hk
    rw [compute_percentile_eq data hne, hk]
    have hr : (0.5 : ℝ) * (((2 * k + 1 : Nat) : ℝ) - 1) = (k : ℝ) := by
      push_cast
      ring
    rw [hr, Int.floor_natCast, Int.ceil_natCast]
    simp
  · intro k hk
    rw [compute_percentile_eq data hne, hk]
    have hr : (0.5 : ℝ) * (((2 * k + 2 : Nat) : ℝ) - 1) = (k : ℝ) + 1 / 2 := by
      push_cast
      ring
    have hfl : Int.floor ((k : ℝ) + 1 / 2) = (k : Int) := by
      rw [Int.floor_eq_iff]
      constructor <;> push_cast <;> linarith
    have hce : Int.ceil ((k : ℝ) + 1 / 2) = (k : Int) + 1 := by
      rw [Int.ceil_eq_iff]
      constructor <;> push_cast <;> linarith
    rw [hr, hfl, hce]
    have h1 : ((k : Int) + 1).toNat = k + 1 := by omega
    simp only [Int.toNat_ofNat, h1, Int.cast_natCast]
    ring

/-- Witness for C18: `[1,2,3,4,5]` gives 3 and `[1,2,3,4]` gives 2.5. -/
theorem percentile_interpolates_witness :
    compute_percentile ([1, 2, 3, 4, 5] : List ℝ) 5 0.5 = 3 ∧
    compute_percentile ([1, 2, 3, 4] : List ℝ) 4 0.5 = 2.5 := by
  have s5 : List.insertionSort (fun a b : ℝ => a ≤ b) [1, 2, 3, 4, 5] = [1, 2, 3, 4, 5] :=
    List.Sorted.insertionSort_eq (by norm_num [List.Sorted])
  have s4 : List.insertionSort (fun a b : ℝ => a ≤ b) [1, 2, 3, 4] = [1, 2, 3, 4] :=
    List.Sorted.insertionSort_eq (by norm_num [List.Sorted])
  have h5 := (percentile_interpolates [1, 2, 3, 4, 5] (by simp) 0.5 (by norm_num)
    (by norm_num)).2.2.2.2.1 2 rfl
  have h4 := (percentile_interpolates [1, 2, 3, 4] (by simp) 0.5 (by norm_num)
    (by norm_num)).2.2.2.2.2 1 rfl
  rw [s5] at h5
  rw [s4] at h4
  constructor
  · simpa using h5
  · rw [show (([1, 2, 3, 4] : List ℝ).length) = 4 from rfl] at h4
    rw [h4]
    norm_num

/-! ## C19: mean, variance and standard deviation -/

/-- C19: for a sample of length `n ≥ 2` with `m = compute_mean(arr, n)`, `compute_variance`
is the sum of squared deviations from the sample mean divided by `n - 1` and `compute_std`
is its square root; the C++ `mean`, `variance`, `std_dev` return the same values. -/
theorem variance_is_sample_variance (arr : List ℝ) (n : Nat) (hlen : arr.length = n)
    (hn : 2 ≤ n) :
    compute_mean arr n = arr.sum / (n : ℝ) ∧
    compute_variance arr n (compute_mean arr n)
      = (arr.map (fun x => (x - arr.sum / (n : ℝ)) ^ 2)).sum / ((n : ℝ) - 1) ∧
    compute_std Real.sqrt arr n (compute_mean arr n)
      = Real.sqrt ((arr.map (fun x => (x - arr.sum / (n : ℝ)) ^ 2)).sum / ((n : ℝ) - 1)) ∧
    Statistics.mean arr = compute_mean arr n ∧
    Statistics.variance arr (Statistics.mean arr) = compute_variance arr n (compute_mean arr n) ∧
    Statistics.std_dev Real.sqrt arr (Statistics.mean arr)
      = compute_std Real.sqrt arr n (compute_mean arr n) := by
  subst hlen
  have hm := compute_mean_eq arr
  have hne : arr ≠ [] := by
    intro h
    rw [h] at hn
    simp at hn
  have hcast : (((arr.length : Int) - 1 : Int) : ℝ) = (arr.length : ℝ) - 1 := by push_cast; ring
  have hcastN : ((arr.length - 1 : Nat) : ℝ) = (arr.length : ℝ) - 1 := by
    rw [Nat.cast_sub (by omega)]
    simp
  have hcm : Statistics.mean arr = compute_mean arr arr.length := by
    simp only [Statistics.mean, hne, if_false, compute_mean, List.take_length]
  have hcv : Statistics.variance arr (Statistics.mean arr)
      = compute_variance arr arr.length (compute_mean arr arr.length) := by
    have h2 : ¬ arr.length < 2 := by omega
    simp only [Statistics.variance, h2, if_false, hcm, compute_variance, sum_sq_loop,
      List.take_length, hcast, hcastN]
  refine ⟨hm, ?_, ?_, hcm, hcv, ?_⟩
  · simp only [compute_variance, hm, sum_sq_loop_eq, hcast]
  · simp only [compute_std, hm, sum_sq_loop_eq, hcast]
  · simp only [Statistics.std_dev, hcv, compute_std, compute_variance]

/-- Witness for C19: the sample `[1, 2, 6]` has sample variance 7. -/
theorem variance_is_sample_variance_witness :
    compute_variance [1, 2, 6] 3 (compute_mean [1, 2, 6] 3) = (7 : ℝ) := by
  have h := (variance_is_sample_variance [1, 2, 6] 3 rfl (by norm_num)).2.1
  rw [h]
  norm_num

/-! ## C20: confidence interval -/

/-- C20: `ci_lower = antithetic_mean - 1.96 * antithetic_std / sqrt(n)` and
`ci_upper = antithetic_mean + 1.96 * antithetic_std / sqrt(n)`; hence
`ci_lower ≤ antithetic_mean ≤ ci_upper` and the interval is symmetric about the mean. -/
theorem confidence_interval_symmetric (av_prices : List ℝ) (n : Nat) (_hn : 2 ≤ n) :
    (confidence_interval Real.sqrt (compute_mean av_prices n)
        (compute_std Real.sqrt av_prices n (compute_mean av_prices n)) n).1
      = compute_mean av_prices n
        - 1.96 * compute_std Real.sqrt av_prices n (compute_mean av_prices n) / Real.sqrt n ∧
    (confidence_interval Real.sqrt (compute_mean av_prices n)
        (compute_std Real.sqrt av_prices n (compute_mean av_prices n)) n).2
      = compute_mean av_prices n
        + 1.96 * compute_std Real.sqrt av_prices n (compute_mean av_prices n) / Real.sqrt n ∧
    (confidence_interval Real.sqrt (compute_mean av_prices n)
        (compute_std Real.sqrt av_prices n (compute_mean av_prices n)) n).1
      ≤ compute_mean av_prices n ∧
    compute_mean av_prices n
      ≤ (confidence_interval Real.sqrt (compute_mean av_prices n)
        (compute_std Real.sqrt av_prices n (compute_mean av_prices n)) n).2 ∧
    compute_mean av_prices n
        - (confidence_interval Real.sqrt (compute_mean av_prices n)
          (compute_std Real.sqrt av_prices n (compute_mean av_prices n)) n).1
      = (confidence_interval Real.sqrt (compute_mean av_prices n)
          (compute_std Real.sqrt av_prices n (compute_mean av_prices n)) n).2
        - compute_mean av_prices n := by
  have hs : 0 ≤ compute_std Real.sqrt av_prices n (compute_mean av_prices n) :=
    Real.sqrt_nonneg _
  have hq : 0 ≤ compute_std Real.sqrt av_prices n (compute_mean av_prices n) / Real.sqrt n :=
    div_nonneg hs (Real.sqrt_nonneg _)
  simp only [confidence_interval]
  refine ⟨by ring, by ring, ?_, ?_, by ring⟩
  · nlinarith
  · nlinarith

/-- Witness for C20 on the sample `[1, 2, 6, 3]`. -/
theorem confidence_interval_symmetric_witness :
    (confidence_interval Real.sqrt (compute_mean [1, 2, 6, 3] 4)
        (compute_std Real.sqrt [1, 2, 6, 3] 4 (compute_mean [1, 2, 6, 3] 4)) 4).1
      ≤ compute_mean ([1, 2, 6, 3] : List ℝ) 4 :=
  (confidence_interval_symmetric [1, 2, 6, 3] 4 (by norm_num)).2.2.1

/-! ## Shared lemmas: the orchestrator -/

/-- The time to target of the default configuration. -/
theorem compute_time_to_target_default :
    compute_time_to_target (default_config : MarketConfig ℝ) = 207 / (252 * 390) := by
  simp only [compute_time_to_target, default_config]
  norm_num

/-! ## C21: the combined mean -/

/-- C21: `combined_mean` is `(gbm_mean + antithetic_mean + stratified_mean +
analytical_expected) / 4`, the three means being the ones computed by steps 1 to 3; it is the
same for every logarithm, square root, risk-free rate and volatility, the inputs that reach
the record only through the Taylor price and the Greeks.  The same holds for the C++
`DJI1PMPredictor::run`. -/
theorem combined_mean_is_average (exp log sqrt erf : ℝ → ℝ) (config : MarketConfig ℝ)
    (results : PredictionResults ℝ) (cpp : DJI1PMPredictor.PredictionResults ℝ) :
    ((run_simulation_finish exp log sqrt config results).combined_mean
      = ((run_simulation_finish exp log sqrt config results).gbm_mean
          + (run_simulation_finish exp log sqrt config results).antithetic_mean
          + (run_simulation_finish exp log sqrt config results).stratified_mean
          + (run_simulation_finish exp log sqrt config results).analytical_expected) / 4 ∧
      (run_simulation_finish exp log sqrt config results).gbm_mean = results.gbm_mean ∧
      (run_simulation_finish exp log sqrt config results).antithetic_mean
        = results.antithetic_mean ∧
      (run_simulation_finish exp log sqrt config results).stratified_mean
        = results.stratified_mean ∧
      ∀ (log2 sqrt2 : ℝ → ℝ) (r sigma : ℝ),
        (run_simulation_finish exp log2 sqrt2
            { config with risk_free_rate := r, volatility := sigma } results).combined_mean
          = (run_simulation_finish exp log sqrt config results).combined_mean) ∧
    ((DJI1PMPredictor.run_finish exp log sqrt erf config cpp).combined_mean
      = ((DJI1PMPredictor.run_finish exp log sqrt erf config cpp).gbm_mean
          + (DJI1PMPredictor.run_finish exp log sqrt erf config cpp).antithetic_mean
          + (DJI1PMPredictor.run_finish exp log sqrt erf config cpp).stratified_mean
          + (DJI1PMPredictor.run_finish exp log sqrt erf config cpp).analytical_expected) / 4 ∧
      (DJI1PMPredictor.run_finish exp log sqrt erf config cpp).gbm_mean = cpp.gbm_mean ∧
      (DJI1PMPredictor.run_finish exp log sqrt erf config cpp).antithetic_mean
        = cpp.antithetic_mean ∧
      (DJI1PMPredictor.run_finish exp log sqrt erf config cpp).stratified_mean
        = cpp.stratified_mean ∧
      ∀ (log2 sqrt2 erf2 : ℝ → ℝ) (r sigma : ℝ),
        (DJI1PMPredictor.run_finish exp log2 sqrt2 erf2
            { config with risk_free_rate := r, volatility := sigma } cpp).combined_mean
          = (DJI1PMPredictor.run_finish exp log sqrt erf config cpp).combined_mean) := by
  refine ⟨⟨?_, rfl, rfl, rfl, ?_⟩, ⟨?_, rfl, rfl, rfl, ?_⟩⟩
  · simp only [run_simulation_finish]
    norm_num
  · intro log2 sqrt2 r sigma
    simp only [run_simulation_finish, compute_time_to_target]
  · simp only [DJI1PMPredictor.run_finish]
    norm_num
  · intro log2 sqrt2 erf2 r sigma
    simp only [DJI1PMPredictor.run_finish, compute_time_to_target]

/-! ## C22: time to target -/

/-- C22 (as stated, refuted): for the default configuration the time to target differs from
the quoted `0.0021033` by more than `2.9e-6`, so not by less than `5e-8`. -/
theorem time_to_target_not_quoted :
    2.9e-6 < |compute_time_to_target (default_config : MarketConfig ℝ) - 0.0021033| ∧
    ¬ |compute_time_to_target (default_config : MarketConfig ℝ) - 0.0021033| < 5e-8 := by
  rw [compute_time_to_target_default]
  have h : (207 / (252 * 390) - 0.0021033 : ℝ) = 7991 / 2730000000 := by norm_num
  rw [h, abs_of_pos (by norm_num)]
  constructor <;> norm_num

/-- C22 (amended): `compute_time_to_target` returns `207 / (trading_days * minutes_per_day)`;
for the default configuration this is `207 / (252 * 390) = 23/10920`, which agrees with
`0.0021062` to seven decimal places. -/
theorem time_to_target_value :
    (∀ config : MarketConfig ℝ, compute_time_to_target config
      = 207 / ((config.trading_days : ℝ) * (config.minutes_per_day : ℝ))) ∧
    compute_time_to_target (default_config : MarketConfig ℝ) = 207 / (252 * 390) ∧
    compute_time_to_target (default_config : MarketConfig ℝ) = 23 / 10920 ∧
    |compute_time_to_target (default_config : MarketConfig ℝ) - 0.0021062| < 5e-8 := by
  refine ⟨?_, compute_time_to_target_default, ?_, ?_⟩
  · intro config
    simp only [compute_time_to_target]
    norm_num
  · rw [compute_time_to_target_default]
    norm_num
  · rw [compute_time_to_target_default]
    have h : (207 / (252 * 390) - 0.0021062 : ℝ) = 37 / 1365000000 := by norm_num
    rw [h, abs_of_pos (by norm_num)]
    norm_num

/-! ## C23: the analytical expected value -/

/-- C23: the orchestrator sets `analytical_expected = S0 * exp(drift * T)` with
`T = 207 / (trading_days * minutes_per_day)`, whatever the statistics of the three samples,
the simulation count and the seed are; for the default configuration the value is within
`0.005` of `44004.63`.  The same holds for the C++ `DJI1PMPredictor::run`. -/
theorem analytical_expected_value (log sqrt erf : ℝ → ℝ) (results : PredictionResults ℝ)
    (cpp : DJI1PMPredictor.PredictionResults ℝ) :
    (∀ (exp : ℝ → ℝ) (config : MarketConfig ℝ),
      (run_simulation_finish exp log sqrt config results).analytical_expected
        = config.current_price * exp (config.drift
            * (207 / ((config.trading_days : ℝ) * (config.minutes_per_day : ℝ)))) ∧
      (DJI1PMPredictor.run_finish exp log sqrt erf config cpp).analytical_expected
        = config.current_price * exp (config.drift
            * (207 / ((config.trading_days : ℝ) * (config.minutes_per_day : ℝ)))) ∧
      ∀ (n : Int) (seed : Nat) (results2 : PredictionResults ℝ),
        (run_simulation_finish exp log sqrt
            { config with simulations := n, random_seed := seed } results2).analytical_expected
          = (run_simulation_finish exp log sqrt config results).analytical_expected) ∧
    |(run_simulation_finish Real.exp log sqrt default_config results).analytical_expected
      - 44004.63| < 0.005 ∧
    |(DJI1PMPredictor.run_finish Real.exp log sqrt erf default_config cpp).analytical_expected
      - 44004.63| < 0.005 := by
  have hval : |(44000 : ℝ) * Real.exp (0.05 * (207 / (252 * 390))) - 44004.63| < 0.005 := by
    have h1 := Real.add_one_le_exp (0.05 * (207 / (252 * 390)) : ℝ)
    have h2 := Real.exp_bound_div_one_sub_of_interval
      (show (0 : ℝ) ≤ 0.05 * (207 / (252 * 390)) by norm_num)
      (show (0.05 * (207 / (252 * 390)) : ℝ) < 1 by norm_num)
    rw [abs_lt]
    constructor
    · have : (0.05 * (207 / (252 * 390)) + 1 : ℝ) * 44000 > 44004.63 - 0.005 + 0 := by norm_num
      nlinarith
    · have h3 : (1 / (1 - 0.05 * (207 / (252 * 390))) : ℝ) * 44000 < 44004.63 + 0.005 := by
        norm_num
      nlinarith
  refine ⟨?_, ?_, ?_⟩
  · intro exp config
    refine ⟨?_, ?_, ?_⟩
    · simp only [run_simulation_finish, compute_time_to_target]
      norm_num
    · simp only [DJI1PMPredictor.run_finish, compute_time_to_target]
      norm_num
    · intro n seed results2
      simp only [run_simulation_finish, compute_time_to_target]
  · have h : (run_simulation_finish Real.exp log sqrt default_config results).analytical_expected
        = 44000 * Real.exp (0.05 * (207 / (252 * 390))) := by
      simp only [run_simulation_finish, compute_time_to_target, default_config]
      norm_num
    rw [h]
    exact hval
  · have h : (DJI1PMPredictor.run_finish Real.exp log sqrt erf default_config
          cpp).analytical_expected
        = 44000 * Real.exp (0.05 * (207 / (252 * 390))) := by
      simp only [DJI1PMPredictor.run_finish, compute_time_to_target, default_config]
      norm_num
    rw [h]
    exact hval

/-! ## Shared lemmas: the Taylor expansion -/

/-- The loop of `factorial` started at 2 computes the factorial. -/
theorem factorial_loop_eq {α : Type} [LinearOrderedField α] (k : Nat) :
    (List.range' 2 k).foldl (fun (result : α) (i : Nat) => result * (i : α)) 1 = ((k + 1).factorial : α) := by
  induction k with
  | zero => simp
  | succ k ih =>
    rw [List.range'_1_concat, List.foldl_append, ih]
    simp only [List.foldl_cons, List.foldl_nil]
    rw [Nat.factorial_succ (k + 1)]
    push_cast
    ring

/-- `factorial(n)` for `n ≥ 0` is the finite value `n!`. -/
theorem factorial_natCast {α : Type} [LinearOrderedField α] (m : Nat) :
    factorial ((m : Nat) : Int) = Dbl.fin ((m.factorial : Nat) : α) := by
  have h1 : (1.0 : α) = 1 := by norm_num
  simp only [factorial, h1]
  have h0 : ¬ ((m : Int) < 0) := by omega
  rw [if_neg h0]
  by_cases hm : (m : Int) ≤ 1
  · rw [if_pos hm]
    have : m = 0 ∨ m = 1 := by omega
    rcases this with h | h <;> subst h <;> simp
  · rw [if_neg hm]
    have hk : (m : Int).toNat - 1 = m - 1 := by omega
    rw [hk, factorial_loop_eq]
    have : m - 1 + 1 = m := by omega
    rw [this]

/-- The Taylor loop started at `n ≥ 1` adds the terms `(-1)^(j+1) (dS/S0)^j / j` for
`j = n, n + 1, ...`. -/
theorem taylor_loop_eq {α : Type} [LinearOrderedField α] (S0 dS : α) (hS : S0 ≠ 0) (k : Nat) :
    ∀ (n : Nat) (acc : α), 1 ≤ n →
      taylor_loop S0 dS k n acc
        = Dbl.fin (acc + ∑ j in Finset.range k,
            (-1) ^ (n + j + 1) * (dS / S0) ^ (n + j) / ((n + j : Nat) : α)) := by
  induction k with
  | zero =>
    intro n acc _
    simp [taylor_loop]
  | succ k ih =>
    intro n acc hn
    have h1 : (1.0 : α) = 1 := by norm_num
    have hfn : factorial ((n : Nat) : Int) = Dbl.fin ((n.factorial : Nat) : α) :=
      factorial_natCast n
    have hfp : factorial (((n : Nat) : Int) - 1) = Dbl.fin (((n - 1).factorial : Nat) : α) := by
      have : ((n : Nat) : Int) - 1 = ((n - 1 : Nat) : Int) := by omega
      rw [this, factorial_natCast]
    have hsign : (if n % 2 = 0 then (-1 : α) else 1) = (-1) ^ (n + 1) := by
      rcases Nat.even_or_odd n with he | ho
      · have : n % 2 = 0 := Nat.even_iff.mp he
        rw [if_pos this, Odd.neg_one_pow (Even.add_one he)]
      · have : ¬ (n % 2 = 0) := by
          have := Nat.odd_iff.mp ho
          omega
        rw [if_neg this, Even.neg_one_pow (Odd.add_one ho)]
    have hnf : ((n.factorial : Nat) : α) = (n : α) * (((n - 1).factorial : Nat) : α) := by
      have : n = (n - 1) + 1 := by omega
      conv_lhs => rw [this, Nat.factorial_succ]
      push_cast
      have h2 : ((n - 1 : Nat) : α) + 1 = (n : α) := by
        have : ((n - 1 + 1 : Nat) : α) = (n : α) := by
          congr 1
          omega
        rw [← this]
        push_cast
        ring
      rw [h2]
    have hn0 : (n : α) ≠ 0 := by
      have : 0 < n := hn
      exact_mod_cast this.ne'
    have hf0 : (((n - 1).factorial : Nat) : α) ≠ 0 := by
      exact_mod_cast (Nat.factorial_pos (n - 1)).ne'
    have hterm : (if n % 2 = 0 then (-1 : α) else 1) * (((n - 1).factorial : Nat) : α)
          / S0 ^ n * dS ^ n / ((n.factorial : Nat) : α)
        = (-1) ^ (n + 1) * (dS / S0) ^ n / (n : α) := by
      rw [hsign, hnf, div_pow]
      field_simp
      ring
    have hone : n = 1 → (1 : α) / S0 = (if n % 2 = 0 then (-1 : α) else 1)
        * (((n - 1).factorial : Nat) : α) / S0 ^ n := by
      intro h
      subst h
      simp
    simp only [taylor_loop, h1, hfn, hfp]
    by_cases hn1 : n = 1
    · rw [if_pos hn1]
      simp only []
      rw [ih (n + 1) _ (by omega), hone hn1, hterm, Finset.sum_range_succ', add_assoc]
      congr 2
      rw [add_comm]
      congr 1
      apply Finset.sum_congr rfl
      intro j _
      have e : n + 1 + j = n + (j + 1) := by omega
      rw [e]
    · rw [if_neg hn1]
      simp only []
      rw [ih (n + 1) _ (by omega), hterm, Finset.sum_range_succ', add_assoc]
      congr 2
      rw [add_comm]
      congr 1
      apply Finset.sum_congr rfl
      intro j _
      have e : n + 1 + j = n + (j + 1) := by omega
      rw [e]

/-- Closed form of `taylor_expansion_price` for `S0 > 0` and `order ≥ 0`. -/
theorem taylor_expansion_price_eq (S0 dS : ℝ) (hS : 0 < S0) (order : Nat) :
    taylor_expansion_price Real.exp Real.log S0 dS (order : Int)
      = Dbl.fin (S0 * Real.exp (∑ n in Finset.Icc 1 order,
          (-1) ^ (n - 1) * (dS / S0) ^ n / (n : ℝ))) := by
  have hs : ∑ n in Finset.Icc 1 order, (-1 : ℝ) ^ (n - 1) * (dS / S0) ^ n / (n : ℝ)
      = ∑ j in Finset.range order,
          (-1 : ℝ) ^ (1 + j + 1) * (dS / S0) ^ (1 + j) / ((1 + j : Nat) : ℝ) := by
    have hI : Finset.Icc 1 order = Finset.Ico 1 (order + 1) := by
      ext x
      simp only [Finset.mem_Icc, Finset.mem_Ico]
      omega
    rw [hI, Finset.sum_Ico_eq_sum_range]
    simp only [Nat.add_sub_cancel]
    apply Finset.sum_congr rfl
    intro j _
    have e : (-1 : ℝ) ^ (1 + j + 1) = (-1) ^ (1 + j - 1) := by
      have : 1 + j + 1 = (1 + j - 1) + 2 := by omega
      rw [this, pow_add]
      norm_num
    rw [e]
  simp only [taylor_expansion_price, Int.toNat_ofNat]
  rw [taylor_loop_eq S0 dS hS.ne' order 1 _ le_rfl, hs]
  simp only [Dbl.exp]
  rw [Real.exp_add, Real.exp_log hS]

/-- The C++ `TaylorExpansion<4>::compute_price` in closed form. -/
theorem compute_price_four_eq (S0 dS : ℝ) (hS : 0 < S0) :
    TaylorExpansion.compute_price Real.exp Real.log 4 S0 dS
      = S0 * Real.exp (dS / S0 - (dS / S0) ^ 2 / 2 + (dS / S0) ^ 3 / 3 - (dS / S0) ^ 4 / 4) := by
  have h1 : (1.0 : ℝ) = 1 := by norm_num
  simp only [TaylorExpansion.compute_price, TaylorExpansion.fill_loop,
    TaylorExpansion.sum_loop, List.replicate, List.set, List.getD_cons_zero,
    List.getD_cons_succ, h1]
  have hS0 : S0 ≠ 0 := hS.ne'
  rw [show S0 * Real.exp (dS / S0 - (dS / S0) ^ 2 / 2 + (dS / S0) ^ 3 / 3 - (dS / S0) ^ 4 / 4)
      = Real.exp (Real.log S0
          + (dS / S0 - (dS / S0) ^ 2 / 2 + (dS / S0) ^ 3 / 3 - (dS / S0) ^ 4 / 4)) by
    rw [Real.exp_add, Real.exp_log hS]]
  congr 1
  norm_num
  field_simp
  ring

/-- The sums of the first two and of the first four Taylor terms. -/
theorem taylor_sums (x : ℝ) :
    ∑ n in Finset.Icc (1 : ℕ) 2, (-1 : ℝ) ^ (n - 1) * x ^ n / ((n : ℕ) : ℝ) = x - x ^ 2 / 2 ∧
    ∑ n in Finset.Icc (1 : ℕ) 4, (-1 : ℝ) ^ (n - 1) * x ^ n / ((n : ℕ) : ℝ)
      = x - x ^ 2 / 2 + x ^ 3 / 3 - x ^ 4 / 4 := by
  have h2 : Finset.Icc (1 : ℕ) 2 = ({1, 2} : Finset ℕ) := by decide
  have h4 : Finset.Icc (1 : ℕ) 4 = ({1, 2, 3, 4} : Finset ℕ) := by decide
  constructor
  · rw [h2]
    simp
    ring
  · rw [h4]
    simp
    ring

/-- Order 2 against order 4: for `0 ≤ x ≤ 1` the order-4 exponent lies between the order-2
exponent and `x`; for `x < 0` it lies below the order-2 exponent, which lies below `x`. -/
theorem taylor_exponents (x : ℝ) :
    (0 ≤ x → x ≤ 1 → x - x ^ 2 / 2 ≤ x - x ^ 2 / 2 + x ^ 3 / 3 - x ^ 4 / 4 ∧
      x - x ^ 2 / 2 + x ^ 3 / 3 - x ^ 4 / 4 ≤ x) ∧
    (x < 0 → x - x ^ 2 / 2 + x ^ 3 / 3 - x ^ 4 / 4 < x - x ^ 2 / 2 ∧ x - x ^ 2 / 2 ≤ x) := by
  constructor
  · intro h0 h1
    constructor
    · have : 0 ≤ x ^ 3 * (1 / 3 - x / 4) := mul_nonneg (pow_nonneg h0 3) (by linarith)
      nlinarith
    · have : 0 ≤ x ^ 2 * ((x / 2 - 1 / 3) ^ 2 + 7 / 18) :=
        mul_nonneg (sq_nonneg x) (by positivity)
      nlinarith
  · intro h0
    constructor
    · have h3 : x ^ 3 < 0 := by
        have : x ^ 3 = x * x ^ 2 := by ring
        rw [this]
        exact mul_neg_of_neg_of_pos h0 (by nlinarith)
      have : x ^ 3 * (1 / 3 - x / 4) < 0 := mul_neg_of_neg_of_pos h3 (by linarith)
      nlinarith
    · have := sq_nonneg x
      linarith

/-- Distances of the two Taylor prices from `S0 * exp(x)` with `x = dS / S0`. -/
theorem taylor_order_cmp (S0 dS : ℝ) (hS : 0 < S0) :
    ∃ t2 t4 : ℝ,
      taylor_expansion_price Real.exp Real.log S0 dS 2 = Dbl.fin t2 ∧
      taylor_expansion_price Real.exp Real.log S0 dS 4 = Dbl.fin t4 ∧
      (0 ≤ dS / S0 → dS / S0 ≤ 1 →
        |t4 - S0 * Real.exp (dS / S0)| ≤ |t2 - S0 * Real.exp (dS / S0)|) ∧
      (dS / S0 < 0 → |t2 - S0 * Real.exp (dS / S0)| < |t4 - S0 * Real.exp (dS / S0)|) := by
  have e2 := taylor_expansion_price_eq S0 dS hS 2
  have e4 := taylor_expansion_price_eq S0 dS hS 4
  rw [(taylor_sums (dS / S0)).1] at e2
  rw [(taylor_sums (dS / S0)).2] at e4
  simp only [Nat.cast_ofNat] at e2 e4
  refine ⟨_, _, e2, e4, ?_, ?_⟩
  · intro h0 h1
    obtain ⟨a, b⟩ := (taylor_exponents (dS / S0)).1 h0 h1
    have ha := Real.exp_le_exp.mpr a
    have hb := Real.exp_le_exp.mpr b
    rw [abs_of_nonpos (by nlinarith), abs_of_nonpos (by nlinarith [ha.trans hb])]
    nlinarith
  · intro h0
    obtain ⟨a, b⟩ := (taylor_exponents (dS / S0)).2 h0
    have ha := Real.exp_lt_exp.mpr a
    have hb := Real.exp_le_exp.mpr b
    rw [abs_of_nonpos (by nlinarith), abs_of_nonpos (by nlinarith [ha.le.trans hb])]
    nlinarith

/-! ## C24: closed form of the Taylor price -/

/-- C24: for `S0 > 0` and `order ≥ 0`, `taylor_expansion_price(S0, dS, order)` is
`S0 * exp(sum_{n=1..order} (-1)^(n-1) (dS/S0)^n / n)`, each term being the derivative
`(-1)^(n-1) (n-1)! / S0^n` times `dS^n` divided by `n!`; and the C function at order 4
equals the C++ `TaylorExpansion<4>::compute_price`. -/
theorem taylor_price_closed_form (S0 dS : ℝ) (hS : 0 < S0) (order : Int) (horder : 0 ≤ order) :
    taylor_expansion_price Real.exp Real.log S0 dS order
      = Dbl.fin (S0 * Real.exp (∑ n in Finset.Icc 1 order.toNat,
          (-1) ^ (n - 1) * (dS / S0) ^ n / (n : ℝ))) ∧
    (∀ n : Nat, 1 ≤ n →
      (-1 : ℝ) ^ (n - 1) * (dS / S0) ^ n / (n : ℝ)
        = ((-1) ^ (n - 1) * ((n - 1).factorial : ℝ) / S0 ^ n) * dS ^ n / (n.factorial : ℝ)) ∧
    taylor_expansion_price Real.exp Real.log S0 dS 4
      = Dbl.fin (TaylorExpansion.compute_price Real.exp Real.log 4 S0 dS) := by
  refine ⟨?_, ?_, ?_⟩
  · have h := taylor_expansion_price_eq S0 dS hS order.toNat
    rw [Int.toNat_of_nonneg horder] at h
    exact h
  · intro n hn
    have hnf : (n.factorial : ℝ) = (n : ℝ) * ((n - 1).factorial : ℝ) := by
      have : n = (n - 1) + 1 := by omega
      conv_lhs => rw [this, Nat.factorial_succ]
      push_cast
      have h2 : ((n - 1 : Nat) : ℝ) + 1 = (n : ℝ) := by
        rw [Nat.cast_sub hn]
        simp
      rw [h2]
    have hn0 : (n : ℝ) ≠ 0 := by
      have : 0 < n := hn
      exact_mod_cast this.ne'
    have hf0 : ((n - 1).factorial : ℝ) ≠ 0 := by
      exact_mod_cast (Nat.factorial_pos (n - 1)).ne'
    have hS0 : S0 ≠ 0 := hS.ne'
    rw [hnf, div_pow]
    field_simp
    ring
  · have h := taylor_expansion_price_eq S0 dS hS 4
    rw [(taylor_sums (dS / S0)).2] at h
    simp only [Nat.cast_ofNat] at h
    rw [compute_price_four_eq S0 dS hS]
    exact h

/-- Witness for C24: `S0 = 100`, `dS = 1`, order 2: the price is `100 * exp(0.01 - 0.00005)`. -/
theorem taylor_price_closed_form_witness :
    taylor_expansion_price Real.exp Real.log 100 1 2
      = Dbl.fin (100 * Real.exp (∑ n in Finset.Icc 1 (2 : Int).toNat,
          (-1) ^ (n - 1) * ((1 : ℝ) / 100) ^ n / (n : ℝ))) :=
  (taylor_price_closed_form 100 1 (by norm_num) 2 (by norm_num)).1

/-! ## C25: order 2 against order 4 -/

/-- C25 (as stated, refuted): for `S0 = 100` and `dS = -1` (`dS/S0 = -0.01`) the order-4
Taylor price is strictly farther from `S0 * exp(dS/S0)` than the order-2 Taylor price. -/
theorem taylor_order4_farther :
    ∃ t2 t4 : ℝ,
      taylor_expansion_price Real.exp Real.log 100 (-1) 2 = Dbl.fin t2 ∧
      taylor_expansion_price Real.exp Real.log 100 (-1) 4 = Dbl.fin t4 ∧
      |t2 - 100 * Real.exp (-1 / 100)| < |t4 - 100 * Real.exp (-1 / 100)| := by
  obtain ⟨t2, t4, h2, h4, _, h⟩ := taylor_order_cmp 100 (-1) (by norm_num)
  exact ⟨t2, t4, h2, h4, h (by norm_num)⟩

/-- C25 (amended): for `S0 > 0` and `0 ≤ dS/S0 ≤ 0.01` the order-4 Taylor price is at least
as close to `S0 * exp(dS/S0)` as the order-2 Taylor price; for `-0.01 ≤ dS/S0 < 0` it is
strictly farther. -/
theorem taylor_order_comparison (S0 dS : ℝ) (hS : 0 < S0) (hx : |dS / S0| ≤ 0.01) :
    ∃ t2 t4 : ℝ,
      taylor_expansion_price Real.exp Real.log S0 dS 2 = Dbl.fin t2 ∧
      taylor_expansion_price Real.exp Real.log S0 dS 4 = Dbl.fin t4 ∧
      (0 ≤ dS → |t4 - S0 * Real.exp (dS / S0)| ≤ |t2 - S0 * Real.exp (dS / S0)|) ∧
      (dS < 0 → |t2 - S0 * Real.exp (dS / S0)| < |t4 - S0 * Real.exp (dS / S0)|) := by
  obtain ⟨t2, t4, h2, h4, ha, hb⟩ := taylor_order_cmp S0 dS hS
  refine ⟨t2, t4, h2, h4, ?_, ?_⟩
  · intro h0
    have hle := (abs_le.mp hx).2
    exact ha (div_nonneg h0 hS.le) (by linarith)
  · intro h0
    exact hb (div_neg_of_neg_of_pos h0 hS)

/-- Witness for C25 (amended): `S0 = 100`, `dS = 1`. -/
theorem taylor_order_comparison_witness :
    ∃ t2 t4 : ℝ,
      taylor_expansion_price Real.exp Real.log 100 1 2 = Dbl.fin t2 ∧
      taylor_expansion_price Real.exp Real.log 100 1 4 = Dbl.fin t4 ∧
      |t4 - 100 * Real.exp (1 / 100)| ≤ |t2 - 100 * Real.exp (1 / 100)| := by
  obtain ⟨t2, t4, h2, h4, ha, _⟩ := taylor_order_comparison 100 1 (by norm_num)
    (by rw [abs_of_pos (by norm_num)]; norm_num)
  exact ⟨t2, t4, h2, h4, ha (by norm_num)⟩

/-! ## Shared lemmas: numerical integration -/

/-- The loop of `simpsons_rule` adds the weighted values at the nodes `i, i + 1, ...`. -/
theorem simpsons_loop_eq {α : Type} [LinearOrderedField α] (f : α → α) (a h : α) (k : Nat) :
    ∀ (i : Nat) (sum : α), simpsons_loop f a h k i sum
      = sum + ∑ j in Finset.range k,
          (if (i + j) % 2 = 0 then 2 else 4) * f (a + ((i + j : Nat) : α) * h) := by
  induction k with
  | zero =>
    intro i sum
    simp [simpsons_loop]
  | succ k ih =>
    intro i sum
    simp only [simpsons_loop]
    rw [ih, Finset.sum_range_succ', add_assoc]
    congr 1
    rw [add_comm]
    congr 1
    · apply Finset.sum_congr rfl
      intro j _
      have e : i + 1 + j = i + (j + 1) := by omega
      rw [e]
    · have h2 : (2.0 : α) = 2 := by norm_num
      have h4 : (4.0 : α) = 4 := by norm_num
      simp only [Nat.add_zero, h2, h4]

/-- `simpsons_rule` for a positive even `n`, as a sum over the interior nodes. -/
theorem simpsons_rule_of_even {α : Type} [LinearOrderedField α] (f : α → α) (a b : α) (n : Nat)
    (hn : 1 ≤ n) (heven : n % 2 = 0) :
    simpsons_rule f a b (n : Int)
      = (b - a) / (n : α) * (f a + f b + ∑ j in Finset.range (n - 1),
          (if (1 + j) % 2 = 0 then 2 else 4) * f (a + ((1 + j : Nat) : α) * ((b - a) / (n : α))))
        / 3 := by
  have ht : (n : Int).tmod 2 ≠ 1 := by
    rw [Int.tmod_eq_emod (by omega) (by omega)]
    omega
  have hk : ((n : Int) - 1).toNat = n - 1 := by omega
  have h3 : (3.0 : α) = 3 := by norm_num
  simp only [simpsons_rule, ht, if_false, hk, simpsons_loop_eq, Int.cast_natCast, h3]

/-! ## C26: the Simpson rule -/

/-- C26: for every odd `n ≥ 1`, `simpsons_rule(f, a, b, n) = simpsons_rule(f, a, b, n + 1)`,
and for every even `n ≥ 2` the result is `(h/3) * (f(a) + f(b) + sum_{i=1..n-1} w_i f(a + i h))`
with `h = (b - a)/n`, `w_i = 4` for odd `i` and `2` for even `i`. -/
theorem simpsons_rule_forces_even (f : ℝ → ℝ) (a b : ℝ) (n : Nat) (hn : 1 ≤ n) :
    (n % 2 = 1 → simpsons_rule f a b (n : Int) = simpsons_rule f a b ((n : Int) + 1)) ∧
    (n % 2 = 0 → simpsons_rule f a b (n : Int)
      = ((b - a) / (n : ℝ)) / 3 * (f a + f b + ∑ i in Finset.Icc 1 (n - 1),
          (if i % 2 = 1 then 4 else 2) * f (a + (i : ℝ) * ((b - a) / (n : ℝ))))) := by
  constructor
  · intro hodd
    have h1 : (n : Int).tmod 2 = 1 := by
      rw [Int.tmod_eq_emod (by omega) (by omega)]
      omega
    have h2 : ((n : Int) + 1).tmod 2 ≠ 1 := by
      rw [Int.tmod_eq_emod (by omega) (by omega)]
      omega
    simp only [simpsons_rule, h1, h2, if_true, if_false]
  · intro heven
    rw [simpsons_rule_of_even f a b n hn heven]
    have hs : ∑ j in Finset.range (n - 1),
          (if (1 + j) % 2 = 0 then (2 : ℝ) else 4)
            * f (a + ((1 + j : Nat) : ℝ) * ((b - a) / (n : ℝ)))
        = ∑ i in Finset.Icc 1 (n - 1),
          (if i % 2 = 1 then (4 : ℝ) else 2) * f (a + (i : ℝ) * ((b - a) / (n : ℝ))) := by
      have hI : Finset.Icc 1 (n - 1) = Finset.Ico 1 (n - 1 + 1) := by
        ext x
        simp only [Finset.mem_Icc, Finset.mem_Ico]
        omega
      rw [hI, Finset.sum_Ico_eq_sum_range]
      simp only [Nat.add_sub_cancel]
      apply Finset.sum_congr rfl
      intro j _
      rcases Nat.mod_two_eq_zero_or_one (1 + j) with h | h
      · simp [h]
      · simp [h]
    rw [hs]
    ring

/-- Witness for C26: the integrand `x^2` on `[0, 1]`; `n = 3` gives the result of `n = 4`. -/
theorem simpsons_rule_forces_even_witness :
    simpsons_rule (fun x : ℝ => x ^ 2) 0 1 ((3 : Nat) : Int)
      = simpsons_rule (fun x : ℝ => x ^ 2) 0 1 (((3 : Nat) : Int) + 1) :=
  (simpsons_rule_forces_even (fun x : ℝ => x ^ 2) 0 1 3 (by norm_num)).1 (by norm_num)

/-! ## Shared lemmas: the configuration loader -/

/-- Two more uniform draws in front of `n` draws. -/
theorem uniform_draws_two {α : Type} [LinearOrderedField α] (n : Nat) (g : RngState α) :
    (uniform_draws (n + 2) g).1
      = (uniform_random g).1 :: (uniform_random (uniform_random g).2).1
          :: (uniform_draws n (uniform_random (uniform_random g).2).2).1 ∧
    (uniform_draws (n + 2) g).2 = (uniform_draws n (uniform_random (uniform_random g).2).2).2 := by
  simp only [uniform_draws, and_self]

/-- The candidate pair of iteration `j + 1` is the one of iteration `j` two draws later. -/
theorem polar_s_cons_cons {α : Type} [LinearOrderedField α] (a b : α) (l : List α) (j : Nat) :
    polar_u (a :: b :: l) (j + 1) = polar_u l j ∧ polar_v (a :: b :: l) (j + 1) = polar_v l j ∧
    polar_s (a :: b :: l) (j + 1) = polar_s l j := by
  have e1 : 2 * (j + 1) = 2 * j + 1 + 1 := by ring
  have e2 : 2 * (j + 1) + 1 = 2 * j + 1 + 1 + 1 := by ring
  simp only [polar_s, polar_u, polar_v, e1, e2, List.getD_cons_succ, and_self]

/-- Completeness of the rejection loop: when the candidate pairs `0, ..., k - 1` are rejected
and the pair `k` is accepted, more than `k` units of fuel give the result. -/
theorem polar_loop_complete (log sqrt : ℝ → ℝ) (k : Nat) :
    ∀ (g : RngState ℝ) (fuel : Nat), k < fuel →
      (∀ j, j < k → ¬ (0 < polar_s (uniform_draws (2 * k + 2) g).1 j ∧
        polar_s (uniform_draws (2 * k + 2) g).1 j < 1)) →
      0 < polar_s (uniform_draws (2 * k + 2) g).1 k →
      polar_s (uniform_draws (2 * k + 2) g).1 k < 1 →
      polar_loop log sqrt fuel g
        = some (polar_u (uniform_draws (2 * k + 2) g).1 k
              * sqrt (-2 * log (polar_s (uniform_draws (2 * k + 2) g).1 k)
                  / polar_s (uniform_draws (2 * k + 2) g).1 k),
            { lcg_state := (uniform_draws (2 * k + 2) g).2.lcg_state, has_spare := true,
              spare := polar_v (uniform_draws (2 * k + 2) g).1 k
                * sqrt (-2 * log (polar_s (uniform_draws (2 * k + 2) g).1 k)
                    / polar_s (uniform_draws (2 * k + 2) g).1 k) }) := by
  induction k with
  | zero =>
    intro g fuel hf _ h0 h1
    obtain ⟨f, rfl⟩ : ∃ f, fuel = f + 1 := ⟨fuel - 1, by omega⟩
    simp only [Nat.mul_zero, Nat.zero_add] at h0 h1 ⊢
    simp only [uniform_draws, polar_s, polar_u, polar_v, Nat.mul_zero, Nat.zero_add,
      List.getD_cons_zero, List.getD_cons_succ] at h0 h1 ⊢
    have hc : ¬ ((2 * (uniform_random g).1 - 1) * (2 * (uniform_random g).1 - 1)
        + (2 * (uniform_random (uniform_random g).2).1 - 1)
          * (2 * (uniform_random (uniform_random g).2).1 - 1) ≥ 1 ∨
        (2 * (uniform_random g).1 - 1) * (2 * (uniform_random g).1 - 1)
        + (2 * (uniform_random (uniform_random g).2).1 - 1)
          * (2 * (uniform_random (uniform_random g).2).1 - 1) = 0) := by
      rintro (h | h)
      · exact absurd h1 (not_lt.mpr h)
      · exact absurd h h0.ne'
    simp only [polar_loop, hc, if_false]
  | succ k ih =>
    intro g fuel hf hrej h0 h1
    obtain ⟨f, rfl⟩ : ∃ f, fuel = f + 1 := ⟨fuel - 1, by omega⟩
    have e : 2 * (k + 1) + 2 = (2 * k + 2) + 2 := by ring
    rw [e] at hrej h0 h1 ⊢
    obtain ⟨d1, d2⟩ := uniform_draws_two (2 * k + 2) g
    rw [d1] at hrej h0 h1 ⊢
    rw [d2]
    have hr0 := hrej 0 (by omega)
    simp only [(polar_s_cons_cons _ _ _ _).1, (polar_s_cons_cons _ _ _ _).2.1,
      (polar_s_cons_cons _ _ _ _).2.2] at h0 h1 ⊢
    have hc : (2 * (uniform_random g).1 - 1) * (2 * (uniform_random g).1 - 1)
        + (2 * (uniform_random (uniform_random g).2).1 - 1)
          * (2 * (uniform_random (uniform_random g).2).1 - 1) ≥ 1 ∨
        (2 * (uniform_random g).1 - 1) * (2 * (uniform_random g).1 - 1)
        + (2 * (uniform_random (uniform_random g).2).1 - 1)
          * (2 * (uniform_random (uniform_random g).2).1 - 1) = 0 := by
      simp only [polar_s, polar_u, polar_v, Nat.mul_zero, Nat.zero_add, List.getD_cons_zero,
        List.getD_cons_succ] at hr0
      by_contra hcon
      push_neg at hcon
      apply hr0
      exact ⟨lt_of_le_of_ne (add_nonneg (mul_self_nonneg _) (mul_self_nonneg _))
        (Ne.symm hcon.2), hcon.1⟩
    have hstep : polar_loop log sqrt (f + 1) g
        = polar_loop log sqrt f (uniform_random (uniform_random g).2).2 := by
      simp only [polar_loop, hc, if_true]
    rw [hstep]
    apply ih _ f (by omega) _ h0 h1
    intro j hj
    have := hrej (j + 1) (by omega)
    simp only [(polar_s_cons_cons _ _ _ _).2.2] at this
    exact this

/-- Soundness of the rejection loop: when it returns, some candidate pair `k` below the fuel
is accepted and all pairs before it are rejected. -/
theorem polar_loop_sound (log sqrt : ℝ → ℝ) (fuel : Nat) :
    ∀ (g : RngState ℝ) (r : ℝ × RngState ℝ), polar_loop log sqrt fuel g = some r →
      ∃ k, k < fuel ∧
        (∀ j, j < k → ¬ (0 < polar_s (uniform_draws (2 * k + 2) g).1 j ∧
          polar_s (uniform_draws (2 * k + 2) g).1 j < 1)) ∧
        0 < polar_s (uniform_draws (2 * k + 2) g).1 k ∧
        polar_s (uniform_draws (2 * k + 2) g).1 k < 1 := by
  induction fuel with
  | zero =>
    intro g r h
    simp [polar_loop] at h
  | succ f ih =>
    intro g r h
    by_cases hc : (2 * (uniform_random g).1 - 1) * (2 * (uniform_random g).1 - 1)
        + (2 * (uniform_random (uniform_random g).2).1 - 1)
          * (2 * (uniform_random (uniform_random g).2).1 - 1) ≥ 1 ∨
        (2 * (uniform_random g).1 - 1) * (2 * (uniform_random g).1 - 1)
        + (2 * (uniform_random (uniform_random g).2).1 - 1)
          * (2 * (uniform_random (uniform_random g).2).1 - 1) = 0
    · have hstep : polar_loop log sqrt (f + 1) g
          = polar_loop log sqrt f (uniform_random (uniform_random g).2).2 := by
        simp only [polar_loop, hc, if_true]
      rw [hstep] at h
      obtain ⟨k, hk, hrej, h0, h1⟩ := ih _ r h
      refine ⟨k + 1, by omega, ?_, ?_, ?_⟩
      · intro j hj
        have e : 2 * (k + 1) + 2 = (2 * k + 2) + 2 := by ring
        rw [e, (uniform_draws_two (2 * k + 2) g).1]
        cases j with
        | zero =>
          simp only [polar_s, polar_u, polar_v, Nat.mul_zero, Nat.zero_add,
            List.getD_cons_zero, List.getD_cons_succ]
          rintro ⟨a, b⟩
          rcases hc with h | h
          · exact absurd b (not_lt.mpr h)
          · exact absurd h a.ne'
        | succ j =>
          rw [(polar_s_cons_cons _ _ _ _).2.2]
          exact hrej j (by omega)
      · have e : 2 * (k + 1) + 2 = (2 * k + 2) + 2 := by ring
        rw [e, (uniform_draws_two (2 * k + 2) g).1, (polar_s_cons_cons _ _ _ _).2.2]
        exact h0
      · have e : 2 * (k + 1) + 2 = (2 * k + 2) + 2 := by ring
        rw [e, (uniform_draws_two (2 * k + 2) g).1, (polar_s_cons_cons _ _ _ _).2.2]
        exact h1
    · refine ⟨0, by omega, fun j hj => absurd hj (Nat.not_lt_zero j), ?_, ?_⟩
      · simp only [uniform_draws, polar_s, polar_u, polar_v, Nat.mul_zero, Nat.zero_add,
          List.getD_cons_zero, List.getD_cons_succ]
        push_neg at hc
        exact lt_of_le_of_ne (add_nonneg (mul_self_nonneg _) (mul_self_nonneg _))
          (Ne.symm hc.2)
      · simp only [uniform_draws, polar_s, polar_u, polar_v, Nat.mul_zero, Nat.zero_add,
          List.getD_cons_zero, List.getD_cons_succ]
        push_neg at hc
        exact hc.1

/-! ## C28: Box-Muller polar method with spare caching -/

/-- C28: from a state without a cached spare, `normal_random` forms the candidate pairs
`u = 2 U - 1`, `v = 2 U - 1` from the successive outputs `us` of `uniform_random`; when the
pairs `0, ..., k - 1` are rejected and the pair `k` satisfies `0 < s < 1` it returns
`u * sqrt(-2 ln(s)/s)` and caches `v * sqrt(-2 ln(s)/s)` (for every fuel above `k`), and the
next call returns exactly the cached value, clears the cache and leaves the LCG state
unchanged.  Conversely every value `normal_random` returns arises in this way. -/
theorem box_muller_spare_caching (g : RngState ℝ) (hg : g.has_spare = false) :
    (∀ (k fuel : Nat) (us : List ℝ), us = (uniform_draws (2 * k + 2) g).1 → k < fuel →
      (∀ j, j < k → ¬ (0 < polar_s us j ∧ polar_s us j < 1)) →
      0 < polar_s us k → polar_s us k < 1 →
      normal_random Real.log Real.sqrt fuel g
        = some (polar_u us k * Real.sqrt (-2 * Real.log (polar_s us k) / polar_s us k),
            { lcg_state := (uniform_draws (2 * k + 2) g).2.lcg_state, has_spare := true,
              spare := polar_v us k
                * Real.sqrt (-2 * Real.log (polar_s us k) / polar_s us k) }) ∧
      ∀ fuel2 : Nat, normal_random Real.log Real.sqrt fuel2
          { lcg_state := (uniform_draws (2 * k + 2) g).2.lcg_state, has_spare := true,
            spare := polar_v us k
              * Real.sqrt (-2 * Real.log (polar_s us k) / polar_s us k) }
        = some (polar_v us k * Real.sqrt (-2 * Real.log (polar_s us k) / polar_s us k),
            { lcg_state := (uniform_draws (2 * k + 2) g).2.lcg_state, has_spare := false,
              spare := polar_v us k
                * Real.sqrt (-2 * Real.log (polar_s us k) / polar_s us k) })) ∧
    (∀ (fuel : Nat) (r : ℝ × RngState ℝ), normal_random Real.log Real.sqrt fuel g = some r →
      ∃ (k : Nat) (us : List ℝ), us = (uniform_draws (2 * k + 2) g).1 ∧ k < fuel ∧
        (∀ j, j < k → ¬ (0 < polar_s us j ∧ polar_s us j < 1)) ∧
        0 < polar_s us k ∧ polar_s us k < 1 ∧
        r = (polar_u us k * Real.sqrt (-2 * Real.log (polar_s us k) / polar_s us k),
            { lcg_state := (uniform_draws (2 * k + 2) g).2.lcg_state, has_spare := true,
              spare := polar_v us k
                * Real.sqrt (-2 * Real.log (polar_s us k) / polar_s us k) })) := by
  have hn : ∀ fuel, normal_random Real.log Real.sqrt fuel g
      = polar_loop Real.log Real.sqrt fuel g := by
    intro fuel
    simp [normal_random, hg]
  constructor
  · intro k fuel us hus hk hrej h0 h1
    subst hus
    constructor
    · rw [hn]
      exact polar_loop_complete Real.log Real.sqrt k g fuel hk hrej h0 h1
    · intro fuel2
      simp [normal_random]
  · intro fuel r h
    rw [hn] at h
    obtain ⟨k, hk, hrej, h0, h1⟩ := polar_loop_sound Real.log Real.sqrt fuel g r h
    refine ⟨k, _, rfl, hk, hrej, h0, h1, ?_⟩
    have h2 := polar_loop_complete Real.log Real.sqrt k g fuel hk hrej h0 h1
    rw [h] at h2
    exact Option.some.inj h2

/-- Witness for C28: after `seed_random(42)` the first candidate pair is accepted; the first
call returns `u * m`, the second call returns the cached `v * m` with the LCG state of the
first. -/
theorem box_muller_spare_caching_witness :
    ∃ (z1 z2 : ℝ) (s : Nat),
      normal_random Real.log Real.sqrt 1 (seed_random 42 RngState.initial)
        = some (z1, { lcg_state := s, has_spare := true, spare := z2 }) ∧
      normal_random Real.log Real.sqrt 1 { lcg_state := s, has_spare := true, spare := z2 }
        = some (z2, { lcg_state := s, has_spare := false, spare := z2 }) := by
  have hus : (uniform_draws (2 * 0 + 2) (seed_random 42 (RngState.initial : RngState ℝ))).1
      = [1250496027 / 2147483647, 1116302264 / 2147483647] := by
    simp only [uniform_draws, uniform_random_seed42, uniform_random_seed42_next]
  have h := (box_muller_spare_caching (seed_random 42 RngState.initial) rfl).1 0 1 _ rfl
    (by norm_num) (fun j hj => absurd hj (Nat.not_lt_zero j))
    (by rw [hus]; simp only [polar_s, polar_u, polar_v, List.getD_cons_zero,
      List.getD_cons_succ]; norm_num)
    (by rw [hus]; simp only [polar_s, polar_u, polar_v, List.getD_cons_zero,
      List.getD_cons_succ]; norm_num)
  exact ⟨_, _, _, h.1, h.2 1⟩

/-! ## Shared lemmas: GBM paths -/

/-- The path loop writes the entries `i, ..., i + k - 1`, each from its predecessor and the
next normal draw, and leaves every other entry alone. -/
theorem gbm_path_loop_spec {α σ : Type} [LinearOrderedField α] (exp : α → α)
    (normal : σ → Option (α × σ)) (mu sigma dt sqrt_dt : α) (k : Nat) :
    ∀ (i : Nat) (path : List α) (g : σ) (zs : List α) (g' : σ),
      opt_draws normal k g = some (zs, g') → 1 ≤ i → i + k ≤ path.length →
      ∃ out, gbm_path_loop exp normal mu sigma dt sqrt_dt k i path g = some (out, g') ∧
        out.length = path.length ∧ zs.length = k ∧
        (∀ t, (t < i ∨ i + k ≤ t) → out[t]? = path[t]?) ∧
        (∀ j, j < k → out[i + j]?
          = some (out.getD (i + j - 1) 0
              * exp ((mu - 0.5 * sigma * sigma) * dt + sigma * (sqrt_dt * zs.getD j 0)))) := by
  induction k with
  | zero =>
    intro i path g zs g' hz _ _
    simp only [opt_draws, Option.some.injEq, Prod.mk.injEq] at hz
    obtain ⟨hz1, hz2⟩ := hz
    subst hz1 hz2
    exact ⟨path, rfl, rfl, rfl, fun _ _ => rfl, fun j hj => absurd hj (Nat.not_lt_zero j)⟩
  | succ k ih =>
    intro i path g zs g' hz hi hlen
    simp only [opt_draws] at hz
    cases hr : normal g with
    | none => simp [hr] at hz
    | some r =>
      simp only [hr] at hz
      cases hrest : opt_draws normal k r.2 with
      | none => simp [hrest] at hz
      | some rest =>
        simp only [hrest, Option.some.injEq, Prod.mk.injEq] at hz
        obtain ⟨hz1, hz2⟩ := hz
        subst hz1 hz2
        obtain ⟨out, ho, hl, hzl, hu, hv⟩ := ih (i + 1)
          (path.set i (path.getD (i - 1) 0
            * exp ((mu - 0.5 * sigma * sigma) * dt + sigma * (sqrt_dt * r.1))))
          r.2 rest.1 rest.2 hrest (by omega) (by rw [List.length_set]; omega)
        rw [List.length_set] at hl
        have hprev : out.getD (i - 1) 0 = path.getD (i - 1) 0 := by
          rw [List.getD_eq_getElem?_getD, List.getD_eq_getElem?_getD,
            hu (i - 1) (Or.inl (by omega)), List.getElem?_set_ne (by omega)]
        refine ⟨out, ?_, hl, by simp only [List.length_cons, hzl], ?_, ?_⟩
        · simp only [gbm_path_loop, hr, ho]
        · intro t ht
          rw [hu t (by omega), List.getElem?_set_ne (by omega)]
        · intro j hj
          cases j with
          | zero =>
            simp only [Nat.add_zero, List.getD_cons_zero]
            rw [hu i (Or.inl (by omega)), List.getElem?_set_self (by omega), hprev]
          | succ j =>
            have h := hv j (by omega)
            have e1 : i + (j + 1) = i + 1 + j := by omega
            simp only [List.getD_cons_succ]
            rw [e1]
            exact h

/-- Closed form of a path that starts at `S0` and obeys the recurrence of the path loop. -/
theorem gbm_path_closed_form (S0 mu sigma dt sd : ℝ) (hS : 0 < S0) (out zs : List ℝ)
    (steps : Nat) (h0 : out[0]? = some S0)
    (hrec : ∀ j, j < steps → out[1 + j]?
      = some (out.getD (1 + j - 1) 0
          * Real.exp ((mu - 0.5 * sigma * sigma) * dt + sigma * (sd * zs.getD j 0)))) :
    ∀ k, k ≤ steps →
      out.getD k 0 = S0 * Real.exp ((k : ℝ) * (mu - sigma ^ 2 / 2) * dt
        + sigma * sd * (zs.take k).sum) ∧ 0 < out.getD k 0 := by
  have hsum : ∀ k : Nat, (zs.take (k + 1)).sum = (zs.take k).sum + zs.getD k 0 := by
    intro k
    rw [List.getD_eq_getElem?_getD]
    by_cases hk : k < zs.length
    · rw [List.take_succ, List.sum_append, List.getElem?_eq_getElem hk]
      simp
    · rw [List.take_of_length_le (by omega), List.take_of_length_le (by omega),
        List.getElem?_eq_none (by omega)]
      simp
  intro k
  induction k with
  | zero =>
    intro _
    rw [List.getD_eq_getElem?_getD, h0]
    simp [hS]
  | succ k ih =>
    intro hk
    obtain ⟨e, hp⟩ := ih (by omega)
    have h := hrec k (by omega)
    have e1 : 1 + k = k + 1 := by omega
    rw [e1] at h
    simp only [Nat.add_sub_cancel] at h
    have hval : out.getD (k + 1) 0 = out.getD k 0
        * Real.exp ((mu - 0.5 * sigma * sigma) * dt + sigma * (sd * zs.getD k 0)) := by
      rw [List.getD_eq_getElem?_getD, h]
      rfl
    constructor
    · rw [hval, e, mul_assoc, ← Real.exp_add, hsum]
      congr 2
      push_cast
      ring
    · rw [hval]
      exact mul_pos hp (Real.exp_pos _)

/-- Everything the path loop guarantees, for a generator that produces the draws `zs`. -/
theorem gbm_path_facts {σ : Type} (normal : σ → Option (ℝ × σ)) (S0 T mu sigma : ℝ)
    (hS : 0 < S0) (steps : Nat) (path : List ℝ) (g g' : σ) (zs : List ℝ)
    (hlen : steps + 1 ≤ path.length) (hz : opt_draws normal steps g = some (zs, g')) :
    ∃ out, gbm_path_loop Real.exp normal mu sigma (T / (steps : ℝ))
        (Real.sqrt (T / (steps : ℝ))) steps 1 (path.set 0 S0) g = some (out, g') ∧
      out.length = path.length ∧ zs.length = steps ∧ out[0]? = some S0 ∧
      (∀ i, 1 ≤ i → i ≤ steps →
        out.getD i 0 = out.getD (i - 1) 0
          * Real.exp ((mu - sigma ^ 2 / 2) * (T / (steps : ℝ))
              + sigma * Real.sqrt (T / (steps : ℝ)) * zs.getD (i - 1) 0)) ∧
      (∀ k, k ≤ steps →
        out.getD k 0 = S0 * Real.exp ((k : ℝ) * (mu - sigma ^ 2 / 2) * (T / (steps : ℝ))
            + sigma * Real.sqrt (T / (steps : ℝ)) * (zs.take k).sum) ∧
        0 < out.getD k 0) ∧
      (∀ t, steps < t → out[t]? = path[t]?) ∧
      (steps = 1 →
        out.getD 1 0 = gbm_terminal_price Real.exp Real.sqrt S0 T mu sigma (zs.getD 0 0)) := by
  obtain ⟨out, ho, hl, hzl, hu, hv⟩ := gbm_path_loop_spec Real.exp normal mu sigma
    (T / (steps : ℝ)) (Real.sqrt (T / (steps : ℝ))) steps 1 (path.set 0 S0) g zs g' hz le_rfl
    (by rw [List.length_set]; omega)
  rw [List.length_set] at hl
  have h0 : out[0]? = some S0 := by
    rw [hu 0 (Or.inl (by omega)), List.getElem?_set_self (by omega)]
  have hrec : ∀ i, 1 ≤ i → i ≤ steps →
      out.getD i 0 = out.getD (i - 1) 0
        * Real.exp ((mu - sigma ^ 2 / 2) * (T / (steps : ℝ))
            + sigma * Real.sqrt (T / (steps : ℝ)) * zs.getD (i - 1) 0) := by
    intro i hi1 hi2
    have h := hv (i - 1) (by omega)
    have e : 1 + (i - 1) = i := by omega
    rw [e] at h
    rw [List.getD_eq_getElem?_getD, h]
    simp only [Option.getD_some]
    congr 2
    ring
  have hclosed := gbm_path_closed_form S0 mu sigma (T / (steps : ℝ))
    (Real.sqrt (T / (steps : ℝ))) hS out zs steps h0 hv
  refine ⟨out, ho, hl, hzl, h0, hrec, hclosed, ?_, ?_⟩
  · intro t ht
    rw [hu t (Or.inr (by omega)), List.getElem?_set_ne (by omega)]
  · intro h1
    subst h1
    have h := hrec 1 le_rfl le_rfl
    have h00 : out.getD 0 0 = S0 := by
      rw [List.getD_eq_getElem?_getD, h0]
      rfl
    rw [h, h00]
    simp only [gbm_terminal_price, Nat.cast_one, div_one, Nat.sub_self]
    congr 2
    ring

/-! ## C29: GBM paths -/

/-- C29: for `steps ≥ 1`, `S0 > 0` and normal draws `zs = Z_1, ..., Z_steps`,
`simulate_gbm_path` returns (whenever the draws are produced) a path with `path[0] = S0` and
`path[i] = path[i-1] * exp((mu - sigma^2/2) dt + sigma sqrt(dt) Z_i)` for `1 ≤ i ≤ steps`,
`dt = T/steps`, the entries after `steps` being left alone; hence
`path[k] = S0 * exp(k (mu - sigma^2/2) dt + sigma sqrt(dt) (Z_1 + ... + Z_k))`, every path
value is positive, and with `steps = 1` the last value is the closed-form terminal price.
The C++ `simulate_path` returns a vector of length `steps + 1` with the same values. -/
theorem gbm_path_values (fuel : Nat) (S0 T mu sigma : ℝ) (steps : Nat) (_hsteps : 1 ≤ steps)
    (hS : 0 < S0) :
    (∀ (path : List ℝ) (g g' : RngState ℝ) (zs : List ℝ), steps + 1 ≤ path.length →
      normal_draws Real.log Real.sqrt fuel steps g = some (zs, g') →
      ∃ out, simulate_gbm_path Real.exp Real.log Real.sqrt fuel S0 T steps mu sigma path g
          = some (out, g') ∧
        out.length = path.length ∧ zs.length = steps ∧ out[0]? = some S0 ∧
        (∀ i, 1 ≤ i → i ≤ steps →
          out.getD i 0 = out.getD (i - 1) 0
            * Real.exp ((mu - sigma ^ 2 / 2) * (T / (steps : ℝ))
                + sigma * Real.sqrt (T / (steps : ℝ)) * zs.getD (i - 1) 0)) ∧
        (∀ k, k ≤ steps →
          out.getD k 0 = S0 * Real.exp ((k : ℝ) * (mu - sigma ^ 2 / 2) * (T / (steps : ℝ))
              + sigma * Real.sqrt (T / (steps : ℝ)) * (zs.take k).sum) ∧
          0 < out.getD k 0) ∧
        (∀ t, steps < t → out[t]? = path[t]?) ∧
        (steps = 1 →
          out.getD 1 0 = gbm_terminal_price Real.exp Real.sqrt S0 T mu sigma (zs.getD 0 0) ∧
          out.getD 1 0 = S0 * Real.exp ((mu - sigma ^ 2 / 2) * T
            + sigma * Real.sqrt T * zs.getD 0 0))) ∧
    (∀ (σ : Type) (normal : σ → ℝ × σ) (g0 : σ),
      ∃ out, GBMSimulator.simulate_path Real.exp Real.sqrt normal mu sigma S0 T steps g0
          = some (out, (draw_list normal steps g0).2) ∧
        out.length = steps + 1 ∧ out[0]? = some S0 ∧
        (∀ i, 1 ≤ i → i ≤ steps →
          out.getD i 0 = out.getD (i - 1) 0
            * Real.exp ((mu - sigma ^ 2 / 2) * (T / (steps : ℝ))
                + sigma * Real.sqrt (T / (steps : ℝ))
                  * (draw_list normal steps g0).1.getD (i - 1) 0)) ∧
        (∀ k, k ≤ steps →
          out.getD k 0 = S0 * Real.exp ((k : ℝ) * (mu - sigma ^ 2 / 2) * (T / (steps : ℝ))
              + sigma * Real.sqrt (T / (steps : ℝ))
                * ((draw_list normal steps g0).1.take k).sum) ∧
          0 < out.getD k 0)) := by
  have hterm : ∀ z : ℝ, gbm_terminal_price Real.exp Real.sqrt S0 T mu sigma z
      = S0 * Real.exp ((mu - sigma ^ 2 / 2) * T + sigma * Real.sqrt T * z) := by
    intro z
    simp only [gbm_terminal_price]
    congr 2
    ring
  constructor
  · intro path g g' zs hlen hz
    rw [normal_draws_eq_opt_draws] at hz
    obtain ⟨out, ho, hl, hzl, h0, hrec, hclosed, hrest, hone⟩ := gbm_path_facts
      (normal_random Real.log Real.sqrt fuel) S0 T mu sigma hS steps path g g' zs hlen hz
    refine ⟨out, ?_, hl, hzl, h0, hrec, hclosed, hrest, ?_⟩
    · simp only [simulate_gbm_path]
      exact ho
    · intro h1
      exact ⟨hone h1, by rw [hone h1, hterm]⟩
  · intro σ normal g0
    have hz := opt_draws_total normal steps g0
    obtain ⟨out, ho, hl, _, h0, hrec, hclosed, _, _⟩ := gbm_path_facts
      (fun st => some (normal st)) S0 T mu sigma hS steps (List.replicate (steps + 1) 0) g0
      (draw_list normal steps g0).2 (draw_list normal steps g0).1
      (by simp only [List.length_replicate]; omega) hz
    refine ⟨out, ?_, by rw [hl]; simp, h0, hrec, hclosed⟩
    simp only [GBMSimulator.simulate_path]
    exact ho

/-- Witness for C29: two steps after `seed_random(42)`; the three path values are positive
and the last one is `S0 * exp(2 (mu - sigma^2/2) dt + sigma sqrt(dt) (Z_1 + Z_2))`. -/
theorem gbm_path_values_witness :
    ∃ (z1 z2 : ℝ) (out : List ℝ) (g' : RngState ℝ),
      simulate_gbm_path Real.exp Real.log Real.sqrt 1 100 0.01 2 0.05 0.2 [0, 0, 0]
        (seed_random 42 RngState.initial) = some (out, g') ∧
      out.length = 3 ∧ out[0]? = some 100 ∧ 0 < out.getD 1 0 ∧
      out.getD 2 0 = 100 * Real.exp (((2 : Nat) : ℝ) * (0.05 - 0.2 ^ 2 / 2)
          * (0.01 / ((2 : Nat) : ℝ))
        + 0.2 * Real.sqrt (0.01 / ((2 : Nat) : ℝ)) * ([z1, z2].take 2).sum) := by
  obtain ⟨z1, z2, g2, hd⟩ := normal_draws_seed42 (RngState.initial : RngState ℝ) rfl
  obtain ⟨out, ho, hl, _, h0, _, hclosed, _, _⟩ :=
    (gbm_path_values 1 100 0.01 0.05 0.2 2 (by norm_num) (by norm_num)).1 [0, 0, 0]
      (seed_random 42 RngState.initial) g2 [z1, z2] (by simp) hd
  exact ⟨z1, z2, out, g2, ho, hl, h0, (hclosed 1 (by norm_num)).2, (hclosed 2 le_rfl).1⟩

/-! ## C30: antithetic sampling with an odd count -/

/-- C30: for odd `n`, `monte_carlo_antithetic` uses `floor(n/2)` normal draws and writes the
`2 * floor(n/2) = n - 1` entries at the indices `0, ..., n - 2` (the price of `Z_t` at
`t < n/2`, the price of `-Z_(t - n/2)` at `n/2 ≤ t < n - 1`); the entry at index `n - 1` is
never written, and it is `0.0` in the vector of length `n` returned by the C++
`simulate_antithetic`. -/
theorem antithetic_odd_count (fuel : Nat) (S0 T mu sigma : ℝ) (n : Nat) (hodd : n % 2 = 1) :
    2 * (n / 2) = n - 1 ∧
    (∀ (prices : List ℝ) (g g' : RngState ℝ) (zs : List ℝ), prices.length = n →
      normal_draws Real.log Real.sqrt fuel (n / 2) g = some (zs, g') →
      ∃ out, monte_carlo_antithetic Real.exp Real.log Real.sqrt fuel S0 T mu sigma n prices g
          = some (out, g') ∧
        out.length = n ∧ zs.length = n / 2 ∧
        (∀ t, t < n - 1 →
          out[t]? = some (gbm_terminal_price Real.exp Real.sqrt S0 T mu sigma
            (if t < n / 2 then zs.getD t 0 else -(zs.getD (t - n / 2) 0)))) ∧
        out[n - 1]? = prices[n - 1]?) ∧
    (∀ (σ : Type) (normal : σ → ℝ × σ) (g0 : σ),
      ∃ out, MonteCarloEngine.simulate_antithetic Real.exp Real.sqrt normal mu sigma S0 T n g0
          = some (out, (draw_list normal (n / 2) g0).2) ∧
        out.length = n ∧
        (∀ t, t < n - 1 →
          out[t]? = some (gbm_terminal_price Real.exp Real.sqrt S0 T mu sigma
            (if t < n / 2 then (draw_list normal (n / 2) g0).1.getD t 0
              else -((draw_list normal (n / 2) g0).1.getD (t - n / 2) 0)))) ∧
        out[n - 1]? = some 0) := by
  have hfill : ∀ (out zs : List ℝ),
      (∀ j, j < n / 2 →
        out[0 + j]? = some (gbm_terminal_price Real.exp Real.sqrt S0 T mu sigma (zs.getD j 0)) ∧
        out[n / 2 + 0 + j]?
          = some (gbm_terminal_price Real.exp Real.sqrt S0 T mu sigma (-(zs.getD j 0)))) →
      ∀ t, t < n - 1 →
        out[t]? = some (gbm_terminal_price Real.exp Real.sqrt S0 T mu sigma
          (if t < n / 2 then zs.getD t 0 else -(zs.getD (t - n / 2) 0))) := by
    intro out zs hv t ht
    by_cases h : t < n / 2
    · rw [if_pos h]
      have := (hv t h).1
      rw [Nat.zero_add] at this
      exact this
    · rw [if_neg h]
      have := (hv (t - n / 2) (by omega)).2
      have e : n / 2 + 0 + (t - n / 2) = t := by omega
      rw [e] at this
      exact this
  refine ⟨by omega, ?_, ?_⟩
  · intro prices g g' zs hlen hz
    rw [normal_draws_eq_opt_draws] at hz
    obtain ⟨out, ho, hl, hzl, hv, hu⟩ := antithetic_loop_spec Real.exp Real.sqrt
      (normal_random Real.log Real.sqrt fuel) S0 T mu sigma (n / 2) (n / 2) 0 prices g zs g' hz
      (by omega) (by omega)
    exact ⟨out, ho, by rw [hl, hlen], hzl, hfill out zs hv,
      hu (n - 1) (Or.inr (Or.inr (by omega)))⟩
  · intro σ normal g0
    have hz := opt_draws_total normal (n / 2) g0
    obtain ⟨out, ho, hl, _, hv, hu⟩ := antithetic_loop_spec Real.exp Real.sqrt
      (fun st => some (normal st)) S0 T mu sigma (n / 2) (n / 2) 0 (List.replicate n 0) g0
      (draw_list normal (n / 2) g0).1 (draw_list normal (n / 2) g0).2 hz
      (by omega) (by simp only [List.length_replicate]; omega)
    refine ⟨out, ho, by rw [hl]; simp, hfill out _ hv, ?_⟩
    rw [hu (n - 1) (Or.inr (Or.inr (by omega))), List.getElem?_replicate_of_lt (by omega)]

/-- Witness for C30: `n = 5` after `seed_random(42)` on a buffer filled with 7; two draws are
used, the entries 0 to 3 are written and the entry 4 still holds 7. -/
theorem antithetic_odd_count_witness :
    ∃ (z1 z2 : ℝ) (out : List ℝ) (g' : RngState ℝ),
      monte_carlo_antithetic Real.exp Real.log Real.sqrt 1 100 0.01 0.05 0.2 5 [7, 7, 7, 7, 7]
        (seed_random 42 RngState.initial) = some (out, g') ∧
      out.length = 5 ∧
      out[0]? = some (gbm_terminal_price Real.exp Real.sqrt 100 0.01 0.05 0.2 z1) ∧
      out[3]? = some (gbm_terminal_price Real.exp Real.sqrt 100 0.01 0.05 0.2 (-z2)) ∧
      out[4]? = some 7 := by
  obtain ⟨z1, z2, g2, hd⟩ := normal_draws_seed42 (RngState.initial : RngState ℝ) rfl
  obtain ⟨out, ho, hl, _, hv, hu⟩ := (antithetic_odd_count 1 100 0.01 0.05 0.2 5 rfl).2.1
    [7, 7, 7, 7, 7] (seed_random 42 RngState.initial) g2 [z1, z2] rfl hd
  refine ⟨z1, z2, out, g2, ho, hl, ?_, ?_, ?_⟩
  · have h := hv 0 (by norm_num)
    simpa using h
  · have h := hv 3 (by norm_num)
    simpa using h
  · rw [show (4 : Nat) = 5 - 1 by norm_num, hu]
    rfl

/-! ## Shared lemmas: range of the stratified uniforms -/

/-- Every entry of a list of uniform draws lies between 0 and 1. -/
theorem uniform_draws_getD_mem (n : Nat) :
    ∀ (g : RngState ℝ) (j : Nat),
      0 ≤ (uniform_draws n g).1.getD j 0 ∧ (uniform_draws n g).1.getD j 0 ≤ 1 := by
  induction n with
  | zero =>
    intro g j
    simp [uniform_draws]
  | succ n ih =>
    intro g j
    cases j with
    | zero =>
      simp only [uniform_draws, List.getD_cons_zero]
      exact uniform_random_mem_Icc g
    | succ j =>
      simp only [uniform_draws, List.getD_cons_succ]
      exact ih _ j

/-- The uniform of stratum `s` is `(s + U) / n_strata`. -/
theorem stratum_u_eq (s n_strata : Nat) (hn : 1 ≤ n_strata) (U : ℝ) :
    stratum_u s n_strata U = ((s : ℝ) + U) / (n_strata : ℝ) := by
  have h : (0 : ℝ) < (n_strata : ℝ) := by exact_mod_cast hn
  simp only [stratum_u]
  push_cast
  field_simp

/-- For `0 ≤ U ≤ 1` the uniform of stratum `s < n_strata` lies in `[0, 1]`, and it is
positive in every stratum but the first. -/
theorem stratum_u_bounds (s n_strata : Nat) (hs : s < n_strata) (U : ℝ) (h0 : 0 ≤ U)
    (h1 : U ≤ 1) :
    0 ≤ stratum_u s n_strata U ∧ stratum_u s n_strata U ≤ 1 ∧
    (1 ≤ s → 0 < stratum_u s n_strata U) := by
  have hn : 1 ≤ n_strata := by omega
  have h : (0 : ℝ) < (n_strata : ℝ) := by exact_mod_cast hn
  have hs0 : (0 : ℝ) ≤ (s : ℝ) := Nat.cast_nonneg s
  have hs1 : (s : ℝ) + 1 ≤ (n_strata : ℝ) := by exact_mod_cast hs
  rw [stratum_u_eq s n_strata hn U]
  refine ⟨div_nonneg (by linarith) h.le, ?_, ?_⟩
  · rw [div_le_one h]
    linarith
  · intro h1s
    have : (1 : ℝ) ≤ (s : ℝ) := by exact_mod_cast h1s
    exact div_pos (by linarith) h

/-- The price written for a quantile argument `u`: positive and finite for `0 < u < 1`,
`0` for `u = 0` and `+inf` for `u = 1`. -/
theorem gbm_price_of_quantile_cases (S0 T mu sigma u : ℝ) (hS : 0 < S0) (hsigma : 0 < sigma)
    (hT : 0 < T) :
    (0 < u → u < 1 → ∃ x : ℝ, 0 < x ∧
      gbm_price_of_quantile Real.exp Real.sqrt S0 T mu sigma
        (normal_quantile Real.log Real.sqrt u) = Dbl.fin x) ∧
    (u = 0 → gbm_price_of_quantile Real.exp Real.sqrt S0 T mu sigma
        (normal_quantile Real.log Real.sqrt u) = Dbl.fin 0) ∧
    (u = 1 → gbm_price_of_quantile Real.exp Real.sqrt S0 T mu sigma
        (normal_quantile Real.log Real.sqrt u) = Dbl.posInf) := by
  refine ⟨?_, ?_, ?_⟩
  · intro h0 h1
    have c1 : ¬ u ≤ 0 := not_le.mpr h0
    have c2 : ¬ u ≥ 1 := not_le.mpr h1
    simp only [normal_quantile, c1, c2, if_false]
    split_ifs <;> exact ⟨_, mul_pos hS (Real.exp_pos _), rfl⟩
  · intro h0
    have hb : 0 < sigma * Real.sqrt T := mul_pos hsigma (Real.sqrt_pos.mpr hT)
    subst h0
    simp only [normal_quantile, le_refl, if_true, gbm_price_of_quantile, Dbl.scale, hb,
      Dbl.shift, Dbl.exp, mul_zero]
  · intro h1
    have hb : 0 < sigma * Real.sqrt T := mul_pos hsigma (Real.sqrt_pos.mpr hT)
    have c1 : ¬ (1 : ℝ) ≤ 0 := by norm_num
    subst h1
    simp only [normal_quantile, c1, ge_iff_le, le_refl, if_true, if_false,
      gbm_price_of_quantile, Dbl.scale, hb, hS, Dbl.shift, Dbl.exp]

/-- After `seed_random(2088216195)` the first output of `uniform_random` is exactly 0. -/
theorem uniform_random_zero_seed (g : RngState ℝ) :
    (uniform_random (seed_random 2088216195 g)).1 = 0 := by
  rw [uniform_random_low_bits]
  have h : lcg_step (seed_random 2088216195 g).lcg_state % 2 ^ 31 = 0 := by
    simp only [seed_random, lcg_step, UINT_RANGE, ULONG_RANGE]
    norm_num
  rw [h]
  simp

/-- The first of a positive number of uniform draws is the output of `uniform_random`. -/
theorem uniform_draws_getD_zero (n : Nat) (hn : 0 < n) (g : RngState ℝ) :
    (uniform_draws n g).1.getD 0 0 = (uniform_random g).1 := by
  obtain ⟨m, rfl⟩ : ∃ m, n = m + 1 := ⟨n - 1, by omega⟩
  simp only [uniform_draws, List.getD_cons_zero]

/-! ## C31: the quantile at the boundary of its domain -/

/-- C31 (as stated, refuted): after `seed_random(2088216195)` the first output of
`uniform_random` is 0, so in stratum 0 (of 10, with 100 samples and the default market
parameters) `u = 0`, `normal_quantile(u)` is `-inf` and the price written to `prices[0]` is
0, not strictly positive.  The other boundary is reached through the output 1 of
`uniform_random`: after `seed_random(230538014)`, with a single stratum, `u = 1` and the
price written is `+inf`. -/
theorem stratified_quantile_at_zero :
    stratum_u 0 10
        (uniform_random (seed_random 2088216195 (RngState.initial : RngState ℝ))).1 = 0 ∧
    normal_quantile Real.log Real.sqrt (stratum_u 0 10
        (uniform_random (seed_random 2088216195 (RngState.initial : RngState ℝ))).1)
      = Dbl.negInf ∧
    (monte_carlo_stratified Real.exp Real.log Real.sqrt 44000 (207 / 98280) 0.05 0.15 100 10
        (List.replicate 100 (Dbl.fin 1)) (seed_random 2088216195 RngState.initial)).1[0]?
      = some (Dbl.fin 0) ∧
    stratum_u 0 1
        (uniform_random (seed_random 230538014 (RngState.initial : RngState ℝ))).1 = 1 ∧
    (monte_carlo_stratified Real.exp Real.log Real.sqrt 44000 (207 / 98280) 0.05 0.15 1 1
        [Dbl.fin 1] (seed_random 230538014 RngState.initial)).1[0]?
      = some Dbl.posInf := by
  have hU := uniform_random_zero_seed (RngState.initial : RngState ℝ)
  have hV : (uniform_random (seed_random 230538014 (RngState.initial : RngState ℝ))).1 = 1 := by
    rw [uniform_random_low_bits]
    have h : lcg_step (seed_random 230538014 (RngState.initial : RngState ℝ)).lcg_state % 2 ^ 31
        = 2 ^ 31 - 1 := by
      simp only [seed_random, lcg_step, UINT_RANGE, ULONG_RANGE, RngState.initial]
      norm_num
    rw [h]
    have hpos : ((2 ^ 31 - 1 : Nat) : ℝ) ≠ 0 := by norm_num
    exact div_self hpos
  have hv : stratum_u 0 1
      (uniform_random (seed_random 230538014 (RngState.initial : RngState ℝ))).1 = 1 := by
    rw [hV]
    simp only [stratum_u]
    norm_num
  have hu : stratum_u 0 10
      (uniform_random (seed_random 2088216195 (RngState.initial : RngState ℝ))).1 = 0 := by
    rw [hU]
    simp only [stratum_u]
    norm_num
  refine ⟨hu, ?_, ?_, hv, ?_⟩
  · rw [hu]
    simp only [normal_quantile, le_refl, if_true]
  · have h := (monte_carlo_stratified_spec Real.exp Real.log Real.sqrt 44000 (207 / 98280) 0.05
      0.15 100 10 (List.replicate 100 (Dbl.fin 1)) (by simp)
      (seed_random 2088216195 RngState.initial)).2.2.1 0 (by norm_num)
    rw [h, uniform_draws_getD_zero _ (by norm_num), Nat.zero_div, hu]
    exact congrArg some ((gbm_price_of_quantile_cases 44000 (207 / 98280) 0.05 0.15 0
      (by norm_num) (by norm_num) (by norm_num)).2.1 rfl)
  · have h := (monte_carlo_stratified_spec Real.exp Real.log Real.sqrt 44000 (207 / 98280) 0.05
      0.15 1 1 [Dbl.fin 1] (by simp)
      (seed_random 230538014 RngState.initial)).2.2.1 0 (by norm_num)
    rw [h, uniform_draws_getD_zero _ (by norm_num), Nat.zero_div, hv]
    exact congrArg some ((gbm_price_of_quantile_cases 44000 (207 / 98280) 0.05 0.15 1
      (by norm_num) (by norm_num) (by norm_num)).2.2 rfl)

/-- C31 (amended): for `S0 > 0`, `sigma > 0`, `T > 0`, every `u` passed to `normal_quantile`
by `monte_carlo_stratified` satisfies `0 ≤ u ≤ 1`, and `0 < u` outside the first stratum;
the price written is the one of `normal_quantile(u)`, which is finite and strictly positive
when `0 < u < 1` and is `0` when `u = 0`. -/
theorem stratified_u_range (S0 T mu sigma : ℝ) (hS : 0 < S0) (hsigma : 0 < sigma) (hT : 0 < T)
    (n n_strata : Nat) (prices : List (Dbl ℝ)) (hlen : prices.length = n) (g : RngState ℝ)
    (j : Nat) (hj : j < n_strata * (n / n_strata)) :
    0 ≤ stratum_u (j / (n / n_strata)) n_strata
        ((uniform_draws (n_strata * (n / n_strata)) g).1.getD j 0) ∧
    stratum_u (j / (n / n_strata)) n_strata
        ((uniform_draws (n_strata * (n / n_strata)) g).1.getD j 0) ≤ 1 ∧
    (n / n_strata ≤ j → 0 < stratum_u (j / (n / n_strata)) n_strata
        ((uniform_draws (n_strata * (n / n_strata)) g).1.getD j 0)) ∧
    (monte_carlo_stratified Real.exp Real.log Real.sqrt S0 T mu sigma n n_strata prices g).1[j]?
      = some (gbm_price_of_quantile Real.exp Real.sqrt S0 T mu sigma
          (normal_quantile Real.log Real.sqrt (stratum_u (j / (n / n_strata)) n_strata
            ((uniform_draws (n_strata * (n / n_strata)) g).1.getD j 0)))) ∧
    (0 < stratum_u (j / (n / n_strata)) n_strata
        ((uniform_draws (n_strata * (n / n_strata)) g).1.getD j 0) →
      stratum_u (j / (n / n_strata)) n_strata
        ((uniform_draws (n_strata * (n / n_strata)) g).1.getD j 0) < 1 →
      ∃ x : ℝ, 0 < x ∧
        (monte_carlo_stratified Real.exp Real.log Real.sqrt S0 T mu sigma n n_strata prices
          g).1[j]? = some (Dbl.fin x)) ∧
    (stratum_u (j / (n / n_strata)) n_strata
        ((uniform_draws (n_strata * (n / n_strata)) g).1.getD j 0) = 0 →
      (monte_carlo_stratified Real.exp Real.log Real.sqrt S0 T mu sigma n n_strata prices
        g).1[j]? = some (Dbl.fin 0)) := by
  have hper : 0 < n / n_strata := by
    rcases Nat.eq_zero_or_pos (n / n_strata) with h | h
    · rw [h, Nat.mul_zero] at hj
      exact absurd hj (Nat.not_lt_zero j)
    · exact h
  have hs : j / (n / n_strata) < n_strata := by
    apply Nat.div_lt_of_lt_mul
    rw [Nat.mul_comm]
    exact hj
  obtain ⟨U0, U1⟩ := uniform_draws_getD_mem (n_strata * (n / n_strata)) g j
  obtain ⟨b0, b1, b2⟩ := stratum_u_bounds (j / (n / n_strata)) n_strata hs _ U0 U1
  have hout := (monte_carlo_stratified_spec Real.exp Real.log Real.sqrt S0 T mu sigma n n_strata
    prices hlen g).2.2.1 j hj
  obtain ⟨c1, c2, _⟩ := gbm_price_of_quantile_cases S0 T mu sigma
    (stratum_u (j / (n / n_strata)) n_strata
      ((uniform_draws (n_strata * (n / n_strata)) g).1.getD j 0)) hS hsigma hT
  refine ⟨b0, b1, ?_, hout, ?_, ?_⟩
  · intro hle
    exact b2 (Nat.div_pos hle hper)
  · intro h0 h1
    obtain ⟨x, hx, he⟩ := c1 h0 h1
    exact ⟨x, hx, by rw [hout, he]⟩
  · intro h0
    rw [hout, c2 h0]

/-- Witness for C31 (amended): 100 samples in 10 strata after `seed_random(42)`; the first
`u` lies in `[0, 1]`. -/
theorem stratified_u_range_witness :
    0 ≤ stratum_u (0 / (100 / 10)) 10
        ((uniform_draws (10 * (100 / 10))
          (seed_random 42 (RngState.initial : RngState ℝ))).1.getD 0 0) ∧
    stratum_u (0 / (100 / 10)) 10
        ((uniform_draws (10 * (100 / 10))
          (seed_random 42 (RngState.initial : RngState ℝ))).1.getD 0 0) ≤ 1 :=
  ⟨(stratified_u_range 44000 (207 / 98280) 0.05 0.15 (by norm_num) (by norm_num) (by norm_num)
      100 10 (List.replicate 100 (Dbl.fin 1)) (by simp) (seed_random 42 RngState.initial) 0
      (by norm_num)).1,
    (stratified_u_range 44000 (207 / 98280) 0.05 0.15 (by norm_num) (by norm_num) (by norm_num)
      100 10 (List.replicate 100 (Dbl.fin 1)) (by simp) (seed_random 42 RngState.initial) 0
      (by norm_num)).2.1⟩

/-! ## Shared lemmas: exactness of the Simpson rule -/

/-- The end points and the weighted interior nodes of `2 m + 2` subintervals, grouped into
`m + 1` panels of two subintervals each. -/
theorem simpson_panels {α : Type} [LinearOrderedField α] (f : α → α) (a h : α) (m : Nat) :
    f a + f (a + ((2 * m + 2 : Nat) : α) * h)
        + ∑ j in Finset.range (2 * m + 1),
            (if (1 + j) % 2 = 0 then 2 else 4) * f (a + ((1 + j : Nat) : α) * h)
      = ∑ p in Finset.range (m + 1),
          (f (a + ((2 * p : Nat) : α) * h) + 4 * f (a + ((2 * p + 1 : Nat) : α) * h)
            + f (a + ((2 * p + 2 : Nat) : α) * h)) := by
  induction m with
  | zero =>
    simp
    ring
  | succ m ih =>
    have e : 2 * (m + 1) + 1 = (2 * m + 1) + 1 + 1 := by ring
    rw [e, Finset.sum_range_succ, Finset.sum_range_succ, Finset.sum_range_succ _ (m + 1), ← ih]
    have p1 : (1 + (2 * m + 1)) % 2 = 0 := by omega
    have p2 : ¬ ((1 + (2 * m + 1 + 1)) % 2 = 0) := by omega
    rw [if_pos p1, if_neg p2]
    have c1 : 1 + (2 * m + 1) = 2 * m + 2 := by ring
    have c2 : 1 + (2 * m + 1 + 1) = 2 * (m + 1) + 1 := by ring
    have c3 : 2 * (m + 1) = 2 * m + 2 := by ring
    rw [c1, c2, c3]
    ring

/-- One panel of the Simpson rule integrates a cubic exactly. -/
theorem simpson_panel_cubic (c0 c1 c2 c3 x h : ℝ) :
    h / 3 * ((c0 + c1 * x + c2 * x ^ 2 + c3 * x ^ 3)
        + 4 * (c0 + c1 * (x + h) + c2 * (x + h) ^ 2 + c3 * (x + h) ^ 3)
        + (c0 + c1 * (x + 2 * h) + c2 * (x + 2 * h) ^ 2 + c3 * (x + 2 * h) ^ 3))
      = (c0 * (x + 2 * h) + c1 * (x + 2 * h) ^ 2 / 2 + c2 * (x + 2 * h) ^ 3 / 3
          + c3 * (x + 2 * h) ^ 4 / 4)
        - (c0 * x + c1 * x ^ 2 / 2 + c2 * x ^ 3 / 3 + c3 * x ^ 4 / 4) := by
  ring

/-- The Simpson rule with an even number `n ≥ 2` of subintervals on a cubic, as the
difference of the antiderivative at the end points. -/
theorem simpsons_rule_cubic (c0 c1 c2 c3 a b : ℝ) (n : Nat) (hn : 2 ≤ n) (heven : n % 2 = 0) :
    simpsons_rule (fun x => c0 + c1 * x + c2 * x ^ 2 + c3 * x ^ 3) a b (n : Int)
      = (c0 * b + c1 * b ^ 2 / 2 + c2 * b ^ 3 / 3 + c3 * b ^ 4 / 4)
        - (c0 * a + c1 * a ^ 2 / 2 + c2 * a ^ 3 / 3 + c3 * a ^ 4 / 4) := by
  obtain ⟨m, rfl⟩ : ∃ m, n = 2 * m + 2 := ⟨(n - 2) / 2, by omega⟩
  rw [simpsons_rule_of_even _ a b (2 * m + 2) (by omega) heven]
  have e : 2 * m + 2 - 1 = 2 * m + 1 := by omega
  rw [e]
  set h : ℝ := (b - a) / ((2 * m + 2 : Nat) : ℝ) with hh
  have hb : a + ((2 * m + 2 : Nat) : ℝ) * h = b := by
    rw [hh]
    field_simp
  have hfb : (c0 + c1 * b + c2 * b ^ 2 + c3 * b ^ 3)
      = (fun x : ℝ => c0 + c1 * x + c2 * x ^ 2 + c3 * x ^ 3)
          (a + ((2 * m + 2 : Nat) : ℝ) * h) := by
    simp only [hb]
  rw [hfb]
  have hp := simpson_panels (fun x : ℝ => c0 + c1 * x + c2 * x ^ 2 + c3 * x ^ 3) a h m
  simp only [] at hp
  rw [hp, mul_div_right_comm, Finset.mul_sum]
  have htel : ∀ k : Nat, ∑ p in Finset.range k,
      h / 3 * ((c0 + c1 * (a + ((2 * p : Nat) : ℝ) * h) + c2 * (a + ((2 * p : Nat) : ℝ) * h) ^ 2
          + c3 * (a + ((2 * p : Nat) : ℝ) * h) ^ 3)
        + 4 * (c0 + c1 * (a + ((2 * p + 1 : Nat) : ℝ) * h)
          + c2 * (a + ((2 * p + 1 : Nat) : ℝ) * h) ^ 2
          + c3 * (a + ((2 * p + 1 : Nat) : ℝ) * h) ^ 3)
        + (c0 + c1 * (a + ((2 * p + 2 : Nat) : ℝ) * h)
          + c2 * (a + ((2 * p + 2 : Nat) : ℝ) * h) ^ 2
          + c3 * (a + ((2 * p + 2 : Nat) : ℝ) * h) ^ 3))
      = (c0 * (a + ((2 * k : Nat) : ℝ) * h) + c1 * (a + ((2 * k : Nat) : ℝ) * h) ^ 2 / 2
          + c2 * (a + ((2 * k : Nat) : ℝ) * h) ^ 3 / 3
          + c3 * (a + ((2 * k : Nat) : ℝ) * h) ^ 4 / 4)
        - (c0 * a + c1 * a ^ 2 / 2 + c2 * a ^ 3 / 3 + c3 * a ^ 4 / 4) := by
    intro k
    induction k with
    | zero => simp
    | succ k ih =>
      rw [Finset.sum_range_succ, ih]
      have := simpson_panel_cubic c0 c1 c2 c3 (a + ((2 * k : Nat) : ℝ) * h) h
      push_cast at this ⊢
      linear_combination this
  have := htel (m + 1)
  have e2 : 2 * (m + 1) = 2 * m + 2 := by ring
  rw [e2, hb] at this
  rw [← this]

/-- The integral of a cubic over `[a, b]`. -/
theorem integral_cubic (c0 c1 c2 c3 a b : ℝ) :
    ∫ x in a..b, (c0 + c1 * x + c2 * x ^ 2 + c3 * x ^ 3)
      = (c0 * b + c1 * b ^ 2 / 2 + c2 * b ^ 3 / 3 + c3 * b ^ 4 / 4)
        - (c0 * a + c1 * a ^ 2 / 2 + c2 * a ^ 3 / 3 + c3 * a ^ 4 / 4) := by
  have hderiv : ∀ x ∈ Set.uIcc a b,
      HasDerivAt (fun x : ℝ => c0 * x + c1 * x ^ 2 / 2 + c2 * x ^ 3 / 3 + c3 * x ^ 4 / 4)
        (c0 + c1 * x + c2 * x ^ 2 + c3 * x ^ 3) x := by
    intro x _
    have h1 := (hasDerivAt_id x).const_mul c0
    have h2 := ((hasDerivAt_pow 2 x).const_mul c1).div_const 2
    have h3 := ((hasDerivAt_pow 3 x).const_mul c2).div_const 3
    have h4 := ((hasDerivAt_pow 4 x).const_mul c3).div_const 4
    have := ((h1.add h2).add h3).add h4
    convert this using 1
    norm_num
    ring
  have hint : IntervalIntegrable (fun x : ℝ => c0 + c1 * x + c2 * x ^ 2 + c3 * x ^ 3)
      MeasureTheory.volume a b :=
    Continuous.intervalIntegrable (by fun_prop) a b
  rw [intervalIntegral.integral_eq_sub_of_hasDerivAt hderiv hint]

/-! ## C32: the Simpson rule is exact on cubics -/

/-- C32: for every even `n ≥ 2`, all reals `a`, `b` and every polynomial `f` of degree at
most 3, `simpsons_rule(f, a, b, n)` equals the integral of `f` from `a` to `b`. -/
theorem simpsons_rule_exact_on_cubics (a b : ℝ) (n : Nat) (hn : 2 ≤ n) (heven : n % 2 = 0) :
    (∀ c0 c1 c2 c3 : ℝ,
      simpsons_rule (fun x => c0 + c1 * x + c2 * x ^ 2 + c3 * x ^ 3) a b (n : Int)
        = ∫ x in a..b, (c0 + c1 * x + c2 * x ^ 2 + c3 * x ^ 3)) ∧
    (∀ f : Polynomial ℝ, f.natDegree ≤ 3 →
      simpsons_rule (fun x => Polynomial.eval x f) a b (n : Int)
        = ∫ x in a..b, Polynomial.eval x f) := by
  have h1 : ∀ c0 c1 c2 c3 : ℝ,
      simpsons_rule (fun x => c0 + c1 * x + c2 * x ^ 2 + c3 * x ^ 3) a b (n : Int)
        = ∫ x in a..b, (c0 + c1 * x + c2 * x ^ 2 + c3 * x ^ 3) := by
    intro c0 c1 c2 c3
    rw [simpsons_rule_cubic c0 c1 c2 c3 a b n hn heven, integral_cubic]
  refine ⟨h1, ?_⟩
  intro f hf
  have he : (fun x => Polynomial.eval x f)
      = fun x : ℝ => f.coeff 0 + f.coeff 1 * x + f.coeff 2 * x ^ 2 + f.coeff 3 * x ^ 3 := by
    funext x
    rw [Polynomial.eval_eq_sum_range' (show f.natDegree < 4 by omega)]
    simp [Finset.sum_range_succ]
  rw [he]
  exact h1 _ _ _ _

/-- Witness for C32: the cubic `x^3` on `[0, 1]` with 4 subintervals. -/
theorem simpsons_rule_exact_on_cubics_witness :
    simpsons_rule (fun x : ℝ => 0 + 0 * x + 0 * x ^ 2 + 1 * x ^ 3) 0 1 ((4 : Nat) : Int)
      = ∫ x in (0 : ℝ)..1, (0 + 0 * x + 0 * x ^ 2 + 1 * x ^ 3) :=
  (simpsons_rule_exact_on_cubics 0 1 4 (by norm_num) (by norm_num)).1 0 0 0 1

/-! ## Shared lemmas: Gauss-Legendre quadrature -/

/-- On `[-1, 1]` the quadrature is the weighted sum of the integrand at the five nodes. -/
theorem gaussian_quadrature_unit (f : ℝ → ℝ) :
    gaussian_quadrature f (-1) 1
      = 0.2369268850561891 * f (-0.9061798459386640)
        + 0.4786286704993665 * f (-0.5384693101056831)
        + 0.5688888888888889 * f 0
        + 0.4786286704993665 * f 0.5384693101056831
        + 0.2369268850561891 * f 0.9061798459386640 := by
  have h1 : ((1 : ℝ) - -1) / 2.0 = 1 := by norm_num
  have h2 : ((1 : ℝ) + -1) / 2.0 = 0 := by norm_num
  have h3 : (0.0 : ℝ) = 0 := by norm_num
  simp only [gaussian_quadrature, gauss_loop, gl5_nodes, gl5_weights, h1, h2, h3,
    List.getD_cons_zero, List.getD_cons_succ, one_mul, add_zero, zero_add]

/-- The two quadrature functions compute the same value. -/
theorem gauss_legendre_5_eq {α : Type} [LinearOrderedField α] (f : α → α) (a b : α) :
    NumericalIntegration.gauss_legendre_5 f a b = gaussian_quadrature f a b := by
  simp only [NumericalIntegration.gauss_legendre_5, gaussian_quadrature, gl5_nodes,
    gl5_weights, add_comm a b]

/-- A five-point rule with symmetric nodes and weights applied to a polynomial of degree at
most 9, minus the integral of the polynomial over `[-1, 1]`, in terms of the even moments. -/
theorem symmetric_rule_error (W0 W1 W2 N1 N2 : ℝ) (c : ℕ → ℝ) :
    (W1 * (∑ k in Finset.range 10, c k * (-N1) ^ k)
        + W2 * (∑ k in Finset.range 10, c k * (-N2) ^ k)
        + W0 * (∑ k in Finset.range 10, c k * (0 : ℝ) ^ k)
        + W2 * (∑ k in Finset.range 10, c k * N2 ^ k)
        + W1 * (∑ k in Finset.range 10, c k * N1 ^ k))
      - (2 * c 0 + 2 / 3 * c 2 + 2 / 5 * c 4 + 2 / 7 * c 6 + 2 / 9 * c 8)
      = c 0 * (2 * W1 + 2 * W2 + W0 - 2)
        + c 2 * (2 * W1 * N1 ^ 2 + 2 * W2 * N2 ^ 2 - 2 / 3)
        + c 4 * (2 * W1 * N1 ^ 4 + 2 * W2 * N2 ^ 4 - 2 / 5)
        + c 6 * (2 * W1 * N1 ^ 6 + 2 * W2 * N2 ^ 6 - 2 / 7)
        + c 8 * (2 * W1 * N1 ^ 8 + 2 * W2 * N2 ^ 8 - 2 / 9) := by
  simp only [Finset.sum_range_succ, Finset.sum_range_zero]
  ring

/-- The integral of a polynomial of degree at most 9 over `[-1, 1]`. -/
theorem integral_poly9 (c : ℕ → ℝ) :
    ∫ x in (-1 : ℝ)..1, ∑ k in Finset.range 10, c k * x ^ k
      = 2 * c 0 + 2 / 3 * c 2 + 2 / 5 * c 4 + 2 / 7 * c 6 + 2 / 9 * c 8 := by
  rw [intervalIntegral.integral_finset_sum
    (fun k _ => Continuous.intervalIntegrable (by fun_prop) _ _)]
  simp only [intervalIntegral.integral_const_mul, integral_pow]
  simp only [Finset.sum_range_succ, Finset.sum_range_zero]
  norm_num
  ring

/-- The even moments of the hard-coded rule agree with `2 / (k + 1)` to within `1e-14`. -/
theorem gl5_moment_errors :
    |2 * (0.2369268850561891 : ℝ) + 2 * 0.4786286704993665 + 0.5688888888888889 - 2|
      ≤ 1e-14 ∧
    |2 * (0.2369268850561891 : ℝ) * 0.9061798459386640 ^ 2
      + 2 * 0.4786286704993665 * 0.5384693101056831 ^ 2 - 2 / 3| ≤ 1e-14 ∧
    |2 * (0.2369268850561891 : ℝ) * 0.9061798459386640 ^ 4
      + 2 * 0.4786286704993665 * 0.5384693101056831 ^ 4 - 2 / 5| ≤ 1e-14 ∧
    |2 * (0.2369268850561891 : ℝ) * 0.9061798459386640 ^ 6
      + 2 * 0.4786286704993665 * 0.5384693101056831 ^ 6 - 2 / 7| ≤ 1e-14 ∧
    |2 * (0.2369268850561891 : ℝ) * 0.9061798459386640 ^ 8
      + 2 * 0.4786286704993665 * 0.5384693101056831 ^ 8 - 2 / 9| ≤ 1e-14 := by
  refine ⟨?_, ?_, ?_, ?_, ?_⟩ <;> rw [abs_le] <;> constructor <;> norm_num

/-- A combination of five coefficients with factors of size at most `e` is bounded by `e`
times the sum of the absolute values of all ten coefficients. -/
theorem five_term_bound (c : ℕ → ℝ) (e e0 e2 e4 e6 e8 : ℝ) (h0 : |e0| ≤ e) (h2 : |e2| ≤ e)
    (h4 : |e4| ≤ e) (h6 : |e6| ≤ e) (h8 : |e8| ≤ e) :
    |c 0 * e0 + c 2 * e2 + c 4 * e4 + c 6 * e6 + c 8 * e8|
      ≤ e * ∑ k in Finset.range 10, |c k| := by
  have he : 0 ≤ e := le_trans (abs_nonneg e0) h0
  have t : ∀ (x y : ℝ), |y| ≤ e → |x * y| ≤ e * |x| := by
    intro x y hy
    rw [abs_mul, mul_comm]
    exact mul_le_mul_of_nonneg_right hy (abs_nonneg x)
  have s : |c 0 * e0 + c 2 * e2 + c 4 * e4 + c 6 * e6 + c 8 * e8|
      ≤ |c 0 * e0| + |c 2 * e2| + |c 4 * e4| + |c 6 * e6| + |c 8 * e8| := by
    refine le_trans (abs_add _ _) (add_le_add_right ?_ _)
    refine le_trans (abs_add _ _) (add_le_add_right ?_ _)
    refine le_trans (abs_add _ _) (add_le_add_right ?_ _)
    exact abs_add _ _
  have a0 := t (c 0) e0 h0
  have a2 := t (c 2) e2 h2
  have a4 := t (c 4) e4 h4
  have a6 := t (c 6) e6 h6
  have a8 := t (c 8) e8 h8
  have n1 := mul_nonneg he (abs_nonneg (c 1))
  have n3 := mul_nonneg he (abs_nonneg (c 3))
  have n5 := mul_nonneg he (abs_nonneg (c 5))
  have n7 := mul_nonneg he (abs_nonneg (c 7))
  have n9 := mul_nonneg he (abs_nonneg (c 9))
  simp only [Finset.sum_range_succ, Finset.sum_range_zero]
  linarith

/-! ## C33: accuracy of the Gauss-Legendre constants -/

/-- C33: for every polynomial `f = sum_{k=0..9} c_k x^k`,
`|gaussian_quadrature(f, -1, 1) - integral_{-1}^{1} f| ≤ 1e-14 * sum_k |c_k|` in exact
arithmetic over the decimal literals; an odd monomial is integrated to exactly 0, which is
its integral; the C++ `gauss_legendre_5` computes the same value as the C function. -/
theorem gauss_legendre_degree9 (c : ℕ → ℝ) :
    |gaussian_quadrature (fun x => ∑ k in Finset.range 10, c k * x ^ k) (-1) 1
        - ∫ x in (-1 : ℝ)..1, ∑ k in Finset.range 10, c k * x ^ k|
      ≤ 1e-14 * ∑ k in Finset.range 10, |c k| ∧
    (∀ k : Nat, k % 2 = 1 →
      gaussian_quadrature (fun x : ℝ => x ^ k) (-1) 1 = 0 ∧
      ∫ x in (-1 : ℝ)..1, x ^ k = 0) ∧
    (∀ (f : ℝ → ℝ) (a b : ℝ),
      NumericalIntegration.gauss_legendre_5 f a b = gaussian_quadrature f a b) := by
  refine ⟨?_, ?_, fun f a b => gauss_legendre_5_eq f a b⟩
  · rw [gaussian_quadrature_unit, integral_poly9, symmetric_rule_error]
    obtain ⟨h0, h2, h4, h6, h8⟩ := gl5_moment_errors
    exact five_term_bound c 1e-14 _ _ _ _ _ h0 h2 h4 h6 h8
  · intro k hk
    have hodd : Odd k := Nat.odd_iff.mpr hk
    have hk0 : k ≠ 0 := by
      rintro rfl
      simp at hk
    constructor
    · rw [gaussian_quadrature_unit, Odd.neg_pow hodd, Odd.neg_pow hodd, zero_pow hk0]
      ring
    · rw [integral_pow]
      have : Even (k + 1) := Odd.add_one hodd
      rw [Even.neg_one_pow this]
      simp

/-- Witness for C33: the odd monomial `x^3` is integrated to exactly 0. -/
theorem gauss_legendre_degree9_witness :
    gaussian_quadrature (fun x : ℝ => x ^ 3) (-1) 1 = 0 :=
  ((gauss_legendre_degree9 (fun _ => 0)).2.1 3 (by norm_num)).1

/-! ## C34: `normal_cdf` is a probability -/

/-- C34: for every real `x`, `0 ≤ normal_cdf(x) ≤ 1`; hence the `delta` written by
`black_scholes_greeks` (the value `normal_cdf(d1)`, or `0` when `T ≤ 0`) lies in `[0, 1]`. -/
theorem normal_cdf_is_probability (x : ℝ) :
    (0 ≤ normal_cdf Real.exp x ∧ normal_cdf Real.exp x ≤ 1) ∧
    ∀ S0 K T r sigma : ℝ,
      0 ≤ (black_scholes_greeks Real.exp Real.log Real.sqrt S0 K T r sigma).delta ∧
      (black_scholes_greeks Real.exp Real.log Real.sqrt S0 K T r sigma).delta ≤ 1 := by
  have hcdf : ∀ y : ℝ, 0 ≤ normal_cdf Real.exp y ∧ normal_cdf Real.exp y ≤ 1 := by
    intro y
    rcases lt_or_le y 0 with hy | hy
    · rw [normal_cdf_of_neg Real.exp y hy]
      have h0 := cdf_tail_nonneg (-y) (by linarith)
      have h1 := cdf_tail_le_one (-y) (by linarith)
      constructor <;> linarith
    · rw [normal_cdf_of_nonneg Real.exp y hy]
      have h0 := cdf_tail_nonneg y hy
      have h1 := cdf_tail_le_one y hy
      constructor <;> linarith
  refine ⟨hcdf x, ?_⟩
  intro S0 K T r sigma
  simp only [black_scholes_greeks]
  split_ifs with hT
  · simp
  · exact hcdf _

/-! ## Shared lemmas: order statistics -/

/-- Reading with a default at an index below the length is reading at that index. -/
theorem getD_eq_get_of_lt (l : List ℝ) (n : Nat) (hn : n < l.length) :
    l.getD n 0 = l.get ⟨n, hn⟩ := by
  rw [List.getD_eq_getElem _ _ hn]
  rfl

/-- Entries of an ascending list are ordered like their indices. -/
theorem sorted_get_mono (s : List ℝ) (hs : s.Sorted (fun a b => a ≤ b)) (i j : Nat)
    (hj : j < s.length) (hij : i ≤ j) :
    s.get ⟨i, lt_of_le_of_lt hij hj⟩ ≤ s.get ⟨j, hj⟩ :=
  hs.rel_get_of_le (Fin.mk_le_mk.mpr hij)

/-- The first entry of the ascending sort is a minimum of the data and the last entry is a
maximum. -/
theorem sort_ends (data : List ℝ) (hne : data ≠ []) :
    ∃ (h0 : 0 < (data.insertionSort (fun a b => a ≤ b)).length)
      (h1 : data.length - 1 < (data.insertionSort (fun a b => a ≤ b)).length),
      (data.insertionSort (fun a b => a ≤ b)).get ⟨0, h0⟩ ∈ data ∧
      (data.insertionSort (fun a b => a ≤ b)).get ⟨data.length - 1, h1⟩ ∈ data ∧
      ∀ x ∈ data, (data.insertionSort (fun a b => a ≤ b)).get ⟨0, h0⟩ ≤ x ∧
        x ≤ (data.insertionSort (fun a b => a ≤ b)).get ⟨data.length - 1, h1⟩ := by
  have hlen : (data.insertionSort (fun a b => a ≤ b)).length = data.length :=
    List.length_insertionSort _ _
  have hpos : 0 < data.length := List.length_pos.mpr hne
  have hs := List.sorted_insertionSort (fun a b : ℝ => a ≤ b) data
  have hperm := List.perm_insertionSort (fun a b : ℝ => a ≤ b) data
  refine ⟨by omega, by omega, hperm.subset (List.get_mem _ _ _),
    hperm.subset (List.get_mem _ _ _), ?_⟩
  intro x hx
  obtain ⟨i, hi⟩ := List.mem_iff_get.mp (hperm.symm.subset hx)
  rw [← hi]
  constructor
  · exact hs.rel_get_of_le (Fin.mk_le_mk.mpr (Nat.zero_le _))
  · apply hs.rel_get_of_le
    apply Fin.mk_le_mk.mpr
    have := i.isLt
    omega

/-- For `0 ≤ p ≤ 1` and `n ≥ 1` the rank `p (n - 1)` has floor and ceiling between `0` and
`n - 1`, and its fractional part lies in `[0, 1)`. -/
theorem rank_bounds (n : Nat) (hn : 0 < n) (p : ℝ) (hp0 : 0 ≤ p) (hp1 : p ≤ 1) :
    0 ≤ Int.floor (p * ((n : ℝ) - 1)) ∧
    Int.floor (p * ((n : ℝ) - 1)) ≤ Int.ceil (p * ((n : ℝ) - 1)) ∧
    Int.ceil (p * ((n : ℝ) - 1)) ≤ (n : Int) - 1 ∧
    0 ≤ p * ((n : ℝ) - 1) - (Int.floor (p * ((n : ℝ) - 1)) : ℝ) ∧
    p * ((n : ℝ) - 1) - (Int.floor (p * ((n : ℝ) - 1)) : ℝ) < 1 := by
  have hn1 : (0 : ℝ) ≤ (n : ℝ) - 1 := by
    have : (1 : ℝ) ≤ (n : ℝ) := by exact_mod_cast hn
    linarith
  have hr0 : 0 ≤ p * ((n : ℝ) - 1) := mul_nonneg hp0 hn1
  have hr1 : p * ((n : ℝ) - 1) ≤ (n : ℝ) - 1 := by nlinarith
  refine ⟨Int.floor_nonneg.mpr hr0, Int.floor_le_ceil _, ?_, ?_, ?_⟩
  · rw [Int.ceil_le]
    push_cast
    exact hr1
  · linarith [Int.floor_le (p * ((n : ℝ) - 1))]
  · linarith [Int.lt_floor_add_one (p * ((n : ℝ) - 1))]

/-- The percentile as a combination of two entries of the ascending sort that are read at
indices below its length. -/
theorem compute_percentile_get (data : List ℝ) (hne : data ≠ []) (p : ℝ) (hp0 : 0 ≤ p)
    (hp1 : p ≤ 1) :
    ∃ (hl : (Int.floor (p * ((data.length : ℝ) - 1))).toNat
          < (data.insertionSort (fun a b => a ≤ b)).length)
      (hu : (Int.ceil (p * ((data.length : ℝ) - 1))).toNat
          < (data.insertionSort (fun a b => a ≤ b)).length),
      compute_percentile data data.length p
        = (data.insertionSort (fun a b => a ≤ b)).get
              ⟨(Int.floor (p * ((data.length : ℝ) - 1))).toNat, hl⟩
            * (1 - (p * ((data.length : ℝ) - 1)
                - (Int.floor (p * ((data.length : ℝ) - 1)) : ℝ)))
          + (data.insertionSort (fun a b => a ≤ b)).get
              ⟨(Int.ceil (p * ((data.length : ℝ) - 1))).toNat, hu⟩
            * (p * ((data.length : ℝ) - 1)
                - (Int.floor (p * ((data.length : ℝ) - 1)) : ℝ)) := by
  have hlen : (data.insertionSort (fun a b => a ≤ b)).length = data.length :=
    List.length_insertionSort _ _
  have hpos : 0 < data.length := List.length_pos.mpr hne
  obtain ⟨b1, b2, b3, _, _⟩ := rank_bounds data.length hpos p hp0 hp1
  have hl : (Int.floor (p * ((data.length : ℝ) - 1))).toNat
      < (data.insertionSort (fun a b => a ≤ b)).length := by omega
  have hu : (Int.ceil (p * ((data.length : ℝ) - 1))).toNat
      < (data.insertionSort (fun a b => a ≤ b)).length := by omega
  refine ⟨hl, hu, ?_⟩
  rw [compute_percentile_eq data hne p, getD_eq_get_of_lt _ _ hl, getD_eq_get_of_lt _ _ hu]

/-! ## C35: range of the percentile -/

/-- C35: for a non-empty sample and `0 ≤ p ≤ 1`, `compute_percentile` reads the sorted copy
at the indices `floor(r)` and `ceil(r)`, which lie in `[0, n - 1]`; `percentile(data, 0)` is a
minimum of the sample, `percentile(data, 1)` a maximum, the result lies between them, and it
is the same for every permutation of the input.  The C++ percentile returns the same
value. -/
theorem percentile_within_sample (data : List ℝ) (hne : data ≠ []) (p : ℝ) (hp0 : 0 ≤ p)
    (hp1 : p ≤ 1) :
    (0 ≤ Int.floor (p * ((data.length : ℝ) - 1)) ∧
      Int.ceil (p * ((data.length : ℝ) - 1)) ≤ (data.length : Int) - 1 ∧
      ∃ (hl : (Int.floor (p * ((data.length : ℝ) - 1))).toNat
            < (data.insertionSort (fun a b => a ≤ b)).length)
        (hu : (Int.ceil (p * ((data.length : ℝ) - 1))).toNat
            < (data.insertionSort (fun a b => a ≤ b)).length),
        compute_percentile data data.length p
          = (data.insertionSort (fun a b => a ≤ b)).get
                ⟨(Int.floor (p * ((data.length : ℝ) - 1))).toNat, hl⟩
              * (1 - (p * ((data.length : ℝ) - 1)
                  - (Int.floor (p * ((data.length : ℝ) - 1)) : ℝ)))
            + (data.insertionSort (fun a b => a ≤ b)).get
                ⟨(Int.ceil (p * ((data.length : ℝ) - 1))).toNat, hu⟩
              * (p * ((data.length : ℝ) - 1)
                  - (Int.floor (p * ((data.length : ℝ) - 1)) : ℝ))) ∧
    (compute_percentile data data.length 0 ∈ data ∧
      ∀ x ∈ data, compute_percentile data data.length 0 ≤ x) ∧
    (compute_percentile data data.length 1 ∈ data ∧
      ∀ x ∈ data, x ≤ compute_percentile data data.length 1) ∧
    (compute_percentile data data.length 0 ≤ compute_percentile data data.length p ∧
      compute_percentile data data.length p ≤ compute_percentile data data.length 1) ∧
    (∀ data2 : List ℝ, data2.Perm data →
      compute_percentile data2 data2.length p = compute_percentile data data.length p) ∧
    Statistics.percentile data p = compute_percentile data data.length p := by
  have hlen : (data.insertionSort (fun a b => a ≤ b)).length = data.length :=
    List.length_insertionSort _ _
  have hpos : 0 < data.length := List.length_pos.mpr hne
  have hs := List.sorted_insertionSort (fun a b : ℝ => a ≤ b) data
  obtain ⟨b1, b2, b3, f0, f1⟩ := rank_bounds data.length hpos p hp0 hp1
  obtain ⟨h0, h1, m0, m1, hall⟩ := sort_ends data hne
  have e0 : compute_percentile data data.length 0
      = (data.insertionSort (fun a b => a ≤ b)).get ⟨0, h0⟩ := by
    rw [compute_percentile_eq data hne 0, zero_mul]
    simp only [Int.floor_zero, Int.ceil_zero, Int.toNat_zero, Int.cast_zero, sub_zero, mul_one,
      mul_zero, add_zero]
    exact getD_eq_get_of_lt _ _ h0
  have e1 : compute_percentile data data.length 1
      = (data.insertionSort (fun a b => a ≤ b)).get ⟨data.length - 1, h1⟩ := by
    have hc : ((data.length : ℝ) - 1) = (((data.length : Int) - 1 : Int) : ℝ) := by
      push_cast
      ring
    have ht : ((data.length : Int) - 1).toNat = data.length - 1 := by omega
    rw [compute_percentile_eq data hne 1, one_mul, hc, Int.floor_intCast, Int.ceil_intCast, ht]
    simp only [sub_self, sub_zero, mul_one, mul_zero, add_zero]
    exact getD_eq_get_of_lt _ _ h1
  obtain ⟨hl, hu, hval⟩ := compute_percentile_get data hne p hp0 hp1
  have lo1 := sorted_get_mono _ hs 0 _ hl (Nat.zero_le _)
  have lo2 := sorted_get_mono _ hs 0 _ hu (Nat.zero_le _)
  have hi1 := sorted_get_mono _ hs (Int.floor (p * ((data.length : ℝ) - 1))).toNat
    (data.length - 1) h1 (by omega)
  have hi2 := sorted_get_mono _ hs (Int.ceil (p * ((data.length : ℝ) - 1))).toNat
    (data.length - 1) h1 (by omega)
  refine ⟨⟨b1, b3, hl, hu, hval⟩, ⟨?_, ?_⟩, ⟨?_, ?_⟩, ⟨?_, ?_⟩, ?_,
    Statistics_percentile_eq data p hp0⟩
  · rw [e0]
    exact m0
  · intro x hx
    rw [e0]
    exact (hall x hx).1
  · rw [e1]
    exact m1
  · intro x hx
    rw [e1]
    exact (hall x hx).2
  · rw [e0, hval]
    nlinarith
  · rw [e1, hval]
    nlinarith
  · intro data2 hperm
    have hne2 : data2 ≠ [] := by
      intro h
      rw [h] at hperm
      exact hne (List.Perm.nil_eq hperm).symm
    have hsort : data2.insertionSort (fun a b => a ≤ b)
        = data.insertionSort (fun a b => a ≤ b) :=
      List.eq_of_perm_of_sorted
        (((List.perm_insertionSort _ data2).trans hperm).trans
          (List.perm_insertionSort _ data).symm)
        (List.sorted_insertionSort _ data2) hs
    rw [compute_percentile_eq data2 hne2 p, compute_percentile_eq data hne p, hsort,
      hperm.length_eq]

/-- Witness for C35: the sample `3, 1, 2` at `p = 0.5`; the result lies between the
percentiles at 0 and 1, and the permutation `1, 2, 3` gives the same result. -/
theorem percentile_within_sample_witness :
    compute_percentile ([3, 1, 2] : List ℝ) 3 0
      ≤ compute_percentile ([3, 1, 2] : List ℝ) 3 0.5 ∧
    compute_percentile ([3, 1, 2] : List ℝ) 3 0.5
      ≤ compute_percentile ([3, 1, 2] : List ℝ) 3 1 ∧
    compute_percentile ([1, 2, 3] : List ℝ) 3 0.5
      = compute_percentile ([3, 1, 2] : List ℝ) 3 0.5 :=
  ⟨(percentile_within_sample [3, 1, 2] (by simp) 0.5 (by norm_num) (by norm_num)).2.2.2.1.1,
    (percentile_within_sample [3, 1, 2] (by simp) 0.5 (by norm_num) (by norm_num)).2.2.2.1.2,
    (percentile_within_sample [3, 1, 2] (by simp) 0.5 (by norm_num) (by norm_num)).2.2.2.2.1
      [1, 2, 3] (@List.perm_append_comm ℝ [1, 2] [3])⟩

/-! ## C36: put-call parity -/

/-- C36: for `T > 0` (and every `S`, `K`, `sigma`, `r`, in particular positive ones) the
prices returned by the C++ `BlackScholesGreeks::calculate` satisfy
`call_price - put_price = S - K * exp(-r T)`, whatever `exp`, `log`, `sqrt` and `erf`, and
hence the cdf values, are. -/
theorem put_call_parity (exp log sqrt erf : ℝ → ℝ) (S K T r sigma : ℝ) (_hS : 0 < S)
    (_hK : 0 < K) (hT : 0 < T) (_hsigma : 0 < sigma) :
    (BlackScholesGreeks.calculate exp log sqrt erf S K T r sigma).call_price
      - (BlackScholesGreeks.calculate exp log sqrt erf S K T r sigma).put_price
      = S - K * exp (-r * T) := by
  have h : ¬ T ≤ 0 := not_le.mpr hT
  simp only [BlackScholesGreeks.calculate, h, if_false]
  ring

/-- Witness for C36: `S = 100`, `K = 95`, `T = 0.5`, `r = 0.045`, `sigma = 0.2` with the real
exponential, logarithm and square root and an arbitrary function in place of `erf`. -/
theorem put_call_parity_witness :
    (BlackScholesGreeks.calculate Real.exp Real.log Real.sqrt Real.sin 100 95 0.5 0.045
        0.2).call_price
      - (BlackScholesGreeks.calculate Real.exp Real.log Real.sqrt Real.sin 100 95 0.5 0.045
        0.2).put_price
      = 100 - 95 * Real.exp (-0.045 * 0.5) :=
  put_call_parity Real.exp Real.log Real.sqrt Real.sin 100 95 0.5 0.045 0.2 (by norm_num)
    (by norm_num) (by norm_num) (by norm_num)

/-! ## Shared lemmas: the ticker analyzer -/

/-- Without overflow the multiplier loop multiplies by a power of ten. -/
theorem multiplier_loop_eq (k : Nat) :
    ∀ m : Nat, m * 10 ^ k < UINT_RANGE → multiplier_loop k m = m * 10 ^ k := by
  induction k with
  | zero =>
    intro m _
    simp [multiplier_loop]
  | succ k ih =>
    intro m hm
    have e : m * 10 ^ (k + 1) = m * 10 * 10 ^ k := by ring
    rw [e] at hm
    have hlt : m * 10 < UINT_RANGE := by
      have : m * 10 * 1 ≤ m * 10 * 10 ^ k :=
        Nat.mul_le_mul_left _ (Nat.one_le_pow _ _ (by norm_num))
      omega
    simp only [multiplier_loop]
    rw [Nat.mod_eq_of_lt hlt, ih _ hm, e]

/-- For a precision of at most 9 the multiplier is `10 ^ precision`. -/
theorem multiplier_loop_precision (k : Nat) (hk : k ≤ 9) : multiplier_loop k 1 = 10 ^ k := by
  have h : 1 * 10 ^ k < UINT_RANGE := by
    have : 10 ^ k ≤ 10 ^ 9 := Nat.pow_le_pow_right (by norm_num) hk
    simp only [UINT_RANGE]
    omega
  rw [multiplier_loop_eq k 1 h, Nat.one_mul]

/-! ## Shared lemmas: rounding to `double` -/

/-- The binary exponent used by `round_double` for a number of magnitude in
`[2^e, 2^(e+1))`, `e ≥ -1022`. -/
theorem round_double_exponent (x : ℝ) (e : ℤ) (he : -1022 ≤ e) (hlo : (2 : ℝ) ^ e ≤ |x|)
    (hhi : |x| < (2 : ℝ) ^ (e + 1)) : max (Int.log 2 |x|) (-1022) = e := by
  have hpos : 0 < |x| := lt_of_lt_of_le (zpow_pos (by norm_num) e) hlo
  have h1 : e ≤ Int.log 2 |x| := by
    apply (Int.zpow_le_iff_le_log (by norm_num) hpos).mp
    simpa using hlo
  have h2 : Int.log 2 |x| < e + 1 := by
    apply (Int.lt_zpow_iff_log_lt (by norm_num) hpos).mp
    simpa using hhi
  rw [max_eq_left (by omega)]
  omega

/-- The mantissa chosen by `round_double`: the integer nearest to the scaled number, the even
one in a tie. -/
theorem round_double_mantissa (q : ℝ) (m : ℤ)
    (hm : |q - m| < 1 / 2 ∨ (|q - m| = 1 / 2 ∧ m % 2 = 0)) :
    (if q - ((Int.floor q : ℤ) : ℝ) < 1 / 2 then Int.floor q
      else if 1 / 2 < q - ((Int.floor q : ℤ) : ℝ) then Int.floor q + 1
      else if Int.floor q % 2 = 0 then Int.floor q else Int.floor q + 1) = m := by
  rcases le_or_lt (m : ℝ) q with hle | hlt
  · have hfl : Int.floor q = m := by
      rw [Int.floor_eq_iff]
      rcases hm with h | ⟨h, _⟩
      · rw [abs_lt] at h
        constructor <;> linarith
      · rw [abs_of_nonneg (by linarith)] at h
        constructor <;> linarith
    rw [hfl]
    rcases hm with h | ⟨h, h2⟩
    · rw [abs_lt] at h
      rw [if_pos h.2]
    · rw [abs_of_nonneg (by linarith)] at h
      rw [if_neg (by linarith), if_neg (by linarith), if_pos h2]
  · have hfl : Int.floor q = m - 1 := by
      rw [Int.floor_eq_iff]
      push_cast
      rcases hm with h | ⟨h, _⟩
      · rw [abs_lt] at h
        constructor <;> linarith
      · rw [abs_of_neg (by linarith)] at h
        constructor <;> linarith
    rw [hfl]
    push_cast
    rcases hm with h | ⟨h, h2⟩
    · rw [abs_lt] at h
      rw [if_neg (by linarith), if_pos (by linarith)]
      ring
    · rw [abs_of_neg (by linarith)] at h
      rw [if_neg (by linarith), if_neg (by linarith), if_neg (by omega)]
      ring

/-- Evaluation of `round_double`: for `|x|` in `[2^e, 2^(e+1))` with `e ≥ -1022`, the result
is `m * 2^(e-52)`, `m` being the integer nearest to `x / 2^(e-52)` (the even one in a tie). -/
theorem round_double_eval (x : ℝ) (e m : ℤ) (he : -1022 ≤ e) (hlo : (2 : ℝ) ^ e ≤ |x|)
    (hhi : |x| < (2 : ℝ) ^ (e + 1))
    (hm : |x / (2 : ℝ) ^ (e - 52) - m| < 1 / 2 ∨
      (|x / (2 : ℝ) ^ (e - 52) - m| = 1 / 2 ∧ m % 2 = 0)) :
    round_double x = (m : ℝ) * (2 : ℝ) ^ (e - 52) := by
  simp only [round_double]
  rw [round_double_exponent x e he hlo hhi, round_double_mantissa _ m hm]

/-- The mantissa chosen by `round_double` lies within `1/2` of the scaled number and on the
same side of every integer. -/
theorem round_double_mantissa_bounds (q : ℝ) :
    ∃ m : ℤ,
      (if q - ((Int.floor q : ℤ) : ℝ) < 1 / 2 then Int.floor q
        else if 1 / 2 < q - ((Int.floor q : ℤ) : ℝ) then Int.floor q + 1
        else if Int.floor q % 2 = 0 then Int.floor q else Int.floor q + 1) = m ∧
      |(m : ℝ) - q| ≤ 1 / 2 ∧ (∀ N : ℤ, (N : ℝ) ≤ q → N ≤ m) ∧
      (∀ N : ℤ, q ≤ (N : ℝ) → m ≤ N) := by
  have h1 := Int.floor_le q
  have h2 := Int.lt_floor_add_one q
  have hlow : ∀ N : ℤ, (N : ℝ) ≤ q → N ≤ Int.floor q := fun N hN => Int.le_floor.mpr hN
  have hup : ∀ N : ℤ, q ≤ (N : ℝ) → ((Int.floor q : ℤ) : ℝ) < q → Int.floor q + 1 ≤ N := by
    intro N hN hlt
    have : ((Int.floor q : ℤ) : ℝ) < (N : ℝ) := lt_of_lt_of_le hlt hN
    have : Int.floor q < N := by exact_mod_cast this
    omega
  have hfl : ∀ N : ℤ, q ≤ (N : ℝ) → Int.floor q ≤ N := by
    intro N hN
    have : ((Int.floor q : ℤ) : ℝ) ≤ (N : ℝ) := le_trans h1 hN
    exact_mod_cast this
  by_cases c1 : q - ((Int.floor q : ℤ) : ℝ) < 1 / 2
  · refine ⟨Int.floor q, by rw [if_pos c1], ?_, hlow, hfl⟩
    rw [abs_le]
    constructor <;> linarith
  · have hhalf : (1 : ℝ) / 2 ≤ q - ((Int.floor q : ℤ) : ℝ) := not_lt.mp c1
    have hlt : ((Int.floor q : ℤ) : ℝ) < q := by linarith
    by_cases c2 : 1 / 2 < q - ((Int.floor q : ℤ) : ℝ)
    · refine ⟨Int.floor q + 1, by rw [if_neg c1, if_pos c2], ?_,
        fun N hN => le_trans (hlow N hN) (by omega), fun N hN => hup N hN hlt⟩
      push_cast
      rw [abs_le]
      constructor <;> linarith
    · have heq : q - ((Int.floor q : ℤ) : ℝ) = 1 / 2 := le_antisymm (not_lt.mp c2) hhalf
      by_cases c3 : Int.floor q % 2 = 0
      · refine ⟨Int.floor q, by rw [if_neg c1, if_neg c2, if_pos c3], ?_, hlow, hfl⟩
        rw [abs_le]
        constructor <;> linarith
      · refine ⟨Int.floor q + 1, by rw [if_neg c1, if_neg c2, if_neg c3], ?_,
          fun N hN => le_trans (hlow N hN) (by omega), fun N hN => hup N hN hlt⟩
        push_cast
        rw [abs_le]
        constructor <;> linarith

/-- Rounding to `double` does not cross an integer: below `2^53` in magnitude, an integer
bound of `x` is a bound of `round_double x`. -/
theorem round_double_int_bounds (x : ℝ) (hx : |x| < 2 ^ 53) (n : ℤ) :
    ((n : ℝ) ≤ x → (n : ℝ) ≤ round_double x) ∧ (x ≤ (n : ℝ) → round_double x ≤ (n : ℝ)) := by
  have he : max (Int.log 2 |x|) (-1022) ≤ 52 := by
    apply max_le _ (by norm_num)
    rcases (abs_nonneg x).eq_or_lt with h0 | hpos
    · rw [← h0, Int.log_zero_right]
      norm_num
    · have : Int.log 2 |x| < 53 := by
        apply (Int.lt_zpow_iff_log_lt (by norm_num) hpos).mp
        have e53 : ((2 : ℕ) : ℝ) ^ (53 : ℤ) = 2 ^ 53 := by norm_num
        rw [e53]
        exact hx
      omega
  obtain ⟨j, hj⟩ : ∃ j : ℕ, max (Int.log 2 |x|) (-1022) - 52 = -(j : ℤ) :=
    ⟨(52 - max (Int.log 2 |x|) (-1022)).toNat, by omega⟩
  have hulp : (2 : ℝ) ^ (max (Int.log 2 |x|) (-1022) - 52) = ((2 : ℝ) ^ j)⁻¹ := by
    rw [hj, zpow_neg, zpow_natCast]
  have hpow : (0 : ℝ) < 2 ^ j := by positivity
  obtain ⟨m, hm, -, hlow, hup⟩ :=
    round_double_mantissa_bounds (x / (2 : ℝ) ^ (max (Int.log 2 |x|) (-1022) - 52))
  have hrd : round_double x = (m : ℝ) * ((2 : ℝ) ^ j)⁻¹ := by
    simp only [round_double]
    rw [hm, hulp]
  have hq : x / (2 : ℝ) ^ (max (Int.log 2 |x|) (-1022) - 52) = x * 2 ^ j := by
    rw [hulp, div_inv_eq_mul]
  rw [hq] at hlow hup
  rw [hrd]
  constructor
  · intro hn
    have h := hlow (n * 2 ^ j) (by
      push_cast
      exact mul_le_mul_of_nonneg_right hn hpow.le)
    have h2 : ((n * 2 ^ j : ℤ) : ℝ) ≤ (m : ℝ) := by exact_mod_cast h
    push_cast at h2
    rw [← div_eq_mul_inv, le_div_iff₀ hpow]
    exact h2
  · intro hn
    have h := hup (n * 2 ^ j) (by
      push_cast
      exact mul_le_mul_of_nonneg_right hn hpow.le)
    have h2 : (m : ℝ) ≤ ((n * 2 ^ j : ℤ) : ℝ) := by exact_mod_cast h
    push_cast at h2
    rw [← div_eq_mul_inv, div_le_iff₀ hpow]
    exact h2

/-- An integer below `2^53` in magnitude is a `double`. -/
theorem round_double_intCast (n : ℤ) (hn : |(n : ℝ)| < 2 ^ 53) :
    round_double (n : ℝ) = (n : ℝ) :=
  le_antisymm ((round_double_int_bounds (n : ℝ) hn n).2 le_rfl)
    ((round_double_int_bounds (n : ℝ) hn n).1 le_rfl)

/-- Relative error of the rounding to `double` in the normal range: at most `2^(-53)`. -/
theorem round_double_error (x : ℝ) (hx : x = 0 ∨ (2 : ℝ) ^ (-1022 : ℤ) ≤ |x|) :
    |round_double x - x| ≤ |x| / 2 ^ 53 := by
  rcases hx with h0 | hx
  · rw [h0]
    have := round_double_intCast 0 (by norm_num)
    simp only [Int.cast_zero] at this
    rw [this]
    norm_num
  · have hpos : 0 < |x| := lt_of_lt_of_le (zpow_pos (by norm_num) _) hx
    have hlog : -1022 ≤ Int.log 2 |x| := by
      apply (Int.zpow_le_iff_le_log (by norm_num) hpos).mp
      simpa using hx
    have hle : (2 : ℝ) ^ (Int.log 2 |x|) ≤ |x| := by
      have := Int.zpow_log_le_self (b := 2) (by norm_num) hpos
      simpa using this
    obtain ⟨m, hm, hhalf, -, -⟩ :=
      round_double_mantissa_bounds (x / (2 : ℝ) ^ (max (Int.log 2 |x|) (-1022) - 52))
    have hrd : round_double x = (m : ℝ) * (2 : ℝ) ^ (max (Int.log 2 |x|) (-1022) - 52) := by
      simp only [round_double]
      rw [hm]
    rw [max_eq_left hlog] at hrd hhalf
    have hu : (0 : ℝ) < (2 : ℝ) ^ (Int.log 2 |x| - 52) := zpow_pos (by norm_num) _
    have e1 : round_double x - x
        = ((m : ℝ) - x / (2 : ℝ) ^ (Int.log 2 |x| - 52)) * (2 : ℝ) ^ (Int.log 2 |x| - 52) := by
      rw [hrd]
      field_simp
    have e2 : (2 : ℝ) ^ (Int.log 2 |x| - 52) = (2 : ℝ) ^ (Int.log 2 |x|) / 2 ^ 52 := by
      rw [zpow_sub₀ (by norm_num : (2 : ℝ) ≠ 0)]
      norm_num
    rw [e1, abs_mul, abs_of_pos hu]
    calc |(m : ℝ) - x / (2 : ℝ) ^ (Int.log 2 |x| - 52)| * (2 : ℝ) ^ (Int.log 2 |x| - 52)
        ≤ 1 / 2 * (2 : ℝ) ^ (Int.log 2 |x| - 52) := mul_le_mul_of_nonneg_right hhalf hu.le
      _ = (2 : ℝ) ^ (Int.log 2 |x|) / 2 ^ 53 := by
        rw [e2]
        ring
      _ ≤ |x| / 2 ^ 53 := div_le_div_of_nonneg_right hle (by positivity)

/-! ## C37: price compression round trip -/

/-- C37 (as stated, refuted): for the `double` price `8106479329266892 / 2^53` (the value of
`0.3 * 3.0`, just below `0.9`) and precision 1, the product `price * 10` rounds to the double
`9.0`, so `compress_price` returns 9, not `floor(price * 10) = 8`, and the decompressed price
is greater than `price`. -/
theorem price_round_trip_rounds_up :
    (0 : ℝ) ≤ 8106479329266892 / 2 ^ 53 ∧
    (8106479329266892 / 2 ^ 53 : ℝ) * 10 ^ 1 < 2 ^ 32 ∧
    round_double (8106479329266892 / 2 ^ 53 : ℝ) = 8106479329266892 / 2 ^ 53 ∧
    Int.floor ((8106479329266892 / 2 ^ 53 : ℝ) * 10 ^ 1) = 8 ∧
    compress_price (8106479329266892 / 2 ^ 53 : ℝ) 1 = 9 ∧
    (8106479329266892 / 2 ^ 53 : ℝ)
      < decompress_price (compress_price (8106479329266892 / 2 ^ 53 : ℝ) 1) 1 := by
  have hp : round_double (8106479329266892 / 2 ^ 53 : ℝ) = 8106479329266892 / 2 ^ 53 := by
    have h := round_double_eval (8106479329266892 / 2 ^ 53) (-1) 8106479329266892
      (by norm_num)
      (by rw [abs_of_pos (by norm_num)]; norm_num)
      (by rw [abs_of_pos (by norm_num)]; norm_num)
      (Or.inl (by norm_num))
    rw [h]
    norm_num
  have hprod : round_double ((8106479329266892 / 2 ^ 53 : ℝ) * 10) = 9 := by
    have h := round_double_eval ((8106479329266892 / 2 ^ 53 : ℝ) * 10) 3 5066549580791808
      (by norm_num)
      (by rw [abs_of_pos (by norm_num)]; norm_num)
      (by rw [abs_of_pos (by norm_num)]; norm_num)
      (Or.inr ⟨by norm_num [abs_of_neg], by norm_num⟩)
    rw [h]
    norm_num
  have hc : compress_price (8106479329266892 / 2 ^ 53 : ℝ) 1 = 9 := by
    have hm : multiplier_loop 1 1 = 10 := by decide
    simp only [compress_price, hm, double_to_uint32, UINT_RANGE, Nat.cast_ofNat]
    rw [hprod]
    norm_num
    rfl
  have hd : decompress_price 9 1 = (8106479329266893 / 2 ^ 53 : ℝ) := by
    have hm : multiplier_loop 1 1 = 10 := by decide
    simp only [decompress_price, hm, Nat.cast_ofNat]
    have h := round_double_eval (9 / 10 : ℝ) (-1) 8106479329266893
      (by norm_num)
      (by rw [abs_of_pos (by norm_num)]; norm_num)
      (by rw [abs_of_pos (by norm_num)]; norm_num)
      (Or.inl (by rw [abs_lt]; constructor <;> norm_num))
    rw [h]
    norm_num
  refine ⟨by norm_num, by norm_num, hp, ?_, hc, ?_⟩
  · rw [Int.floor_eq_iff]
    constructor <;> norm_num
  · rw [hc, hd]
    norm_num

/-- C37 (amended): for every precision `k ≤ 9` and every price `≥ 0` with
`price * 10^k ≤ 2^32 - 1`, `compress_price` returns the integer part `c` of the product
rounded to `double`, which is `floor(price * 10^k)` or `ceil(price * 10^k)`;
`d = decompress_price(c, k)` is `c / 10^k` rounded to `double` and satisfies
`|d - price| < (1 + 2^(-21)) * 10^(-k)`; when `price * 10^k` is an integer, `c` is that integer
and `d = price` for a price that is a `double`. -/
theorem price_round_trip (price : ℝ) (k : Nat) (hk : k ≤ 9) (hp : 0 ≤ price)
    (hle : price * 10 ^ k ≤ 2 ^ 32 - 1) :
    ((compress_price price k : ℤ) = Int.floor (round_double (price * 10 ^ k))) ∧
    (Int.floor (price * 10 ^ k) ≤ (compress_price price k : ℤ) ∧
      (compress_price price k : ℤ) ≤ Int.ceil (price * 10 ^ k)) ∧
    decompress_price (compress_price price k) k
      = round_double ((compress_price price k : ℝ) / 10 ^ k) ∧
    |decompress_price (compress_price price k) k - price| < (1 + 1 / 2 ^ 21) * ((10 : ℝ) ^ k)⁻¹ ∧
    (∀ z : ℤ, price * 10 ^ k = (z : ℝ) →
      (compress_price price k : ℤ) = z ∧
      (round_double price = price → decompress_price (compress_price price k) k = price)) := by
  have hpow : (0 : ℝ) < 10 ^ k := by positivity
  have hx0 : 0 ≤ price * 10 ^ k := mul_nonneg hp hpow.le
  have habs : |price * 10 ^ k| < 2 ^ 53 := by
    rw [abs_of_nonneg hx0]
    linarith [show (2 : ℝ) ^ 32 - 1 < 2 ^ 53 by norm_num]
  have hb1 := (round_double_int_bounds (price * 10 ^ k) habs (Int.floor (price * 10 ^ k))).1
    (Int.floor_le _)
  have hb2 := (round_double_int_bounds (price * 10 ^ k) habs (Int.ceil (price * 10 ^ k))).2
    (Int.le_ceil _)
  have hf0 : 0 ≤ Int.floor (price * 10 ^ k) := Int.floor_nonneg.mpr hx0
  have hy0 : 0 ≤ round_double (price * 10 ^ k) := by
    have : (0 : ℝ) ≤ ((Int.floor (price * 10 ^ k) : ℤ) : ℝ) := by exact_mod_cast hf0
    linarith
  have hceil : Int.ceil (price * 10 ^ k) ≤ 2 ^ 32 - 1 := by
    apply Int.ceil_le.mpr
    have e : (((2 : ℤ) ^ 32 - 1 : ℤ) : ℝ) = 2 ^ 32 - 1 := by norm_num
    rw [e]
    exact hle
  have hfy1 : Int.floor (price * 10 ^ k) ≤ Int.floor (round_double (price * 10 ^ k)) :=
    Int.le_floor.mpr hb1
  have hfy2 : Int.floor (round_double (price * 10 ^ k)) ≤ Int.ceil (price * 10 ^ k) := by
    have : ((Int.floor (round_double (price * 10 ^ k)) : ℤ) : ℝ)
        ≤ ((Int.ceil (price * 10 ^ k) : ℤ) : ℝ) := le_trans (Int.floor_le _) hb2
    exact_mod_cast this
  have hc : (compress_price price k : ℤ) = Int.floor (round_double (price * 10 ^ k)) := by
    have hfy0 : 0 ≤ Int.floor (round_double (price * 10 ^ k)) := le_trans hf0 hfy1
    have hlt : (Int.floor (round_double (price * 10 ^ k))).toNat < 2 ^ 32 := by omega
    have hn : compress_price price k = (Int.floor (round_double (price * 10 ^ k))).toNat := by
      simp only [compress_price, double_to_uint32, multiplier_loop_precision k hk, UINT_RANGE]
      push_cast
      rw [if_pos hy0]
      exact Nat.mod_eq_of_lt hlt
    rw [hn]
    exact Int.toNat_of_nonneg hfy0
  have hcR : (compress_price price k : ℝ)
      = ((Int.floor (round_double (price * 10 ^ k)) : ℤ) : ℝ) := by
    rw [← hc]
    norm_cast
  have hd : decompress_price (compress_price price k) k
      = round_double ((compress_price price k : ℝ) / 10 ^ k) := by
    simp only [decompress_price, multiplier_loop_precision k hk]
    push_cast
    rfl
  have hc_lo : price * 10 ^ k - 1 < (compress_price price k : ℝ) := by
    have h1 := Int.lt_floor_add_one (price * 10 ^ k)
    have h2 : ((Int.floor (price * 10 ^ k) : ℤ) : ℝ) ≤ (compress_price price k : ℝ) := by
      rw [hcR]
      exact_mod_cast hfy1
    linarith
  have hc_hi : (compress_price price k : ℝ) < price * 10 ^ k + 1 := by
    have h1 := Int.ceil_lt_add_one (price * 10 ^ k)
    have h2 : (compress_price price k : ℝ) ≤ ((Int.ceil (price * 10 ^ k) : ℤ) : ℝ) := by
      rw [hcR]
      exact_mod_cast hfy2
    linarith
  have hc_32 : (compress_price price k : ℝ) ≤ 2 ^ 32 - 1 := by
    rw [hcR]
    have : Int.floor (round_double (price * 10 ^ k)) ≤ 2 ^ 32 - 1 := le_trans hfy2 hceil
    exact_mod_cast this
  have hc0 : (0 : ℝ) ≤ (compress_price price k : ℝ) := Nat.cast_nonneg _
  refine ⟨hc, ⟨hc ▸ hfy1, hc ▸ hfy2⟩, hd, ?_, ?_⟩
  · have hq0 : (0 : ℝ) ≤ (compress_price price k : ℝ) / 10 ^ k := div_nonneg hc0 hpow.le
    have hnormal : (compress_price price k : ℝ) / 10 ^ k = 0 ∨
        (2 : ℝ) ^ (-1022 : ℤ) ≤ |(compress_price price k : ℝ) / 10 ^ k| := by
      rcases Nat.eq_zero_or_pos (compress_price price k) with h0 | h1
      · left
        rw [h0]
        simp
      · right
        rw [abs_of_nonneg hq0, le_div_iff₀ hpow]
        have hc1 : (1 : ℝ) ≤ (compress_price price k : ℝ) := by exact_mod_cast h1
        have h10 : (10 : ℝ) ^ k ≤ 10 ^ 9 := pow_le_pow_right₀ (by norm_num) hk
        have h2 : (2 : ℝ) ^ (-1022 : ℤ) ≤ (2 : ℝ) ^ (-30 : ℤ) :=
          zpow_le_zpow_right₀ (by norm_num) (by norm_num)
        have h3 : (2 : ℝ) ^ (-30 : ℤ) * 10 ^ 9 ≤ 1 := by norm_num
        have h4 : (0 : ℝ) < (2 : ℝ) ^ (-1022 : ℤ) := zpow_pos (by norm_num) _
        calc (2 : ℝ) ^ (-1022 : ℤ) * 10 ^ k ≤ (2 : ℝ) ^ (-30 : ℤ) * 10 ^ 9 :=
              mul_le_mul h2 h10 hpow.le (by positivity)
          _ ≤ 1 := h3
          _ ≤ (compress_price price k : ℝ) := hc1
    have herr := round_double_error _ hnormal
    rw [abs_of_nonneg hq0] at herr
    rw [hd]
    have hA : |round_double ((compress_price price k : ℝ) / 10 ^ k)
        - (compress_price price k : ℝ) / 10 ^ k| < 1 / 2 ^ 21 * ((10 : ℝ) ^ k)⁻¹ := by
      refine lt_of_le_of_lt herr ?_
      rw [div_div, div_lt_iff₀ (by positivity)]
      have : 1 / 2 ^ 21 * ((10 : ℝ) ^ k)⁻¹ * (10 ^ k * 2 ^ 53) = 2 ^ 32 := by
        field_simp
        ring
      rw [this]
      linarith
    have hB : |(compress_price price k : ℝ) / 10 ^ k - price| < ((10 : ℝ) ^ k)⁻¹ := by
      have e : (compress_price price k : ℝ) / 10 ^ k - price
          = ((compress_price price k : ℝ) - price * 10 ^ k) * ((10 : ℝ) ^ k)⁻¹ := by
        field_simp
        ring
      rw [e, abs_mul, abs_of_pos (inv_pos.mpr hpow)]
      have : |(compress_price price k : ℝ) - price * 10 ^ k| < 1 := by
        rw [abs_lt]
        constructor <;> linarith
      calc |(compress_price price k : ℝ) - price * 10 ^ k| * ((10 : ℝ) ^ k)⁻¹
          < 1 * ((10 : ℝ) ^ k)⁻¹ := mul_lt_mul_of_pos_right this (inv_pos.mpr hpow)
        _ = ((10 : ℝ) ^ k)⁻¹ := one_mul _
    calc |round_double ((compress_price price k : ℝ) / 10 ^ k) - price|
        = |(round_double ((compress_price price k : ℝ) / 10 ^ k)
            - (compress_price price k : ℝ) / 10 ^ k)
          + ((compress_price price k : ℝ) / 10 ^ k - price)| := by ring_nf
      _ ≤ |round_double ((compress_price price k : ℝ) / 10 ^ k)
            - (compress_price price k : ℝ) / 10 ^ k|
          + |(compress_price price k : ℝ) / 10 ^ k - price| := abs_add _ _
      _ < 1 / 2 ^ 21 * ((10 : ℝ) ^ k)⁻¹ + ((10 : ℝ) ^ k)⁻¹ := add_lt_add hA hB
      _ = (1 + 1 / 2 ^ 21) * ((10 : ℝ) ^ k)⁻¹ := by ring
  · intro z hz
    have hzabs : |(z : ℝ)| < 2 ^ 53 := by
      rw [← hz]
      exact habs
    have hcz : (compress_price price k : ℤ) = z := by
      rw [hc, hz, round_double_intCast z hzabs, Int.floor_intCast]
    refine ⟨hcz, ?_⟩
    intro hdbl
    have hcz2 : (compress_price price k : ℝ) = (z : ℝ) := by
      rw [← hcz]
      norm_cast
    rw [hd, hcz2, ← hz]
    have : price * 10 ^ k / 10 ^ k = price := by field_simp
    rw [this, hdbl]

/-- Witness for C37 (amended): the price `123.4567` at precision 2. -/
theorem price_round_trip_witness :
    |decompress_price (compress_price (123.4567 : ℝ) 2) 2 - 123.4567|
      < (1 + 1 / 2 ^ 21) * ((10 : ℝ) ^ 2)⁻¹ :=
  (price_round_trip 123.4567 2 (by norm_num) (by norm_num) (by norm_num)).2.2.2.1

/-! ## C38: pattern detection -/

/-- C38: for a price array of length at least 5 whose last two prices are positive,
`detect_patterns` returns a sub-mask of `pattern_mask` in which bit 2 (hammer) is not set and
the bits 0 (bullish engulfing) and 4 (doji) are not both set; for a length below 5 it
returns 0. -/
theorem detect_patterns_bits (prices : List ℝ) (length pattern_mask : Nat) :
    (5 ≤ length → 0 < prices.getD (length - 1 - 1) 0 → 0 < prices.getD (length - 1) 0 →
      detect_patterns prices length pattern_mask &&& pattern_mask
        = detect_patterns prices length pattern_mask ∧
      (detect_patterns prices length pattern_mask).testBit 2 = false ∧
      ¬ ((detect_patterns prices length pattern_mask).testBit 0 = true ∧
        (detect_patterns prices length pattern_mask).testBit 4 = true)) ∧
    (length < 5 → detect_patterns prices length pattern_mask = 0) := by
  constructor
  · intro hlen ho hc
    have hl : ¬ length < 5 := by omega
    generalize hop : prices.getD (length - 1 - 1) 0 = o at ho
    generalize hcl : prices.getD (length - 1) 0 = c at hc
    have hrange : abs (c - o) < max o c * 1.01 - min o c * 0.99 := by
      rcases le_total o c with h | h
      · rw [max_eq_right h, min_eq_left h, abs_of_nonneg (by linarith)]
        linarith
      · rw [max_eq_left h, min_eq_right h, abs_of_nonpos (by linarith)]
        linarith
    have hbody : 0 ≤ abs (c - o) := abs_nonneg _
    have hham : ¬ (c > o ∧ max o c * 1.01 - c < abs (c - o) * 0.3 ∧
        o - min o c * 0.99 > abs (c - o) * 2) := by
      rintro ⟨h1, h2, h3⟩
      rw [max_eq_right h1.le, abs_of_pos (by linarith)] at h2
      rw [min_eq_left h1.le, abs_of_pos (by linarith)] at h3
      linarith
    have hboth : ¬ ((c > o ∧ abs (c - o) > (max o c * 1.01 - min o c * 0.99) * 0.6) ∧
        abs (c - o) < (max o c * 1.01 - min o c * 0.99) * 0.1) := by
      rintro ⟨⟨_, h1⟩, h2⟩
      linarith
    have hd : ∃ d : Nat, (d = 0 ∨ d = 1 ∨ d = 16) ∧
        detect_patterns prices length pattern_mask = d &&& pattern_mask := by
      simp only [detect_patterns, hl, if_false, hop, hcl, hham, SET_BIT]
      by_cases h0 : c > o ∧ abs (c - o) > (max o c * 1.01 - min o c * 0.99) * 0.6
      · have h4 : ¬ abs (c - o) < (max o c * 1.01 - min o c * 0.99) * 0.1 :=
          fun h => hboth ⟨h0, h⟩
        exact ⟨1, Or.inr (Or.inl rfl), by simp only [h0, h4, if_true, if_false]; rfl⟩
      · by_cases h4 : abs (c - o) < (max o c * 1.01 - min o c * 0.99) * 0.1
        · exact ⟨16, Or.inr (Or.inr rfl), by simp only [h0, h4, if_true, if_false]; rfl⟩
        · exact ⟨0, Or.inl rfl, by simp only [h0, h4, if_false]⟩
    obtain ⟨d, hd1, hd2⟩ := hd
    rw [hd2]
    have b1 : Nat.testBit 1 2 = false := by decide
    have b2 : Nat.testBit 16 2 = false := by decide
    have b3 : Nat.testBit 1 4 = false := by decide
    have b4 : Nat.testBit 16 0 = false := by decide
    refine ⟨?_, ?_, ?_⟩
    · rw [Nat.and_assoc, Nat.and_self]
    · rw [Nat.testBit_and]
      rcases hd1 with h | h | h <;> subst h <;> simp [b1, b2]
    · rw [Nat.testBit_and, Nat.testBit_and]
      rcases hd1 with h | h | h <;> subst h <;> simp [b3, b4]
  · intro hlen
    simp only [detect_patterns, hlen, if_true]

/-- Witness for C38: the prices `1, 2, 3, 100, 110` with every bit of the mask set; only
bit 0 is reported. -/
theorem detect_patterns_bits_witness :
    detect_patterns ([1, 2, 3, 100, 110] : List ℝ) 5 31 &&& 31
      = detect_patterns ([1, 2, 3, 100, 110] : List ℝ) 5 31 ∧
    (detect_patterns ([1, 2, 3, 100, 110] : List ℝ) 5 31).testBit 2 = false ∧
    ¬ ((detect_patterns ([1, 2, 3, 100, 110] : List ℝ) 5 31).testBit 0 = true ∧
      (detect_patterns ([1, 2, 3, 100, 110] : List ℝ) 5 31).testBit 4 = true) :=
  (detect_patterns_bits [1, 2, 3, 100, 110] 5 31).1 (by norm_num) (by norm_num) (by norm_num)

end Dji
